import Mathlib

/-!
# Exposure-detection pipeline: classification rules and probes

A shallow embedding of the probing code of two browser extensions of the
repository:

* `src/LeakDetect/content_script.js` (`PATTERNS`, `fetchWithTimeout`, `checkGit`,
  `checkEnv`, `checkSite`), namespace `LeakDetect`;
* `src/git-env-detector/background.js` (`checkGitConfig`, `checkEnvFile`,
  `addFoundItem`), namespace `GitEnvDetector`.

JavaScript strings are modelled as lists of characters, regular-expression
literals as a small abstract syntax with a backtracking matcher that returns
every position at which a match may end, and the network as a function from the
request to its answer.
-/

/-- A JavaScript string, as the list of its characters. -/
abbrev Str := List Char

namespace JsRegex

/-- The `LineTerminator` code points of ECMAScript: LF, CR, LS and PS. -/
def isLineTerminator (c : Char) : Bool :=
  c.toNat = 0x0A || c.toNat = 0x0D || c.toNat = 0x2028 || c.toNat = 0x2029

/-- The characters matched by `\s`: `WhiteSpace` and `LineTerminator`. -/
def isSpace (c : Char) : Bool :=
  c.toNat = 0x09 || c.toNat = 0x0B || c.toNat = 0x0C || c.toNat = 0x20 || c.toNat = 0xA0
    || c.toNat = 0x1680 || (0x2000 ≤ c.toNat && c.toNat ≤ 0x200A) || c.toNat = 0x202F
    || c.toNat = 0x205F || c.toNat = 0x3000 || c.toNat = 0xFEFF || isLineTerminator c

/-- The operation `Canonicalize` of a regular expression without the `u` flag: upper-casing,
where a character outside ASCII is never mapped to an ASCII one (the guard of
the standard); the characters outside ASCII are left in place, which no ASCII
pattern character can tell from their real upper-case form. -/
def canonicalize (c : Char) : Char := c.toUpper

/-- One item between the brackets of a character class. -/
inductive ClassAtom where
  | single (c : Char)
  | range (lo hi : Char)
  | space
  | nonSpace

/-- Membership of a character in a class item, case-sensitively. -/
def ClassAtom.has : ClassAtom → Char → Bool
  | .single a, c => c = a
  | .range lo hi, c => lo.toNat ≤ c.toNat && c.toNat ≤ hi.toNat
  | .space, c => isSpace c
  | .nonSpace, c => !isSpace c

/-- Membership in a class item under the `i` flag, for ASCII letters: some
member of the item has the canonical form of the character. -/
def ClassAtom.hasFolded (a : ClassAtom) (c : Char) : Bool :=
  a.has c || a.has (canonicalize c) || a.has c.toLower

/-- The flags of a regular-expression literal that the sources use. -/
structure Flags where
  ignoreCase : Bool
  multiline : Bool

/-- Does the pattern character `a` match the input character `c`? -/
def charMatches (fl : Flags) (a c : Char) : Bool :=
  if fl.ignoreCase then canonicalize a = canonicalize c else a = c

/-- Does the class with the items `atoms` match the input character `c`? -/
def classMatches (fl : Flags) (atoms : List ClassAtom) (c : Char) : Bool :=
  if fl.ignoreCase then atoms.any (fun a => a.hasFolded c) else atoms.any (fun a => a.has c)

/-- Abstract syntax of the regular expressions of the sources. -/
inductive Re where
  | eps
  | chr (c : Char)
  | cls (atoms : List ClassAtom)
  | bol
  | seq (a b : Re)
  | alt (a b : Re)
  | star (a : Re)
  | plus (a : Re)
  | rep (n : Nat) (a : Re)

/-- A position of the matcher in the input: the character just before it, if
any, and the input that remains. -/
structure Pos where
  prev : Option Char
  rest : Str

/-- The assertion `^`: at the start of the input, or, with the `m` flag, right
after a line terminator. -/
def atLineStart (fl : Flags) (p : Pos) : Bool :=
  match p.prev with
  | none => true
  | some c => fl.multiline && isLineTerminator c

/-- Zero or more iterations of `step`, an iteration that consumes nothing being
rejected; `fuel` bounds the number of iterations by the remaining length. -/
def starFrom (step : Pos → List Pos) : Nat → Pos → List Pos
  | 0, p => [p]
  | fuel + 1, p =>
    p :: ((step p).filter (fun q => q.rest.length < p.rest.length)).flatMap (starFrom step fuel)

/-- Exactly `n` iterations of `step`. -/
def repFrom (step : Pos → List Pos) : Nat → Pos → List Pos
  | 0, p => [p]
  | n + 1, p => (step p).flatMap (repFrom step n)

/-- Every position at which a match of the expression that starts at `p` may
end. -/
def Re.run (fl : Flags) : Re → Pos → List Pos
  | .eps, p => [p]
  | .chr a, p =>
    match p.rest with
    | [] => []
    | c :: t => if charMatches fl a c then [⟨some c, t⟩] else []
  | .cls atoms, p =>
    match p.rest with
    | [] => []
    | c :: t => if classMatches fl atoms c then [⟨some c, t⟩] else []
  | .bol, p => if atLineStart fl p then [p] else []
  | .seq a b, p => (Re.run fl a p).flatMap (Re.run fl b)
  | .alt a b, p => Re.run fl a p ++ Re.run fl b p
  | .star a, p => starFrom (Re.run fl a) p.rest.length p
  | .plus a, p => (Re.run fl a p).flatMap (fun q => starFrom (Re.run fl a) q.rest.length q)
  | .rep n a, p => repFrom (Re.run fl a) n p

/-- The sequence of the pattern characters of `w`. -/
def Re.lit : Str → Re
  | [] => .eps
  | c :: cs => .seq (.chr c) (Re.lit cs)

/-- Try a match at the current position, then at every later one. -/
def searchFrom (fl : Flags) (r : Re) : Option Char → Str → Bool
  | prev, [] => !(r.run fl ⟨prev, []⟩).isEmpty
  | prev, c :: t => !(r.run fl ⟨prev, c :: t⟩).isEmpty || searchFrom fl r (some c) t

/-- A regular-expression literal: its body and flags. -/
structure RegExp where
  body : Re
  flags : Flags

/-- The method `RegExp.prototype.test` of a literal without the `g` and `y` flags: is there
a match starting anywhere in `s`? -/
def RegExp.test (re : RegExp) (s : Str) : Bool :=
  searchFrom re.flags re.body none s

end JsRegex

open JsRegex

/-! ## The fetch interface shared by both extensions -/

/-- What a JavaScript operation of the model may throw. -/
inductive Fault where
  | network
  | abort
  | typeError
  | runtime
  deriving DecidableEq, Repr

/-- The second argument of `fetch`; a field that the caller leaves out is
`none` (or empty). `signal` records that an abort signal is attached. -/
structure RequestInit where
  method : Option Str
  headers : List (Str × Str)
  credentials : Option Str
  redirect : Option Str
  timeout : Option Nat
  signal : Bool
  deriving DecidableEq

/-- One call of `fetch`. -/
structure Request where
  url : Str
  init : RequestInit
  deriving DecidableEq

/-- A response: its status, and what `response.text()` gives. -/
structure Response where
  status : Nat
  text : Except Fault Str

/-- The answer of the network to a request: the time in milliseconds after
which the `fetch` promise settles, and how it settles. -/
structure Answer where
  delay : Nat
  outcome : Except Fault Response

/-- The behaviour of the network during one check. -/
abbrev Network := Request → Answer

/-- A result of a step together with the requests issued so far. -/
abbrev Logged (α : Type) := Except Fault α × List Request

namespace LeakDetect

/-- The path `PATHS.git.head`. -/
def PATHS.git.head : Str := "/.git/HEAD".toList
/-- The path `PATHS.git.config`. -/
def PATHS.git.config : Str := "/.git/config".toList
/-- The path `PATHS.env`. -/
def PATHS.env : Str := "/.env".toList

/-- The constant `PATTERNS.git.head.header`. -/
def PATTERNS.git.head.header : Str := "ref: refs/heads/".toList

/-- The constant `PATTERNS.git.head.regex`, the literal `/[a-f0-9]{40}/`. -/
def PATTERNS.git.head.regex : RegExp :=
  ⟨.rep 40 (.cls [.range 'a' 'f', .range '0' '9']), ⟨false, false⟩⟩

/-- The words of `PATTERNS.git.config.patterns`, each an escaped bracket
followed by letters. -/
def configWords : List Str :=
  ["[gc".toList, "[core".toList, "[user".toList, "[http".toList, "[remote".toList,
   "[branch".toList, "[credentials".toList]

/-- The list `PATTERNS.git.config.patterns`. -/
def PATTERNS.git.config.patterns : List RegExp :=
  configWords.map (fun w => ⟨Re.lit w, ⟨false, false⟩⟩)

/-- The constant `PATTERNS.git.config.excludeHtml`, the literal `/<html|<body/i`. -/
def PATTERNS.git.config.excludeHtml : RegExp :=
  ⟨.alt (Re.lit "<html".toList) (Re.lit "<body".toList), ⟨true, false⟩⟩

/-- The part `^[A-Z_]+=` of the env expression. -/
def envAssign : Re :=
  .seq .bol (.seq (.plus (.cls [.range 'A' 'Z', .single '_'])) (.chr '='))

/-- The first alternative of `PATTERNS.env.regex`. -/
def envAlt1 : Re := envAssign

/-- The second alternative of `PATTERNS.env.regex`: `^[#\n\r ][\s\S]*^[A-Z_]+=`. -/
def envAlt2 : Re :=
  .seq .bol (.seq (.cls [.single '#', .single '\n', .single '\r', .single ' '])
    (.seq (.star (.cls [.space, .nonSpace])) envAssign))

/-- The constant `PATTERNS.env.regex`, the literal `/^[A-Z_]+=|^[#\n\r ][\s\S]*^[A-Z_]+=/m`. -/
def PATTERNS.env.regex : RegExp := ⟨.alt envAlt1 envAlt2, ⟨false, true⟩⟩

/-- The function `fetchWithTimeout`: the request carries the options and the abort signal;
the timer aborts a fetch that has not settled after `timeout` milliseconds. -/
def fetchWithTimeout (net : Network) (resource : Str) (options : RequestInit)
    (log : List Request) : Logged Response :=
  let timeout := options.timeout.getD 8000
  let req : Request := ⟨resource, { options with signal := true }⟩
  (if (net req).delay < timeout then (net req).outcome else .error .abort, log ++ [req])

/-- The options of every probe of this extension. -/
def probeOptions : RequestInit :=
  { method := none, headers := [], credentials := none,
    redirect := some "manual".toList, timeout := some 8000, signal := false }

/-- The request that `fetchWithTimeout` passes to `fetch` for a probe of
`resource`. -/
def probeRequest (resource : Str) : Request :=
  ⟨resource, { probeOptions with signal := true }⟩

/-- How a probe settles: as the network answers, or with the abort of the timer
when the answer has not come within 8000 ms. -/
def settled (a : Answer) : Except Fault Response :=
  if a.delay < 8000 then a.outcome else .error .abort

/-- The probe of `/.git/HEAD`. -/
def headRequest (url : Str) : Request := probeRequest (url ++ PATHS.git.head)

/-- The probe of `/.git/config`. -/
def configRequest (url : Str) : Request := probeRequest (url ++ PATHS.git.config)

/-- The probe of `/.env`. -/
def envRequest (url : Str) : Request := probeRequest (url ++ PATHS.env)

/-- The condition of line 77 on the text of `/.git/HEAD`. -/
def headTextMatches (headText : Str) : Bool :=
  PATTERNS.git.head.header.isPrefixOf headText || PATTERNS.git.head.regex.test headText

/-- Lines 73-81 of `checkGit`: `true` when the function returns `true` there,
`false` when control goes on to the config probe. -/
def headStep (headResponse : Response) : Except Fault Bool :=
  if headResponse.status = 200 then
    match headResponse.text with
    | .error e => .error e
    | .ok headText => .ok (headTextMatches headText)
  else .ok false

/-- Lines 96-107 of `checkGit` on the text of `/.git/config`, with the final
`return false`. -/
def configTextVerdict (configText : Str) : Bool :=
  if PATTERNS.git.config.excludeHtml.test configText then false
  else if PATTERNS.git.config.patterns.any (fun pattern => pattern.test configText) then true
  else false

/-- Lines 92-113 of `checkGit`: the value returned once the config response is
there. -/
def configStep (configResponse : Response) : Except Fault Bool :=
  if configResponse.status = 200 then
    match configResponse.text with
    | .error e => .error e
    | .ok configText => .ok (configTextVerdict configText)
  else .ok false

/-- The `try` block of `checkGit`. -/
def checkGitTry (net : Network) (url : Str) (log : List Request) : Logged Bool :=
  let headUrl := url ++ PATHS.git.head
  match fetchWithTimeout net headUrl probeOptions log with
  | (.error e, log1) => (.error e, log1)
  | (.ok headResponse, log1) =>
    match headStep headResponse with
    | .error e => (.error e, log1)
    | .ok true => (.ok true, log1)
    | .ok false =>
      let configUrl := url ++ PATHS.git.config
      match fetchWithTimeout net configUrl probeOptions log1 with
      | (.error e, log2) => (.error e, log2)
      | (.ok configResponse, log2) => (configStep configResponse, log2)

/-- The function `checkGit`: the `catch` clause only logs, and the function then returns
`false`. -/
def checkGit (net : Network) (url : Str) (log : List Request) : Logged Bool :=
  match checkGitTry net url log with
  | (.error _, log1) => (.ok false, log1)
  | (.ok found, log1) => (.ok found, log1)

/-- Lines 126-131 of `checkEnv`, with the final `return false`. -/
def envStep (response : Response) : Except Fault Bool :=
  if response.status = 200 then
    match response.text with
    | .error e => .error e
    | .ok text => .ok (PATTERNS.env.regex.test text)
  else .ok false

/-- The `try` block of `checkEnv`. -/
def checkEnvTry (net : Network) (url : Str) (log : List Request) : Logged Bool :=
  let checkUrl := url ++ PATHS.env
  match fetchWithTimeout net checkUrl probeOptions log with
  | (.error e, log1) => (.error e, log1)
  | (.ok response, log1) => (envStep response, log1)

/-- The function `checkEnv`. -/
def checkEnv (net : Network) (url : Str) (log : List Request) : Logged Bool :=
  match checkEnvTry net url log with
  | (.error _, log1) => (.ok false, log1)
  | (.ok found, log1) => (.ok found, log1)

/-- The object `options.functions`. -/
structure Functions where
  git : Bool
  env : Bool

/-- The `options` argument of `checkSite`; `functions` is `none` when the
message carries no such field. -/
structure Options where
  functions : Option Functions

/-- The message `FINDINGS_FOUND` sent to the background script. -/
structure FindingsMessage where
  url : Str
  types : List Str
  deriving DecidableEq

/-- The object returned by `checkSite`. -/
structure SiteResult where
  foundTypes : List Str
  success : Bool
  error : Option Fault
  deriving DecidableEq

/-- What `checkSite` leaves behind: its value, the requests issued and the
messages sent. -/
structure SiteRun where
  value : Except Fault SiteResult
  requests : List Request
  messages : List FindingsMessage

/-- The order in which `fetch` is called by two checks that are started one
after the other and awaited together: a check issues its first request when
it is started, and the later requests of the first check follow its response. -/
def startedTogether (first second : List Request) : List Request :=
  first.take 1 ++ second ++ first.drop 1

/-- The `try` block of `checkSite`. The two checks are started one after the
other and awaited with `Promise.all`: `fetch` is called for `/.git/HEAD`, then
for `/.env`, then for `/.git/config`. -/
def checkSiteTry (net : Network) (sendMessage : FindingsMessage → Except Fault Unit)
    (url : Str) (options : Options) : SiteRun :=
  match options.functions with
  | none => ⟨.error .typeError, [], []⟩
  | some functions =>
    let git : Logged (List (Str × Bool)) :=
      if functions.git then
        match checkGit net url [] with
        | (.ok result, log) => (.ok [("git".toList, result)], log)
        | (.error e, log) => (.error e, log)
      else (.ok [], [])
    let env : Logged (List (Str × Bool)) :=
      if functions.env then
        match checkEnv net url [] with
        | (.ok result, log) => (.ok [("env".toList, result)], log)
        | (.error e, log) => (.error e, log)
      else (.ok [], [])
    let requests := startedTogether git.2 env.2
    match git.1, env.1 with
    | .error e, _ => ⟨.error e, requests, []⟩
    | .ok _, .error e => ⟨.error e, requests, []⟩
    | .ok g, .ok v =>
      let results := g ++ v
      let foundTypes := (results.filter (fun result => result.2)).map (fun result => result.1)
      if foundTypes.length > 0 then
        match sendMessage ⟨url, foundTypes⟩ with
        | .error e => ⟨.error e, requests, []⟩
        | .ok _ => ⟨.ok ⟨foundTypes, true, none⟩, requests, [⟨url, foundTypes⟩]⟩
      else ⟨.ok ⟨foundTypes, true, none⟩, requests, []⟩

/-- The function `checkSite`: a fault of the `try` block gives the result without findings. -/
def checkSite (net : Network) (sendMessage : FindingsMessage → Except Fault Unit)
    (url : Str) (options : Options) : SiteRun :=
  match checkSiteTry net sendMessage url options with
  | ⟨.error e, requests, messages⟩ => ⟨.ok ⟨[], false, some e⟩, requests, messages⟩
  | run => run

end LeakDetect

namespace GitEnvDetector

/-- The lower-case mapping of the Unicode tables for the characters outside
ASCII other than U+0130 and U+212A, given the text before and after the
character: it yields at least one character and none inside ASCII (U+0130 and
U+212A are the only characters outside ASCII whose lower-case form has an ASCII
character). -/
structure CaseTable where
  lower : Str → Char → Str → Str
  lower_ne : ∀ before c after, lower before c after ≠ []
  lower_high : ∀ before c after, ∀ d ∈ lower before c after, 128 ≤ d.toNat

/-- The lower-case form of one character of a string. -/
def lowerChar (U : CaseTable) (before : Str) (c : Char) (after : Str) : Str :=
  if c.toNat < 128 then [c.toLower]
  else if c.toNat = 0x130 then ['i', Char.ofNat 0x307]
  else if c.toNat = 0x212A then ['k']
  else U.lower before c after

/-- The characters of a string after `before`, in lower case. -/
def lowerFrom (U : CaseTable) : Str → Str → Str
  | _, [] => []
  | before, c :: after => lowerChar U before c after ++ lowerFrom U (before ++ [c]) after

/-- The method `String.prototype.toLowerCase`. -/
def toLowerCase (U : CaseTable) (s : Str) : Str := lowerFrom U [] s

/-- The method `String.prototype.includes`. -/
def includes (s needle : Str) : Bool :=
  match s with
  | [] => needle.isPrefixOf []
  | c :: t => needle.isPrefixOf (c :: t) || includes t needle

/-- The array `gitPatterns` of `checkGitConfig`. -/
def gitPatterns : List RegExp :=
  [⟨Re.lit "[gc".toList, ⟨false, false⟩⟩, ⟨Re.lit "[core".toList, ⟨false, false⟩⟩,
   ⟨Re.lit "[user".toList, ⟨false, false⟩⟩, ⟨Re.lit "[http".toList, ⟨false, false⟩⟩,
   ⟨Re.lit "[remote".toList, ⟨false, false⟩⟩, ⟨Re.lit "[branch".toList, ⟨false, false⟩⟩,
   ⟨Re.lit "[credentials".toList, ⟨false, false⟩⟩]

/-- The part `^[a-zA-Z_][a-zA-Z0-9_]*\s*=` of `envPattern`. -/
def envAssign : Re :=
  .seq .bol (.seq (.cls [.range 'a' 'z', .range 'A' 'Z', .single '_'])
    (.seq (.star (.cls [.range 'a' 'z', .range 'A' 'Z', .range '0' '9', .single '_']))
      (.seq (.star (.cls [.space])) (.chr '='))))

/-- The constant `envPattern` of `checkEnvFile`, the literal
`/^[a-zA-Z_][a-zA-Z0-9_]*\s*=|^[#\n\r ][\s\S]*^[a-zA-Z_][a-zA-Z0-9_]*\s*=/m`. -/
def envPattern : RegExp :=
  ⟨.alt envAssign
    (.seq .bol (.seq (.cls [.single '#', .single '\n', .single '\r', .single ' '])
      (.seq (.star (.cls [.space, .nonSpace])) envAssign))),
   ⟨false, true⟩⟩

/-- An entry of `foundItems`. -/
structure FoundItem where
  id : Nat
  target : Str
  type : Str
  url : Str
  secrets : Option Str
  timestamp : Nat
  deriving DecidableEq

/-- A call of `chrome.notifications.create`. -/
structure Notification where
  title : Str
  message : Str
  priority : Nat
  deriving DecidableEq

/-- The module-level state of the background script, with what it has written
to the browser: the stored list, the notifications, the badge and the requests. -/
structure State where
  checkedTargets : List Str
  extensionEnabled : Bool
  gitCheckEnabled : Bool
  envCheckEnabled : Bool
  foundItems : List FoundItem
  stored : List FoundItem
  notifications : List Notification
  badgeText : Str
  badgeColor : Str
  requests : List Request

/-- The function `showNotification`. -/
def showNotification (st : State) (type target url : Str) : State :=
  let _ := target
  let typeLabel := if type = "git".toList then ".git/config".toList else ".env".toList
  { st with notifications := st.notifications ++
      [⟨typeLabel ++ " Exposed!".toList, "Found on: ".toList ++ url, 2⟩] }

/-- The function `updateBadge`. -/
def updateBadge (st : State) : State :=
  if !st.extensionEnabled then
    { st with badgeText := "OFF".toList, badgeColor := "#666666".toList }
  else
    let count := st.foundItems.length
    { st with badgeText := if count > 0 then (Nat.repr count).toList else [],
              badgeColor := "#dc3545".toList }

/-- The function `addFoundItem`; `now` is the reading of the clock. -/
def addFoundItem (now : Nat) (st : State) (target type url : Str) (secrets : Option Str) :
    State :=
  let item : FoundItem := ⟨now, target, type, url, secrets, now⟩
  let st1 := { st with foundItems := st.foundItems ++ [item] }
  let st2 := { st1 with stored := st1.foundItems }
  updateBadge (showNotification st2 type target url)

/-- The headers that both probes send. -/
def probeHeaders (baseUrl : Str) : List (Str × Str) :=
  [("Origin".toList, baseUrl), ("X-Forwarded-For".toList, "127.0.0.1".toList),
   ("Cookie".toList, "PHPSESSID=TEST".toList),
   ("User-Agent".toList, ("Mozilla/5.0 (X11; Linux x86_64) AppleWebKit/537.36 " ++
      "(KHTML, like Gecko) Chrome/133.0.0.0 Safari/537.36").toList)]

/-- The options that both probes pass to `fetch`. -/
def probeInit (baseUrl : Str) : RequestInit :=
  { method := some "GET".toList, headers := probeHeaders baseUrl,
    credentials := some "omit".toList, redirect := none, timeout := none, signal := false }

/-- The plain `fetch`: no timer; the promise settles as the network says. -/
def fetch (net : Network) (url : Str) (init : RequestInit) (st : State) :
    Except Fault Response × State :=
  ((net ⟨url, init⟩).outcome, { st with requests := st.requests ++ [⟨url, init⟩] })

/-- Lines 148-163 of `checkGitConfig`: is the finding added for this text? -/
def gitTextMatches (U : CaseTable) (text : Str) : Bool :=
  let lowerText := toLowerCase U text
  let hasGitPattern := gitPatterns.any (fun pattern => pattern.test text)
  let hasHtml := includes lowerText "<html".toList || includes lowerText "<body".toList
  hasGitPattern && !hasHtml

/-- Lines 146-163 of `checkGitConfig`: is `addFoundItem` reached once the
response is there? -/
def gitConfigFinds (U : CaseTable) (response : Response) : Except Fault Bool :=
  if response.status = 200 then
    match response.text with
    | .error e => .error e
    | .ok text => .ok (gitTextMatches U text)
  else .ok false

/-- The function `checkGitConfig`: the `catch` clause is empty. -/
def checkGitConfig (U : CaseTable) (net : Network) (now : Nat) (st : State)
    (baseUrl targetKey : Str) : Except Fault State :=
  let gitUrl := baseUrl ++ "/.git/config".toList
  match fetch net gitUrl (probeInit baseUrl) st with
  | (.error _, st1) => .ok st1
  | (.ok response, st1) =>
    match gitConfigFinds U response with
    | .error _ => .ok st1
    | .ok true => .ok (addFoundItem now st1 targetKey "git".toList gitUrl none)
    | .ok false => .ok st1

/-- Lines 187-191 of `checkEnvFile`: is `addFoundItem` reached once the response
is there? -/
def envFileFinds (response : Response) : Except Fault Bool :=
  if response.status = 200 then
    match response.text with
    | .error e => .error e
    | .ok text => .ok (envPattern.test text)
  else .ok false

/-- The function `checkEnvFile`: the `catch` clause is empty. -/
def checkEnvFile (net : Network) (now : Nat) (st : State) (baseUrl targetKey : Str) :
    Except Fault State :=
  let envUrl := baseUrl ++ "/.env".toList
  match fetch net envUrl (probeInit baseUrl) st with
  | (.error _, st1) => .ok st1
  | (.ok response, st1) =>
    match envFileFinds response with
    | .error _ => .ok st1
    | .ok true => .ok (addFoundItem now st1 targetKey "env".toList envUrl none)
    | .ok false => .ok st1

/-- The state of the background script when it starts, before storage is read. -/
def initialState : State :=
  { checkedTargets := [], extensionEnabled := true, gitCheckEnabled := true,
    envCheckEnabled := true, foundItems := [], stored := [], notifications := [],
    badgeText := [], badgeColor := [], requests := [] }

/-- A case table that leaves every character outside ASCII in place. -/
def plainTable : CaseTable where
  lower := fun _ c _ => if 128 ≤ c.toNat then [c] else [Char.ofNat 128]
  lower_ne := by
    intro before c after
    by_cases h : 128 ≤ c.toNat <;> simp [h]
  lower_high := by
    intro before c after d hd
    by_cases h : 128 ≤ c.toNat
    · simp only [h, if_true, List.mem_singleton] at hd
      rw [hd]
      exact h
    · simp only [h, if_false, List.mem_singleton] at hd
      rw [hd]
      decide

/-- The request of `checkGitConfig`. -/
def gitRequest (baseUrl : Str) : Request :=
  ⟨baseUrl ++ "/.git/config".toList, probeInit baseUrl⟩

/-- The request of `checkEnvFile`. -/
def envRequest (baseUrl : Str) : Request :=
  ⟨baseUrl ++ "/.env".toList, probeInit baseUrl⟩

end GitEnvDetector

/-! ## The background script of LeakDetect (`dotgit.js`) -/

namespace DotGit

/-- The field `functions` of the options. -/
structure Functions where
  git : Bool
  env : Bool
  deriving DecidableEq

/-- The field `notification` of the options. -/
structure NotificationOptions where
  new_git : Bool
  deriving DecidableEq

/-- The options of the background script. -/
structure Options where
  functions : Functions
  max_sites : Nat
  notification : NotificationOptions
  debug : Bool
  deriving DecidableEq

/-- The constant `DEFAULT_OPTIONS`. -/
def DEFAULT_OPTIONS : Options := ⟨⟨true, false⟩, 100, ⟨true⟩, false⟩

/-- An entry of the stored list `withExposedGit`. -/
structure Site where
  type : Str
  url : Str
  foundAt : Str
  timestamp : Nat
  deriving DecidableEq

/-- A call of `chrome.notifications.create`. -/
structure Notification where
  title : Str
  message : Str
  deriving DecidableEq

/-- The state of the background script with what it has written to the browser:
the list `withExposedGit` of `chrome.storage.local`, the module variable
`currentOptions`, the notifications created and the badge text. -/
structure State where
  withExposedGit : List Site
  currentOptions : Options
  notifications : List Notification
  badgeText : Str

/-- Whether the calls of the browser succeed during one handler: the reading of
the storage, the writing of the storage, and the reading inside `setBadge`. -/
structure Chrome where
  getOk : Bool
  setOk : Bool
  badgeOk : Bool

/-- The argument `data` of the message `FINDINGS_FOUND`. -/
structure Data where
  url : Str
  types : List Str

/-- The element `{ type, url }` of `newFindings`. -/
structure NewFinding where
  type : Str
  url : Str
  deriving DecidableEq

/-- The function `showNotification`. -/
def showNotification (st : State) (title message : Str) : State :=
  if !st.currentOptions.notification.new_git then st
  else { st with notifications := st.notifications ++ [⟨title, message⟩] }

/-- The function `setBadge`: the badge shows the number of stored entries, or
nothing when there is none; a failure is caught inside. -/
def setBadge (io : Chrome) (st : State) : State :=
  if io.badgeOk then
    let count := st.withExposedGit.length
    { st with badgeText := if count > 0 then (Nat.repr count).toList else [] }
  else st

/-- The object `pathMap`; a type that is not one of its keys gives `undefined`,
which the concatenation writes out. -/
def pathMap (type : Str) : Str :=
  if type = "git".toList then "/.git/".toList
  else if type = "env".toList then "/.env".toList
  else "undefined".toList

/-- The object `typeNames`, with the same reading of a missing key. -/
def typeNames (type : Str) : Str :=
  if type = "git".toList then "Git repository".toList
  else if type = "env".toList then "Environment file".toList
  else "undefined".toList

/-- The variables of the loop of `handleFindings`. -/
structure LoopState where
  withExposedGit : List Site
  updatedList : Bool
  newFindings : List NewFinding

/-- One iteration of the loop over `data.types` (lines 159-177); `now` is the
reading of the clock in this iteration. -/
def loopBody (origin : Str) (now : Nat) (ls : LoopState) (type : Str) : LoopState :=
  if !(ls.withExposedGit.any (fun item => item.url = origin && item.type = type)) then
    { withExposedGit := ls.withExposedGit ++ [⟨type, origin, origin ++ pathMap type, now⟩],
      updatedList := true,
      newFindings := ls.newFindings ++ [⟨type, origin⟩] }
  else ls

/-- The loop over `data.types`; the iteration number `i` reads the clock as
`clock i`. -/
def loop (origin : Str) (clock : Nat → Nat) : Nat → List Str → LoopState → LoopState
  | _, [], ls => ls
  | i, type :: rest, ls => loop origin clock (i + 1) rest (loopBody origin (clock i) ls type)

/-- The call `array.slice(-n)` for a natural number `n`: the last `n` elements,
and the whole array for `n = 0`. -/
def sliceLast {α : Type} (n : Nat) (l : List α) : List α :=
  if n = 0 then l else l.drop (l.length - n)

/-- Lines 179-182 of `handleFindings`: the limit on the number of stored sites. -/
def limitSites (max_sites : Nat) (withExposedGit : List Site) : List Site :=
  if withExposedGit.length > max_sites then sliceLast max_sites withExposedGit
  else withExposedGit

/-- The title of the notification for new findings (lines 195-197). -/
def notificationTitle (newFindings : List NewFinding) : Str :=
  match newFindings with
  | [f] => typeNames f.type ++ " found!".toList
  | _ => "Multiple exposures found!".toList

/-- The message of the notification for new findings (lines 199-201). -/
def notificationMessage (origin : Str) (newFindings : List NewFinding) : Str :=
  match newFindings with
  | [f] => "Found at: ".toList ++ f.url
  | _ => "Found ".toList ++ (Nat.repr newFindings.length).toList ++
      " exposures at: ".toList ++ origin

/-- The function `handleFindings`: the new state, and the `status` passed to
`sendResponse`. -/
def handleFindings (io : Chrome) (clock : Nat → Nat) (st : State) (data : Data) :
    State × Bool :=
  if !io.getOk then (st, false)
  else
    let origin := data.url
    let ls := loop origin clock 0 data.types ⟨st.withExposedGit, false, []⟩
    let withExposedGit := limitSites st.currentOptions.max_sites ls.withExposedGit
    if ls.updatedList then
      if !io.setOk then (st, false)
      else
        let st1 := setBadge io { st with withExposedGit := withExposedGit }
        if ls.newFindings.length > 0 then
          (showNotification st1 (notificationTitle ls.newFindings)
            (notificationMessage origin ls.newFindings), true)
        else (st1, true)
    else (st, true)

/-- The function `deleteSite`: the new state, and the `status` passed to
`sendResponse`. -/
def deleteSite (io : Chrome) (st : State) (url : Str) : State × Bool :=
  if !io.getOk then (st, false)
  else
    let sites := st.withExposedGit
    let updatedSites := sites.filter (fun site => site.url ≠ url)
    if !io.setOk then (st, false)
    else (setBadge io { st with withExposedGit := updatedSites }, true)

end DotGit

/-! ## The gate and the messages of git-env-detector -/

namespace GitEnvDetector

/-- The parts of a parsed address; `protocol` ends with its colon. -/
structure Url where
  protocol : Str
  hostname : Str
  port : Str
  pathname : Str
  search : Str
  hash : Str

/-- The function `getTargetKey`. -/
def getTargetKey (scheme hostname : Str) : Str :=
  scheme ++ "://".toList ++ hostname

/-- The function `isAlreadyFound`. -/
def isAlreadyFound (st : State) (targetKey : Str) : Bool :=
  st.foundItems.any (fun item => item.target = targetKey)

/-- The key that `checkTarget` computes for an address; `replace(':', '')`
removes the first colon of the protocol. -/
def targetKeyOf (url : Url) : Str :=
  getTargetKey (url.protocol.erase ':') url.hostname

/-- The method `Set.prototype.add` on the list of the members. -/
def setAdd (s : List Str) (k : Str) : List Str :=
  if s.contains k then s else s ++ [k]

/-- The method `Set.prototype.delete` on the list of the members. -/
def setDelete (s : List Str) (k : Str) : List Str :=
  s.filter (fun x => x ≠ k)

/-- The function `checkTarget`, run without interruption: `now1` and `now2` are
the readings of the clock when the git and the env finding are added. -/
def checkTarget (U : CaseTable) (net : Network) (now1 now2 : Nat) (st : State) (url : Url) :
    Except Fault State :=
  let scheme := url.protocol.erase ':'
  let hostname := url.hostname
  let targetKey := getTargetKey scheme hostname
  if st.checkedTargets.contains targetKey || isAlreadyFound st targetKey then .ok st
  else
    let st1 := { st with checkedTargets := setAdd st.checkedTargets targetKey }
    let baseUrl := scheme ++ "://".toList ++ hostname
    match (if st1.gitCheckEnabled then checkGitConfig U net now1 st1 baseUrl targetKey
      else .ok st1) with
    | .error e => .error e
    | .ok st2 =>
      if st2.envCheckEnabled then checkEnvFile net now2 st2 baseUrl targetKey else .ok st2

/-- The messages that the listener of the background script handles. -/
inductive Message where
  | getFoundItems
  | removeItem (itemId : Nat) (target : Str)
  | clearAll

/-- The listener `chrome.runtime.onMessage` of the background script. -/
def onMessage (st : State) : Message → State
  | .getFoundItems => st
  | .removeItem itemId target =>
    let st1 := { st with foundItems := st.foundItems.filter (fun item => item.id ≠ itemId) }
    let st2 := { st1 with stored := st1.foundItems }
    let st3 := { st2 with checkedTargets := setDelete st2.checkedTargets target }
    updateBadge st3
  | .clearAll =>
    updateBadge { st with foundItems := [], stored := [], checkedTargets := [] }

/-- The two probes. -/
inductive Kind where
  | git
  | env
  deriving DecidableEq

/-- A call of `checkTarget` that waits for the response of one of its probes. -/
structure Pending where
  kind : Kind
  baseUrl : Str
  targetKey : Str

/-- The background script with the calls of `checkTarget` that are in flight. -/
structure System where
  st : State
  pending : List Pending

/-- A call of `fetch` is issued. -/
def issue (st : State) (r : Request) : State :=
  { st with requests := st.requests ++ [r] }

/-- The rest of `checkGitConfig` once its fetch has settled. -/
def gitDone (U : CaseTable) (now : Nat) (st : State) (targetKey gitUrl : Str)
    (outcome : Except Fault Response) : State :=
  match outcome with
  | .error _ => st
  | .ok response =>
    match gitConfigFinds U response with
    | .ok true => addFoundItem now st targetKey "git".toList gitUrl none
    | _ => st

/-- The rest of `checkEnvFile` once its fetch has settled. -/
def envDone (now : Nat) (st : State) (targetKey envUrl : Str)
    (outcome : Except Fault Response) : State :=
  match outcome with
  | .error _ => st
  | .ok response =>
    match envFileFinds response with
    | .ok true => addFoundItem now st targetKey "env".toList envUrl none
    | _ => st

/-- The synchronous part of `checkTarget`: the gate, the entry in
`checkedTargets` and the first fetch. -/
def gate (sys : System) (url : Url) : System :=
  let scheme := url.protocol.erase ':'
  let hostname := url.hostname
  let targetKey := getTargetKey scheme hostname
  if sys.st.checkedTargets.contains targetKey || isAlreadyFound sys.st targetKey then sys
  else
    let st1 := { sys.st with checkedTargets := setAdd sys.st.checkedTargets targetKey }
    let baseUrl := scheme ++ "://".toList ++ hostname
    if st1.gitCheckEnabled then
      ⟨issue st1 (gitRequest baseUrl), sys.pending ++ [⟨.git, baseUrl, targetKey⟩]⟩
    else if st1.envCheckEnabled then
      ⟨issue st1 (envRequest baseUrl), sys.pending ++ [⟨.env, baseUrl, targetKey⟩]⟩
    else ⟨st1, sys.pending⟩

/-- The probe number `i` in flight receives its response: the rest of the
probe runs, and after the git probe the env probe starts if it is enabled. -/
def settle (U : CaseTable) (sys : System) (i : Nat) (outcome : Except Fault Response)
    (now : Nat) : System :=
  match sys.pending[i]? with
  | none => sys
  | some p =>
    let rest := sys.pending.eraseIdx i
    match p.kind with
    | .git =>
      let st1 := gitDone U now sys.st p.targetKey (p.baseUrl ++ "/.git/config".toList) outcome
      if st1.envCheckEnabled then
        ⟨issue st1 (envRequest p.baseUrl), rest ++ [⟨.env, p.baseUrl, p.targetKey⟩]⟩
      else ⟨st1, rest⟩
    | .env =>
      ⟨envDone now sys.st p.targetKey (p.baseUrl ++ "/.env".toList) outcome, rest⟩

/-- What can happen to the background script. -/
inductive Event where
  | navigate (url : Url)
  | settle (i : Nat) (outcome : Except Fault Response) (now : Nat)
  | message (m : Message)

/-- One step of the background script. -/
def step (U : CaseTable) (sys : System) : Event → System
  | .navigate url => gate sys url
  | .settle i outcome now => settle U sys i outcome now
  | .message m => ⟨onMessage sys.st m, sys.pending⟩

/-- A run of the background script. -/
def run (U : CaseTable) (sys : System) (events : List Event) : System :=
  events.foldl (step U) sys

/-- The background script at its start, with nothing in flight. -/
def initialSystem : System := ⟨initialState, []⟩

end GitEnvDetector

/-! ## The storage listener of git-env-detector -/

namespace GitEnvDetector

/-- The argument of the listener of `chrome.storage.onChanged`: the new value
of each key that has changed. -/
structure Changes where
  extensionEnabled : Option Bool
  gitCheckEnabled : Option Bool
  envCheckEnabled : Option Bool
  foundItems : Option (List FoundItem)

/-- The listener of `chrome.storage.onChanged` (lines 20-34). -/
def onStorageChanged (st : State) (changes : Changes) : State :=
  let st1 :=
    match changes.extensionEnabled with
    | some v => updateBadge { st with extensionEnabled := v }
    | none => st
  let st2 :=
    match changes.gitCheckEnabled with
    | some v => { st1 with gitCheckEnabled := v }
    | none => st1
  let st3 :=
    match changes.envCheckEnabled with
    | some v => { st2 with envCheckEnabled := v }
    | none => st2
  match changes.foundItems with
  | some l => { st3 with foundItems := l }
  | none => st3

end GitEnvDetector

/-! ## The web request listener of LeakDetect -/

namespace DotGit

/-- The message `CHECK_SITE` with the tab that it is sent to. -/
structure CheckSite where
  tabId : Nat
  url : Str
  options : Options
  deriving DecidableEq

/-- The answers of the browser to the calls of `processWebRequest`: the origin
that `new URL` gives for an address (`none` when the constructor throws), the
value of `options` in the storage, the ids of the tabs that `chrome.tabs.query`
finds for an address, whether the content script of a tab answers `PING`, and
the outcomes of `chrome.scripting.executeScript` and of sending `CHECK_SITE`. -/
structure Browser where
  origin : Str → Option Str
  options : Except Fault (Option Options)
  query : Str → Except Fault (List Nat)
  ping : Nat → Except Fault Bool
  executeScript : Nat → Except Fault Unit
  sendMessage : CheckSite → Except Fault Unit

/-- The module variables `extensionEnabled` and `processingUrls`, the stored list
`withExposedGit`, the tabs into which the content script was injected and the
messages `CHECK_SITE` handed to `chrome.tabs.sendMessage`. -/
structure Session where
  extensionEnabled : Bool
  processingUrls : List Str
  withExposedGit : List Site
  injected : List Nat
  sent : List CheckSite
  deriving DecidableEq

/-- The part of `processWebRequest` before its first `await`: the test of
`extensionEnabled`, the origin of `details.url`, taken outside the `try`, the test
of `processingUrls` and the addition of the origin. The origin is returned when
the function goes on. -/
def processStart (io : Browser) (s : Session) (url : Str) :
    Except Fault (Session × Option Str) :=
  if !s.extensionEnabled then .ok (s, none)
  else
    match io.origin url with
    | none => .error .typeError
    | some origin =>
      if s.processingUrls.contains origin then .ok (s, none)
      else
        .ok ({ s with processingUrls := GitEnvDetector.setAdd s.processingUrls origin },
          some origin)

/-- The inner `try` of `processWebRequest`: the message `PING`, the injection of
the content script when it does not answer, and the message `CHECK_SITE`; a
fault is caught and logged. -/
def contactTab (io : Browser) (s : Session) (tab : Nat) (origin : Str) (options : Options) :
    Session :=
  match io.ping tab with
  | .error _ => s
  | .ok isContentScriptAvailable =>
    let injection : Except Fault Session :=
      if !isContentScriptAvailable then
        match io.executeScript tab with
        | .error e => .error e
        | .ok _ => .ok { s with injected := s.injected ++ [tab] }
      else .ok s
    match injection with
    | .error _ => s
    | .ok s1 =>
      let s2 := { s1 with sent := s1.sent ++ [⟨tab, origin, options⟩] }
      match io.sendMessage ⟨tab, origin, options⟩ with
      | .error _ => s2
      | .ok _ => s2

/-- The part of `processWebRequest` after its first `await`, on the session as
it is then: the options, the tab, the inner `try`, and in `finally` the removal
of the origin from `processingUrls`. -/
def processRest (io : Browser) (s : Session) (url origin : Str) : Session :=
  let s1 :=
    match io.options with
    | .error _ => s
    | .ok result =>
      let options := result.getD DEFAULT_OPTIONS
      match io.query url with
      | .error _ => s
      | .ok [] => s
      | .ok (tab :: _) => contactTab io s tab origin options
  { s1 with processingUrls := GitEnvDetector.setDelete s1.processingUrls origin }

/-- The function `processWebRequest`, run without interruption; `.error` is the
rejection of the promise that it returns. -/
def processWebRequest (io : Browser) (s : Session) (url : Str) : Except Fault Session :=
  match processStart io s url with
  | .error e => .error e
  | .ok (s1, none) => .ok s1
  | .ok (s1, some origin) => .ok (processRest io s1 url origin)

end DotGit

/-! ## The navigation listeners of git-env-detector -/

namespace GitEnvDetector

/-- The argument `details` of the listeners of `chrome.webNavigation`. -/
structure NavDetails where
  frameId : Nat
  tabId : Nat
  url : Str

/-- The argument `changeInfo` of the listener of `chrome.tabs.onUpdated`. -/
structure ChangeInfo where
  url : Option Str
  status : Option Str

/-- The background script, with the calls of `checkTarget` in flight and the
map `tabUrls`. -/
structure Background where
  sys : System
  tabUrls : List (Nat × Str)

/-- The method `Map.prototype.get` on the list of the entries. -/
def mapGet (m : List (Nat × Str)) (k : Nat) : Option Str :=
  (m.find? (fun e => e.1 = k)).map (fun e => e.2)

/-- The method `Map.prototype.set` on the list of the entries. -/
def mapSet (m : List (Nat × Str)) (k : Nat) (v : Str) : List (Nat × Str) :=
  if m.any (fun e => e.1 = k) then m.map (fun e => if e.1 = k then (k, v) else e)
  else m ++ [(k, v)]

/-- The `try` block of the listeners: `new URL(text)`, given by `parse` with
`none` when the constructor throws, the test of the protocol, the call of
`checkTarget` and, for the tab `record`, the entry of `tabUrls`. A throwing
constructor ends the block in `catch (e) {}`. The promise of `checkTarget` is
not awaited: its synchronous part `gate` runs inside the listener, and the
rest follows when the probes settle. -/
def tryCheck (parse : Str → Option Url) (bg : Background) (text : Str)
    (record : Option Nat) : Background :=
  match parse text with
  | none => bg
  | some url =>
    if url.protocol = "http:".toList ∨ url.protocol = "https:".toList then
      ⟨gate bg.sys url,
        match record with
        | none => bg.tabUrls
        | some tabId => mapSet bg.tabUrls tabId text⟩
    else bg

/-- The listener of `chrome.webNavigation.onBeforeNavigate`. -/
def onBeforeNavigate (parse : Str → Option Url) (bg : Background) (details : NavDetails) :
    Background :=
  if !bg.sys.st.extensionEnabled then bg
  else if details.frameId = 0 then tryCheck parse bg details.url none
  else bg

/-- The listener of `chrome.webNavigation.onCommitted`. -/
def onCommitted (parse : Str → Option Url) (bg : Background) (details : NavDetails) :
    Background :=
  if !bg.sys.st.extensionEnabled then bg
  else if details.frameId = 0 then tryCheck parse bg details.url (some details.tabId)
  else bg

/-- The listener of `chrome.tabs.onUpdated`; `tabUrl` is `tab.url`. An absent or
empty string is falsy. -/
def onUpdated (parse : Str → Option Url) (bg : Background) (tabId : Nat)
    (changeInfo : ChangeInfo) (tabUrl : Option Str) : Background :=
  if !bg.sys.st.extensionEnabled then bg
  else
    let bg1 :=
      match changeInfo.url with
      | some (c :: cs) =>
        if some (c :: cs) ≠ mapGet bg.tabUrls tabId then
          tryCheck parse bg (c :: cs) (some tabId)
        else bg
      | _ => bg
    match tabUrl with
    | some (c :: cs) =>
      if changeInfo.status = some "complete".toList then
        tryCheck parse bg1 (c :: cs) (some tabId)
      else bg1
    | _ => bg1

end GitEnvDetector

/-! ## The background script of auto-param-adder -/

namespace AutoParamAdder

/-- An object of the class `URL`: the address up to its query, the list of
`searchParams`, and the fragment. -/
structure UrlObj where
  head : Str
  searchParams : List (Str × Str)
  hash : Str
  deriving DecidableEq

/-- The class `URL` as the script uses it: the constructor, `none` when it
throws, and the method `toString`. -/
structure UrlLib where
  parse : Str → Option UrlObj
  serialize : UrlObj → Str

/-- The method `URLSearchParams.prototype.get`: the value of the first pair
with the name. Modelled from the URL standard. -/
def searchParamsGet (ps : List (Str × Str)) (name : Str) : Option Str :=
  (ps.find? (fun p => p.1 = name)).map (fun p => p.2)

/-- The first pair with the name gets the value and the other pairs with the
name are removed. -/
def setFirst : List (Str × Str) → Str → Str → List (Str × Str)
  | [], _, _ => []
  | p :: rest, name, value =>
    if p.1 = name then (name, value) :: rest.filter (fun q => q.1 ≠ name)
    else p :: setFirst rest name value

/-- The method `URLSearchParams.prototype.set`: a pair is appended when no pair
has the name. Modelled from the URL standard. -/
def searchParamsSet (ps : List (Str × Str)) (name value : Str) : List (Str × Str) :=
  if ps.any (fun p => p.1 = name) then setFirst ps name value else ps ++ [(name, value)]

/-- The function `hasParam`. -/
def hasParam (lib : UrlLib) (url key value : Str) : Bool :=
  match lib.parse url with
  | none => false
  | some urlObj => searchParamsGet urlObj.searchParams key = some value

/-- The callback of `params.forEach` in `addParamsToUrl`, on the object and the
flag `modified`; `param.split` gives the texts between the signs `=`, of which
the first two are taken. -/
def addParam (lib : UrlLib) (url : Str) (acc : UrlObj × Bool) (param : Str) : UrlObj × Bool :=
  match param.splitOn '=' with
  | key :: value :: _ =>
    if key ≠ [] then
      if !hasParam lib url key value then
        ({ acc.1 with searchParams := searchParamsSet acc.1.searchParams key value }, true)
      else acc
    else acc
  | _ => acc

/-- The function `addParamsToUrl`. -/
def addParamsToUrl (lib : UrlLib) (url : Str) (params : List Str) : Str :=
  if params.length = 0 then url
  else
    match lib.parse url with
    | none => url
    | some urlObj =>
      let result := params.foldl (addParam lib url) (urlObj, false)
      if result.2 then lib.serialize result.1 else url

/-- The method `String.prototype.startsWith`. -/
def startsWith : Str → Str → Bool
  | _, [] => true
  | [], _ :: _ => false
  | c :: s, d :: p => c == d && startsWith s p

/-- The argument `details` of `handleUrlUpdate`. -/
structure Details where
  frameId : Nat
  tabId : Nat
  url : Str

/-- The function `handleUrlUpdate` with the module variables `isEnabled` and
`cachedParams`: the tab and the address of the call of `chrome.tabs.update`,
if there is one. -/
def handleUrlUpdate (lib : UrlLib) (isEnabled : Bool) (cachedParams : List Str)
    (details : Details) : Option (Nat × Str) :=
  if !isEnabled then none
  else if details.frameId ≠ 0 then none
  else if cachedParams.length = 0 then none
  else
    let originalUrl := details.url
    if startsWith originalUrl "chrome://".toList ||
        startsWith originalUrl "chrome-extension://".toList then none
    else
      let newUrl := addParamsToUrl lib originalUrl cachedParams
      if newUrl ≠ originalUrl then some (details.tabId, newUrl) else none

end AutoParamAdder

/-! ## The query of json-beautifier -/

namespace JsonBeautifier

/-- A value of the page: what `JSON.parse` gives, and `undefined`. The fields
of an object have distinct names. -/
inductive Json where
  | null
  | undefined
  | bool (b : Bool)
  | num (n : Int)
  | str (s : Str)
  | arr (items : List Json)
  | obj (fields : List (Str × Json))

/-- A number that `parseInt` returns. -/
inductive JsNumber where
  | nan
  | finite (n : Int)
  | posInf
  | negInf
  deriving DecidableEq

/-- An element of the array `parts`: a string or a number. -/
inductive Part where
  | str (s : Str)
  | num (n : JsNumber)
  deriving DecidableEq

/-- The variables of the loop of `parseQuery`. -/
structure ParseState where
  parts : List Part
  current : Str
  inBracket : Bool

/-- The body of the loop of `parseQuery`. -/
def parseStep (parseInt : Str → JsNumber) (s : ParseState) (char : Char) : ParseState :=
  if char = '[' then
    ⟨if s.current ≠ [] then s.parts ++ [.str s.current] else s.parts, [], true⟩
  else if char = ']' then
    ⟨if s.inBracket then
        s.parts ++ [if s.current = [] then .str "[]".toList else .num (parseInt s.current)]
      else s.parts, [], false⟩
  else if char = '.' ∧ s.inBracket = false then
    ⟨if s.current ≠ [] then s.parts ++ [.str s.current] else s.parts, [], s.inBracket⟩
  else ⟨s.parts, s.current ++ [char], s.inBracket⟩

/-- The function `parseQuery`. -/
def parseQuery (parseInt : Str → JsNumber) (query : Str) : List Part :=
  if query = [] ∨ query = ['.'] then []
  else
    let query :=
      match query with
      | '.' :: rest => rest
      | _ => query
    let s := query.foldl (parseStep parseInt) ⟨[], [], false⟩
    if s.current ≠ [] then s.parts ++ [.str s.current] else s.parts

/-- The operator `typeof` on a value that is neither `null` nor `undefined`. -/
def typeOf : Json → Str
  | .bool _ => "boolean".toList
  | .num _ => "number".toList
  | .str _ => "string".toList
  | .undefined => "undefined".toList
  | _ => "object".toList

/-- The failures of `executeQuery`, by their messages. -/
inductive QueryError where
  /-- Cannot access property of null/undefined. -/
  | nullAccess
  /-- Expected array for [] but got the type. -/
  | expectedArrayForAll (got : Str)
  /-- Expected array but got the type. -/
  | expectedArray (got : Str)
  /-- Array index out of bounds. -/
  | outOfBounds (part : JsNumber)
  /-- Expected object but got the type. -/
  | expectedObject (got : Str)
  /-- Property not found. -/
  | notFound (part : Str)
  deriving DecidableEq

/-- The own property of an object with the name. -/
def lookup (fields : List (Str × Json)) (key : Str) : Option Json :=
  (fields.find? (fun f => f.1 = key)).map (fun f => f.2)

/-- The body of the inner loop of `executeQuery`: the values that one element of
`results` adds to `newResults`, or the failure with which the function returns.
`proto` gives the properties that an object inherits. -/
def stepPart (proto : Str → Option Json) (part : Part) (current : Json) :
    Except QueryError (List Json) :=
  match current with
  | .null => .error .nullAccess
  | .undefined => .error .nullAccess
  | _ =>
    if part = .str "[]".toList then
      match current with
      | .arr items => .ok items
      | _ => .error (.expectedArrayForAll (typeOf current))
    else
      match part with
      | .num n =>
        match current with
        | .arr items =>
          match n with
          | .nan => .ok [.undefined]
          | .posInf => .error (.outOfBounds n)
          | .negInf => .error (.outOfBounds n)
          | .finite i =>
            if i < 0 ∨ i ≥ items.length then .error (.outOfBounds n)
            else .ok [items.getD i.toNat .undefined]
        | _ => .error (.expectedArray (typeOf current))
      | .str key =>
        match current with
        | .arr _ => .error (.expectedObject "array".toList)
        | .obj fields =>
          match lookup fields key with
          | some v => .ok [v]
          | none =>
            match proto key with
            | some v => .ok [v]
            | none => .error (.notFound key)
        | _ => .error (.expectedObject (typeOf current))

/-- The inner loop of `executeQuery` over `results`. -/
def collect (proto : Str → Option Json) (part : Part) :
    List Json → Except QueryError (List Json)
  | [] => .ok []
  | current :: rest =>
    match stepPart proto part current with
    | .error e => .error e
    | .ok items =>
      match collect proto part rest with
      | .error e => .error e
      | .ok more => .ok (items ++ more)

/-- The outer loop of `executeQuery` over `parts`. -/
def evalParts (proto : Str → Option Json) : List Part → List Json →
    Except QueryError (List Json)
  | [], results => .ok results
  | part :: parts, results =>
    match collect proto part results with
    | .error e => .error e
    | .ok newResults => evalParts proto parts newResults

/-- The value that `executeQuery` returns. -/
inductive QueryResult where
  | success (result : Json)
  | failure (error : QueryError)

/-- The function `executeQuery`. -/
def executeQuery (parseInt : Str → JsNumber) (proto : Str → Option Json) (data : Json)
    (query : Str) : QueryResult :=
  let parts := parseQuery parseInt query
  if parts.length = 0 then .success data
  else
    match evalParts proto parts [data] with
    | .error e => .failure e
    | .ok results =>
      .success (match results with
        | [result] => result
        | _ => .arr results)

end JsonBeautifier

/-! ## Predicates of the statements -/

namespace JsRegex

/-- The character just before the position reached from one with `prev` before
it by reading `w`. -/
def lastOr : Option Char → Str → Option Char
  | prev, [] => prev
  | _, c :: t => lastOr (some c) t

/-- The text `pre` ends where a line begins: it is empty or ends with a line
terminator. -/
def EndsLine (pre : Str) : Prop :=
  pre = [] ∨ ∃ p c, pre = p ++ [c] ∧ isLineTerminator c = true

/-- The text `body` contains the lower-case word `w` written in some letter case. -/
def ContainsAnyCase (w body : Str) : Prop :=
  ∃ v, v <:+: body ∧ v.map Char.toLower = w

/-- Match of the pattern characters `w` at the head of `s`. -/
def litMatches (fl : Flags) : Str → Str → Bool
  | [], _ => true
  | _ :: _, [] => false
  | a :: w, c :: s => charMatches fl a c && litMatches fl w s

/-- The word `w` has only ASCII characters, and neither `i` nor `k` (the ASCII
characters in the lower-case forms of U+0130 and U+212A). -/
def Plain (w : Str) : Prop :=
  ∀ a ∈ w, a.toNat < 128 ∧ a ≠ 'i' ∧ a ≠ 'k'

/-- The character is one of `0`-`9` or of lower-case `a`-`f`. -/
def IsLowerHex (c : Char) : Prop :=
  ('0'.toNat ≤ c.toNat ∧ c.toNat ≤ '9'.toNat) ∨ ('a'.toNat ≤ c.toNat ∧ c.toNat ≤ 'f'.toNat)

/-- The character is one of `A`-`Z` or the underscore. -/
def IsUpperOrUnderscore (c : Char) : Prop :=
  ('A'.toNat ≤ c.toNat ∧ c.toNat ≤ 'Z'.toNat) ∨ c = '_'

/-- Some line of `body` begins, at its very first character, with a non-empty
run of `A`-`Z` and `_` that `=` follows; a line begins at the start of the text
and after each line terminator (LF, CR, U+2028, U+2029). -/
def LineBeginsAssign (body : Str) : Prop :=
  ∃ pre w t, body = pre ++ w ++ '=' :: t ∧ EndsLine pre ∧ w ≠ [] ∧
    ∀ c ∈ w, IsUpperOrUnderscore c

/-- Some line of `body` begins, once its leading white space is trimmed, with a
non-empty run of `A`-`Z` and `_` that `=` follows. -/
def TrimmedLineBeginsAssign (body : Str) : Prop :=
  ∃ pre ws w t, body = pre ++ ws ++ w ++ '=' :: t ∧ EndsLine pre ∧
    (∀ c ∈ ws, isSpace c = true) ∧ w ≠ [] ∧ ∀ c ∈ w, IsUpperOrUnderscore c

instance : DecidablePred IsLowerHex := fun c => by
  unfold IsLowerHex; infer_instance

instance : DecidablePred IsUpperOrUnderscore := fun c => by
  unfold IsUpperOrUnderscore; infer_instance

/-- A network on which the request of `/.git/HEAD` fails with a network error
and every other request is answered at once with status 200 and the text
`[core]`. -/
def headDownNet (url : Str) : Network := fun r =>
  if r.url = url ++ "/.git/HEAD".toList then ⟨0, .error .network⟩
  else ⟨0, .ok ⟨200, .ok "[core]".toList⟩⟩

/-- A network that answers every request at once with the given status and
text. -/
def constNet (status : Nat) (body : Str) : Network := fun _ =>
  ⟨0, .ok ⟨status, .ok body⟩⟩

/-- The character is a letter of `a`-`z`, `A`-`Z` or the underscore. -/
def IsIdentStart (c : Char) : Prop :=
  ('a'.toNat ≤ c.toNat ∧ c.toNat ≤ 'z'.toNat) ∨ ('A'.toNat ≤ c.toNat ∧ c.toNat ≤ 'Z'.toNat) ∨
    c = '_'

/-- The character is a letter of `a`-`z`, `A`-`Z`, a digit or the underscore. -/
def IsIdentChar (c : Char) : Prop :=
  ('a'.toNat ≤ c.toNat ∧ c.toNat ≤ 'z'.toNat) ∨ ('A'.toNat ≤ c.toNat ∧ c.toNat ≤ 'Z'.toNat) ∨
    ('0'.toNat ≤ c.toNat ∧ c.toNat ≤ '9'.toNat) ∨ c = '_'

instance : DecidablePred IsIdentStart := fun c => by
  unfold IsIdentStart; infer_instance

instance : DecidablePred IsIdentChar := fun c => by
  unfold IsIdentChar; infer_instance

/-- Some line of `body` begins, at its very first character, with a letter or
underscore, then letters, digits and underscores, then white space if any, then
`=`. -/
def LineBeginsLooseAssign (body : Str) : Prop :=
  ∃ pre c w ws t, body = pre ++ c :: w ++ ws ++ '=' :: t ∧ EndsLine pre ∧ IsIdentStart c ∧
    (∀ d ∈ w, IsIdentChar d) ∧ ∀ d ∈ ws, isSpace d = true

/-- A position that a step reaches lies further on in the same input. -/
def Advances (step : Pos → List Pos) : Prop :=
  ∀ pv s q, q ∈ step ⟨pv, s⟩ → ∃ w, s = w ++ q.rest ∧ q.prev = lastOr pv w

end JsRegex

namespace DotGit

/-- The list holds at most one entry per pair of `url` and `type`. -/
def UniquePairs (l : List Site) : Prop :=
  l.Pairwise (fun a b => ¬ (a.url = b.url ∧ a.type = b.type))

/-- The list that the loop of `handleFindings` builds from the stored one. -/
def loopResult (clock : Nat → Nat) (st : State) (data : Data) : LoopState :=
  loop data.url clock 0 data.types ⟨st.withExposedGit, false, []⟩

/-- The finding number `n` of the examples. -/
def sampleSite (n : Nat) : Site :=
  ⟨"git".toList, "https://f".toList ++ (Nat.repr n).toList,
    "https://f".toList ++ (Nat.repr n).toList ++ "/.git/".toList, n⟩

/-- A state of the examples: the given stored list and maximum. -/
def sampleState (l : List Site) (max_sites : Nat) : State :=
  ⟨l, ⟨⟨true, true⟩, max_sites, ⟨true⟩, false⟩, [], []⟩

end DotGit

namespace GitEnvDetector

/-- The list holds at most one finding per pair of `target` and `type`. -/
def UniqueFindings (l : List FoundItem) : Prop :=
  l.Pairwise (fun a b => ¬ (a.target = b.target ∧ a.type = b.type))

/-- What `checkTarget` does once the gate is passed and the key is recorded:
the git probe if it is enabled, then the env probe if it is enabled. -/
def afterGate (U : CaseTable) (net : Network) (now1 now2 : Nat) (st1 : State) (k : Str) :
    State :=
  let st2 :=
    if st1.gitCheckEnabled then
      gitDone U now1 (issue st1 (gitRequest k)) k (k ++ "/.git/config".toList)
        (net (gitRequest k)).outcome
    else st1
  if st2.envCheckEnabled then
    envDone now2 (issue st2 (envRequest k)) k (k ++ "/.env".toList) (net (envRequest k)).outcome
  else st2

/-- The event leaves the key `k` in `checkedTargets`: it is neither `clearAll`
nor a `removeItem` that names `k`. -/
def Keeps (k : Str) : Event → Prop
  | .message (.removeItem _ target) => target ≠ k
  | .message .clearAll => False
  | _ => True

/-- The number of stored findings of the target `k` and the type `type`. -/
def countFor (st : State) (k type : Str) : Nat :=
  (st.foundItems.filter (fun item => item.target = k && item.type = type)).length

/-- The address of the examples. -/
def sampleUrl : Url :=
  ⟨"https:".toList, "example.test".toList, [], "/".toList, [], []⟩

/-- The key of the address of the examples. -/
def sampleKey : Str := "https://example.test".toList

/-- A state of the examples: nothing probed in this session, and one stored
finding, of the type git, for the target of the examples. -/
def gitFoundState : State :=
  { initialState with
    foundItems := [⟨1, sampleKey, "git".toList, sampleKey ++ "/.git/config".toList, none, 1⟩],
    stored := [⟨1, sampleKey, "git".toList, sampleKey ++ "/.git/config".toList, none, 1⟩] }

/-- A state of the examples: the target of the examples probed, with its git
finding stored. -/
def probedState : State :=
  { gitFoundState with checkedTargets := [sampleKey] }

/-- Does the git probe match: its fetch settles with a response for which
`checkGitConfig` reaches `addFoundItem`. -/
def gitAnswerMatches (U : CaseTable) (outcome : Except Fault Response) : Bool :=
  match outcome with
  | .error _ => false
  | .ok response =>
    match gitConfigFinds U response with
    | .ok true => true
    | _ => false

/-- Does the env probe match: its fetch settles with a response for which
`checkEnvFile` reaches `addFoundItem`. -/
def envAnswerMatches (outcome : Except Fault Response) : Bool :=
  match outcome with
  | .error _ => false
  | .ok response =>
    match envFileFinds response with
    | .ok true => true
    | _ => false

/-- The gate of `checkTarget` is open for the key: it is not in `checkedTargets`
and no stored finding has it as its target. -/
def gateOpen (st : State) (k : Str) : Bool :=
  !(st.checkedTargets.contains k || isAlreadyFound st k)

/-- The types of the probes of a call of `checkTarget` for the key that run
and match, git before env. -/
def matchedTypes (U : CaseTable) (net : Network) (st : State) (k : Str) : List Str :=
  if gateOpen st k then
    (if st.gitCheckEnabled && gitAnswerMatches U (net (gitRequest k)).outcome
      then ["git".toList] else []) ++
    (if st.envCheckEnabled && envAnswerMatches (net (envRequest k)).outcome
      then ["env".toList] else [])
  else []

/-- The notification of a finding of the type for the key. -/
def notificationOf (k type : Str) : Notification :=
  if type = "git".toList then
    ⟨".git/config Exposed!".toList, "Found on: ".toList ++ k ++ "/.git/config".toList, 2⟩
  else ⟨".env Exposed!".toList, "Found on: ".toList ++ k ++ "/.env".toList, 2⟩

/-- The text of the examples that both the git rule and the env rule accept. -/
def bothBody : Str := "[core]\nA=1".toList

/-- A run of the examples: a navigation, `clearAll` while its git probe is in
flight, a second navigation to the same target, and both git probes answered
200 with a text that the git rule accepts. -/
def raceEvents : List Event :=
  [.navigate sampleUrl, .message .clearAll, .navigate sampleUrl,
   .settle 0 (.ok ⟨200, .ok bothBody⟩) 1, .settle 0 (.ok ⟨200, .ok bothBody⟩) 2]

end GitEnvDetector

namespace GitEnvDetector

/-- The finding has the type and the address that a probe of `checkTarget`
gives it: `/.git/config` or `/.env` under its target. -/
def HasProbeUrl (item : FoundItem) : Prop :=
  (item.type = "git".toList ∧ item.url = item.target ++ "/.git/config".toList) ∨
    (item.type = "env".toList ∧ item.url = item.target ++ "/.env".toList)

/-- The findings have the addresses of their probes, and so will the findings
of the probes in flight. -/
def ProbeUrls (sys : System) : Prop :=
  (∀ item ∈ sys.st.foundItems, HasProbeUrl item) ∧ ∀ p ∈ sys.pending, p.baseUrl = p.targetKey

end GitEnvDetector

namespace GitEnvDetector

/-- The badge text that the state calls for: `OFF` when the extension is
disabled, nothing when it is enabled and no finding is stored, and the number of
stored findings in decimal otherwise. -/
def badgeFor (st : State) : Str :=
  if st.extensionEnabled then
    if st.foundItems.length = 0 then [] else (Nat.repr st.foundItems.length).toList
  else "OFF".toList

/-- The operations on the list of findings. -/
inductive StoreOp where
  | add (now : Nat) (target type url : Str)
  | remove (itemId : Nat) (target : Str)
  | clear

/-- One operation on the list of findings. -/
def applyOp (st : State) : StoreOp → State
  | .add now target type url => addFoundItem now st target type url none
  | .remove itemId target => onMessage st (.removeItem itemId target)
  | .clear => onMessage st .clearAll

/-- A sequence of operations on the list of findings. -/
def applyOps (st : State) (ops : List StoreOp) : State :=
  ops.foldl applyOp st

/-- The readings of the clock at the additions never go down, from the reading
`last` on. -/
def NonDecreasing : Nat → List StoreOp → Prop
  | _, [] => True
  | last, .add now _ _ _ :: rest => last ≤ now ∧ NonDecreasing now rest
  | last, .remove _ _ :: rest => NonDecreasing last rest
  | last, .clear :: rest => NonDecreasing last rest

/-- The readings of the clock at the additions go up strictly, each being at
least `bound`, which exceeds the readings before. -/
def StrictlyIncreasing : Nat → List StoreOp → Prop
  | _, [] => True
  | bound, .add now _ _ _ :: rest => bound ≤ now ∧ StrictlyIncreasing (now + 1) rest
  | bound, .remove _ _ :: rest => StrictlyIncreasing bound rest
  | bound, .clear :: rest => StrictlyIncreasing bound rest

/-- Two additions in the same millisecond. -/
def sameTickOps : List StoreOp :=
  [.add 5 sampleKey "git".toList (sampleKey ++ "/.git/config".toList),
   .add 5 sampleKey "env".toList (sampleKey ++ "/.env".toList)]

end GitEnvDetector

namespace LeakDetect

/-- Has the check returned `true`? -/
def found (r : Except Fault Bool) : Bool :=
  match r with
  | .ok true => true
  | _ => false

/-- The call of `chrome.runtime.sendMessage` throws, as in a content script
whose extension context is gone. -/
def brokenRuntime : FindingsMessage → Except Fault Unit := fun _ => .error .runtime

/-- The enabled kinds whose check returns `true`, git before env. -/
def expectedTypes (net : Network) (url : Str) (functions : Functions) : List Str :=
  (if functions.git && found (checkGit net url []).1 then ["git".toList] else []) ++
    (if functions.env && found (checkEnv net url []).1 then ["env".toList] else [])

end LeakDetect

namespace DotGit

/-- A browser for the statements below: it gives the origin of the address
`https://example.test/` and rejects the text `not a url`, as `new URL` does; the
storage holds no options, the address is open in the tab 7, and the content
script answers. -/
def sampleBrowser : Browser :=
  { origin := fun url =>
      if url = "https://example.test/".toList then some "https://example.test".toList else none,
    options := .ok none,
    query := fun _ => .ok [7],
    ping := fun _ => .ok true,
    executeScript := fun _ => .ok (),
    sendMessage := fun _ => .ok () }

/-- The session that a call of `processWebRequest` leaves, also when its promise
is rejected: the one fault outside the `try` is that of the constructor, which
comes before every assignment. -/
def sessionAfter (io : Browser) (s : Session) (url : Str) : Session :=
  match processStart io s url with
  | .error _ => s
  | .ok (s1, none) => s1
  | .ok (s1, some origin) => processRest io s1 url origin

/-- The message `CHECK_SITE` that `sampleBrowser` receives for its address. -/
def sampleCheck : CheckSite := ⟨7, "https://example.test".toList, DEFAULT_OPTIONS⟩

/-- A session in which the finding of the type git, the only enabled kind of
`DEFAULT_OPTIONS`, is stored for the origin `https://example.test`. -/
def storedSession : Session :=
  { extensionEnabled := true, processingUrls := [],
    withExposedGit := [⟨"git".toList, "https://example.test".toList,
      "https://example.test/.git/".toList, 1⟩],
    injected := [], sent := [] }

end DotGit

namespace AutoParamAdder

/-- The texts between the separators, none for the empty text. -/
def pieces (sep : Char) (s : Str) : List Str :=
  if s = [] then [] else s.splitOn sep

/-- The pair of a piece `name=value` of a query. -/
def pairOf (piece : Str) : Str × Str :=
  (piece.takeWhile (fun c => c ≠ '='), (piece.dropWhile (fun c => c ≠ '=')).drop 1)

/-- The class `URL` on the addresses `http://…` and `https://…` without fragment
whose query needs no escape: the query begins after the first `?` and its pairs
are separated by `&`. -/
def plainLib : UrlLib where
  parse := fun url =>
    if startsWith url "http://".toList || startsWith url "https://".toList then
      some ⟨url.takeWhile (fun c => c ≠ '?'),
        (pieces '&' ((url.dropWhile (fun c => c ≠ '?')).drop 1)).map pairOf, []⟩
    else none
  serialize := fun urlObj =>
    urlObj.head ++
      (if urlObj.searchParams = [] then []
        else '?' :: "&".toList.intercalate
          (urlObj.searchParams.map (fun p => p.1 ++ '=' :: p.2))) ++ urlObj.hash

/-- The event of a navigation of the tab 1 in its main frame. -/
def navigation (url : Str) : Details := ⟨0, 1, url⟩

end AutoParamAdder

namespace JsonBeautifier

/-- A key of a query: not empty and without `.`, `[` and `]`. -/
def PlainKey (k : Str) : Prop :=
  k ≠ [] ∧ ∀ c ∈ k, c ≠ '.' ∧ c ≠ '[' ∧ c ≠ ']'

/-- Every element is an object whose own property `k` has the value at the same
place of the list of values. -/
def HasValues (k : Str) (items values : List Json) : Prop :=
  List.Forall₂ (fun item v => ∃ fields, item = .obj fields ∧ lookup fields k = some v)
    items values

/-- An object with the property `name`. -/
def person (name : Str) : Json := .obj [("name".toList, .str name)]

/-- The value of `results.length === 1 ? results[0] : results`. -/
def resultOf (results : List Json) : Json :=
  match results with
  | [result] => result
  | _ => .arr results

/-- The function `parseInt` on texts that are not numbers. -/
def notANumber : Str → JsNumber := fun _ => .nan

/-- No inherited property. -/
def ownOnly : Str → Option Json := fun _ => none

end JsonBeautifier

/-! ## The matcher -/

namespace JsRegex

theorem lastOr_append (pv : Option Char) (u v : Str) :
    lastOr pv (u ++ v) = lastOr (lastOr pv u) v := by
  induction u generalizing pv with
  | nil => rfl
  | cons c t ih => simpa [lastOr] using ih (some c)

theorem lastOr_concat (pv : Option Char) (u : Str) (c : Char) :
    lastOr pv (u ++ [c]) = some c := by
  rw [lastOr_append]; rfl

theorem starFrom_advances {step : Pos → List Pos} (h : Advances step) (fuel : Nat) :
    Advances (starFrom step fuel) := by
  induction fuel with
  | zero =>
    intro pv s q hq
    simp only [starFrom, List.mem_singleton] at hq
    subst hq
    exact ⟨[], rfl, rfl⟩
  | succ n ih =>
    intro pv s q hq
    simp only [starFrom, List.mem_cons, List.mem_flatMap, List.mem_filter] at hq
    rcases hq with hq | ⟨m, ⟨hm, -⟩, hq⟩
    · subst hq
      exact ⟨[], rfl, rfl⟩
    · obtain ⟨w1, hs1, hp1⟩ := h pv s m hm
      obtain ⟨w2, hs2, hp2⟩ := ih m.prev m.rest q hq
      refine ⟨w1 ++ w2, ?_, ?_⟩
      · rw [hs1, hs2, List.append_assoc]
      · rw [hp2, hp1, lastOr_append]

theorem repFrom_advances {step : Pos → List Pos} (h : Advances step) (n : Nat) :
    Advances (repFrom step n) := by
  induction n with
  | zero =>
    intro pv s q hq
    simp only [repFrom, List.mem_singleton] at hq
    subst hq
    exact ⟨[], rfl, rfl⟩
  | succ n ih =>
    intro pv s q hq
    simp only [repFrom, List.mem_flatMap] at hq
    obtain ⟨m, hm, hq⟩ := hq
    obtain ⟨w1, hs1, hp1⟩ := h pv s m hm
    obtain ⟨w2, hs2, hp2⟩ := ih m.prev m.rest q hq
    refine ⟨w1 ++ w2, ?_, ?_⟩
    · rw [hs1, hs2, List.append_assoc]
    · rw [hp2, hp1, lastOr_append]

theorem seq_advances {f g : Pos → List Pos} (hf : Advances f) (hg : Advances g) :
    Advances (fun p => (f p).flatMap g) := by
  intro pv s q hq
  simp only [List.mem_flatMap] at hq
  obtain ⟨m, hm, hq⟩ := hq
  obtain ⟨w1, hs1, hp1⟩ := hf pv s m hm
  obtain ⟨w2, hs2, hp2⟩ := hg m.prev m.rest q hq
  refine ⟨w1 ++ w2, ?_, ?_⟩
  · rw [hs1, hs2, List.append_assoc]
  · rw [hp2, hp1, lastOr_append]

theorem run_advances (fl : Flags) (r : Re) : Advances (r.run fl) := by
  induction r with
  | eps =>
    intro pv s q hq
    simp only [Re.run, List.mem_singleton] at hq
    subst hq
    exact ⟨[], rfl, rfl⟩
  | chr a =>
    intro pv s q hq
    cases s with
    | nil => simp [Re.run] at hq
    | cons c t =>
      simp only [Re.run] at hq
      split at hq
      · simp only [List.mem_singleton] at hq
        subst hq
        exact ⟨[c], rfl, rfl⟩
      · simp at hq
  | cls atoms =>
    intro pv s q hq
    cases s with
    | nil => simp [Re.run] at hq
    | cons c t =>
      simp only [Re.run] at hq
      split at hq
      · simp only [List.mem_singleton] at hq
        subst hq
        exact ⟨[c], rfl, rfl⟩
      · simp at hq
  | bol =>
    intro pv s q hq
    simp only [Re.run] at hq
    split at hq
    · simp only [List.mem_singleton] at hq
      subst hq
      exact ⟨[], rfl, rfl⟩
    · simp at hq
  | seq a b iha ihb => exact seq_advances iha ihb
  | alt a b iha ihb =>
    intro pv s q hq
    simp only [Re.run, List.mem_append] at hq
    rcases hq with hq | hq
    · exact iha pv s q hq
    · exact ihb pv s q hq
  | star a iha =>
    intro pv s q hq
    exact starFrom_advances iha _ pv s q hq
  | plus a iha =>
    intro pv s q hq
    simp only [Re.run, List.mem_flatMap] at hq
    obtain ⟨m, hm, hq⟩ := hq
    obtain ⟨w1, hs1, hp1⟩ := iha pv s m hm
    obtain ⟨w2, hs2, hp2⟩ := starFrom_advances iha _ m.prev m.rest q hq
    refine ⟨w1 ++ w2, ?_, ?_⟩
    · rw [hs1, hs2, List.append_assoc]
    · rw [hp2, hp1, lastOr_append]
  | rep n a iha =>
    intro pv s q hq
    exact repFrom_advances iha n pv s q hq

/-- A search succeeds exactly when the expression matches at some split of the
input. -/
theorem searchFrom_iff (fl : Flags) (r : Re) (pv : Option Char) (s : Str) :
    searchFrom fl r pv s = true ↔
      ∃ pre suf, s = pre ++ suf ∧ r.run fl ⟨lastOr pv pre, suf⟩ ≠ [] := by
  induction s generalizing pv with
  | nil =>
    simp only [searchFrom, Bool.not_eq_true', List.isEmpty_eq_false]
    constructor
    · intro h
      exact ⟨[], [], rfl, h⟩
    · rintro ⟨pre, suf, hs, h⟩
      have hp : pre = [] := by
        cases pre with
        | nil => rfl
        | cons a l => simp at hs
      have hsuf : suf = [] := by
        cases suf with
        | nil => rfl
        | cons a l => simp at hs
      subst hp; subst hsuf
      exact h
  | cons c t ih =>
    simp only [searchFrom, Bool.or_eq_true, Bool.not_eq_true', List.isEmpty_eq_false, ih]
    constructor
    · rintro (h | ⟨pre, suf, hs, h⟩)
      · exact ⟨[], c :: t, rfl, h⟩
      · exact ⟨c :: pre, suf, by rw [hs]; rfl, h⟩
    · rintro ⟨pre, suf, hs, h⟩
      cases pre with
      | nil =>
        left
        simp only [List.nil_append] at hs
        subst hs
        exact h
      | cons a l =>
        right
        simp only [List.cons_append, List.cons.injEq] at hs
        obtain ⟨rfl, rfl⟩ := hs
        exact ⟨l, suf, rfl, h⟩

end JsRegex

/-! ## Characters and literal words -/

namespace JsRegex

theorem toNat_ofNat_small (n : Nat) (h : n < 0xd800) : (Char.ofNat n).toNat = n := by
  have hv : n.isValidChar := Or.inl h
  simp only [Char.ofNat, dif_pos hv, Char.toNat, Char.ofNatAux]
  simp [UInt32.toNat]

theorem char_eq_of_toNat (a b : Char) (h : a.toNat = b.toNat) : a = b := by
  rw [← Char.ofNat_toNat a, ← Char.ofNat_toNat b, h]

theorem toNat_toLower (c : Char) :
    c.toLower.toNat = if 65 ≤ c.toNat ∧ c.toNat ≤ 90 then c.toNat + 32 else c.toNat := by
  unfold Char.toLower
  by_cases h : 65 ≤ c.toNat ∧ c.toNat ≤ 90
  · simp only [ge_iff_le, h, and_self, if_true]
    exact toNat_ofNat_small _ (by omega)
  · simp only [ge_iff_le, h, if_false]

theorem toNat_toUpper (c : Char) :
    c.toUpper.toNat = if 97 ≤ c.toNat ∧ c.toNat ≤ 122 then c.toNat - 32 else c.toNat := by
  unfold Char.toUpper
  by_cases h : 97 ≤ c.toNat ∧ c.toNat ≤ 122
  · simp only [ge_iff_le, h, and_self, if_true]
    exact toNat_ofNat_small _ (by omega)
  · simp only [ge_iff_le, h, if_false]

/-- A lower-case pattern character matches, under the `i` flag, the characters
whose lower-case form it is. -/
theorem canonicalize_eq_iff (a c : Char) (ha : a.toLower = a) :
    canonicalize a = canonicalize c ↔ c.toLower = a := by
  have h1 := toNat_toLower a
  rw [ha] at h1
  unfold canonicalize
  constructor
  · intro h
    apply char_eq_of_toNat
    have h2 := congrArg Char.toNat h
    rw [toNat_toUpper, toNat_toUpper] at h2
    rw [toNat_toLower]
    split_ifs at h1 h2 ⊢ <;> omega
  · intro h
    apply char_eq_of_toNat
    have h2 := congrArg Char.toNat h
    rw [toNat_toLower] at h2
    rw [toNat_toUpper, toNat_toUpper]
    split_ifs at h1 h2 ⊢ <;> omega

theorem run_lit_ne_nil (fl : Flags) (w : Str) (pv : Option Char) (s : Str) :
    (Re.lit w).run fl ⟨pv, s⟩ ≠ [] ↔ litMatches fl w s = true := by
  induction w generalizing pv s with
  | nil => simp [Re.lit, Re.run, litMatches]
  | cons a w ih =>
    cases s with
    | nil => simp [Re.lit, Re.run, litMatches]
    | cons c t =>
      by_cases hc : charMatches fl a c = true
      · have := ih (some c) t
        simpa [Re.lit, Re.run, litMatches, hc] using this
      · simp [Re.lit, Re.run, litMatches, hc]

theorem litMatches_sensitive (m : Bool) (w s : Str) :
    litMatches ⟨false, m⟩ w s = true ↔ w <+: s := by
  induction w generalizing s with
  | nil => simp [litMatches]
  | cons a w ih =>
    cases s with
    | nil => simp [litMatches]
    | cons c t =>
      simp only [litMatches, charMatches, Bool.and_eq_true, ih, List.cons_prefix_cons]
      simp

theorem litMatches_folded (m : Bool) (w s : Str) (hw : ∀ a ∈ w, a.toLower = a) :
    litMatches ⟨true, m⟩ w s = true ↔ ∃ v, v <+: s ∧ v.map Char.toLower = w := by
  induction w generalizing s with
  | nil =>
    simp only [litMatches, true_iff]
    exact ⟨[], List.nil_prefix, rfl⟩
  | cons a w ih =>
    have ha : a.toLower = a := hw a (List.mem_cons_self a w)
    have hw2 : ∀ b ∈ w, b.toLower = b := fun b hb => hw b (List.mem_cons_of_mem a hb)
    cases s with
    | nil =>
      simp only [litMatches, Bool.false_eq_true, false_iff]
      rintro ⟨v, hv, hm⟩
      have : v = [] := List.prefix_nil.mp hv
      subst this
      simp at hm
    | cons c t =>
      simp only [litMatches, charMatches, if_true, Bool.and_eq_true, decide_eq_true_eq,
        canonicalize_eq_iff a c ha, ih t hw2]
      constructor
      · rintro ⟨hc, v, hv, hm⟩
        refine ⟨c :: v, ?_, ?_⟩
        · exact List.cons_prefix_cons.mpr ⟨rfl, hv⟩
        · simp [hc, hm]
      · rintro ⟨v, hv, hm⟩
        cases v with
        | nil => simp at hm
        | cons d v =>
          obtain ⟨rfl, hv2⟩ := List.cons_prefix_cons.mp hv
          simp only [List.map_cons, List.cons.injEq] at hm
          exact ⟨hm.1, v, hv2, hm.2⟩

theorem infix_iff_split (w s : Str) :
    w <:+: s ↔ ∃ pre suf, s = pre ++ suf ∧ w <+: suf := by
  constructor
  · rintro ⟨a, b, h⟩
    exact ⟨a, w ++ b, by rw [← h, List.append_assoc], List.prefix_append w b⟩
  · rintro ⟨pre, suf, hs, b, hb⟩
    exact ⟨pre, b, by rw [hs, ← hb, List.append_assoc]⟩

/-- A literal word without the `i` flag is found exactly in the texts that
contain it. -/
theorem test_lit_sensitive (m : Bool) (w s : Str) :
    (RegExp.mk (Re.lit w) ⟨false, m⟩).test s = true ↔ w <:+: s := by
  unfold RegExp.test
  rw [searchFrom_iff, infix_iff_split]
  simp only [run_lit_ne_nil, litMatches_sensitive]

/-- A lower-case literal word with the `i` flag is found exactly in the texts
that contain it in some letter case. -/
theorem test_lit_folded (m : Bool) (w s : Str) (hw : ∀ a ∈ w, a.toLower = a) :
    (RegExp.mk (Re.lit w) ⟨true, m⟩).test s = true ↔ ContainsAnyCase w s := by
  unfold RegExp.test ContainsAnyCase
  rw [searchFrom_iff]
  simp only [run_lit_ne_nil, litMatches_folded m w _ hw]
  constructor
  · rintro ⟨pre, suf, hs, v, hv, hm⟩
    exact ⟨v, (infix_iff_split v s).mpr ⟨pre, suf, hs, hv⟩, hm⟩
  · rintro ⟨v, hv, hm⟩
    obtain ⟨pre, suf, hs, hp⟩ := (infix_iff_split v s).mp hv
    exact ⟨pre, suf, hs, v, hp, hm⟩

theorem test_alt (fl : Flags) (a b : Re) (s : Str) :
    (RegExp.mk (.alt a b) fl).test s = true ↔
      (RegExp.mk a fl).test s = true ∨ (RegExp.mk b fl).test s = true := by
  unfold RegExp.test
  simp only [searchFrom_iff, Re.run, ne_eq, List.append_eq_nil, not_and_or]
  constructor
  · rintro ⟨pre, suf, hs, h | h⟩
    · exact Or.inl ⟨pre, suf, hs, h⟩
    · exact Or.inr ⟨pre, suf, hs, h⟩
  · rintro (⟨pre, suf, hs, h⟩ | ⟨pre, suf, hs, h⟩)
    · exact ⟨pre, suf, hs, Or.inl h⟩
    · exact ⟨pre, suf, hs, Or.inr h⟩

end JsRegex

/-! ## Lower case and `includes` (git-env-detector) -/

namespace GitEnvDetector

theorem includes_iff (s needle : Str) : includes s needle = true ↔ needle <:+: s := by
  induction s with
  | nil =>
    simp only [includes, List.isPrefixOf_iff_prefix, List.prefix_nil, List.infix_nil]
  | cons c t ih =>
    simp only [includes, Bool.or_eq_true, List.isPrefixOf_iff_prefix, ih, List.infix_cons_iff]

theorem toNat_toLower_high (c : Char) (h : 128 ≤ c.toNat) : c.toLower = c := by
  apply char_eq_of_toNat
  rw [toNat_toLower]
  split_ifs <;> omega

theorem toLower_high (c : Char) (h : c.toLower.toNat < 128) : c.toNat < 128 := by
  rw [toNat_toLower] at h
  split_ifs at h <;> omega

/-- The lower-case form of a character is the ASCII lower-case form of an ASCII
character, or holds no character of a plain word. -/
theorem lowerChar_cases (U : CaseTable) (w : Str) (hw : Plain w) (b : Str) (c : Char)
    (t : Str) :
    (c.toNat < 128 ∧ lowerChar U b c t = [c.toLower]) ∨
      (lowerChar U b c t ≠ [] ∧ ∀ d ∈ lowerChar U b c t, d ∉ w) := by
  unfold lowerChar
  by_cases h1 : c.toNat < 128
  · left
    exact ⟨h1, by simp [h1]⟩
  · right
    rw [if_neg h1]
    by_cases h2 : c.toNat = 0x130
    · rw [if_pos h2]
      refine ⟨by simp, ?_⟩
      intro d hd hdw
      simp only [List.mem_cons, List.mem_singleton, List.not_mem_nil, or_false] at hd
      rcases hd with rfl | rfl
      · exact (hw _ hdw).2.1 rfl
      · have := (hw _ hdw).1
        rw [toNat_ofNat_small _ (by decide)] at this
        omega
    · rw [if_neg h2]
      by_cases h3 : c.toNat = 0x212A
      · rw [if_pos h3]
        refine ⟨by simp, ?_⟩
        intro d hd hdw
        simp only [List.mem_singleton] at hd
        subst hd
        exact (hw _ hdw).2.2 rfl
      · rw [if_neg h3]
        refine ⟨U.lower_ne b c t, ?_⟩
        intro d hd hdw
        have h4 := U.lower_high b c t d hd
        have h5 := (hw _ hdw).1
        omega

theorem lowerFrom_append (U : CaseTable) (b x y : Str) :
    ∃ l, lowerFrom U b (x ++ y) = l ++ lowerFrom U (b ++ x) y := by
  induction x generalizing b with
  | nil => exact ⟨[], by simp⟩
  | cons c x ih =>
    obtain ⟨l, hl⟩ := ih (b ++ [c])
    refine ⟨lowerChar U b c (x ++ y) ++ l, ?_⟩
    show lowerChar U b c (x ++ y) ++ lowerFrom U (b ++ [c]) (x ++ y) = _
    rw [hl]
    simp [List.append_assoc]

theorem lowerFrom_ascii (U : CaseTable) (b v y : Str) (hv : ∀ c ∈ v, c.toNat < 128) :
    lowerFrom U b (v ++ y) = v.map Char.toLower ++ lowerFrom U (b ++ v) y := by
  induction v generalizing b with
  | nil => simp
  | cons c v ih =>
    have hc : c.toNat < 128 := hv c (List.mem_cons_self c v)
    have ih2 := ih (b ++ [c]) (fun d hd => hv d (List.mem_cons_of_mem c hd))
    show lowerChar U b c (v ++ y) ++ lowerFrom U (b ++ [c]) (v ++ y) = _
    rw [ih2]
    simp [lowerChar, hc, List.append_assoc]

theorem lowerFrom_head (U : CaseTable) (w : Str) (hw : Plain w) (b s : Str)
    (h : w <+: lowerFrom U b s) : ∃ v, v <+: s ∧ v.map Char.toLower = w := by
  induction s generalizing w b with
  | nil =>
    simp only [lowerFrom, List.prefix_nil] at h
    subst h
    exact ⟨[], List.nil_prefix, rfl⟩
  | cons c t ih =>
    cases w with
    | nil => exact ⟨[], List.nil_prefix, rfl⟩
    | cons a w =>
      simp only [lowerFrom] at h
      rcases lowerChar_cases U (a :: w) hw b c t with ⟨-, hb⟩ | ⟨hne, hfor⟩
      · rw [hb, List.singleton_append] at h
        obtain ⟨rfl, h2⟩ := List.cons_prefix_cons.mp h
        obtain ⟨v, hv, hm⟩ :=
          ih w (fun d hd => hw d (List.mem_cons_of_mem _ hd)) (b ++ [c]) h2
        exact ⟨c :: v, List.cons_prefix_cons.mpr ⟨rfl, hv⟩, by simp [hm]⟩
      · exfalso
        cases hblock : lowerChar U b c t with
        | nil => exact hne hblock
        | cons d ds =>
          rw [hblock, List.cons_append] at h
          obtain ⟨rfl, -⟩ := List.cons_prefix_cons.mp h
          exact hfor a (by rw [hblock]; exact List.mem_cons_self a ds)
            (List.mem_cons_self a w)

theorem infix_of_foreign (w x l : Str) (hne : w ≠ []) (hx : ∀ d ∈ x, d ∉ w)
    (h : w <:+: x ++ l) : w <:+: l := by
  induction x with
  | nil => simpa using h
  | cons d x ih =>
    rw [List.cons_append, List.infix_cons_iff] at h
    rcases h with h | h
    · exfalso
      cases w with
      | nil => exact hne rfl
      | cons a w =>
        obtain ⟨rfl, -⟩ := List.cons_prefix_cons.mp h
        exact hx a (List.mem_cons_self a x) (List.mem_cons_self a w)
    · exact ih (fun e he => hx e (List.mem_cons_of_mem d he)) h

theorem lowerFrom_infix (U : CaseTable) (w : Str) (hw : Plain w) (hne : w ≠ []) (b s : Str)
    (h : w <:+: lowerFrom U b s) : ContainsAnyCase w s := by
  induction s generalizing b with
  | nil =>
    simp only [lowerFrom, List.infix_nil] at h
    exact absurd h hne
  | cons c t ih =>
    have step : w <:+: lowerFrom U (b ++ [c]) t → ContainsAnyCase w (c :: t) := by
      intro h2
      obtain ⟨v, hv, hm⟩ := ih (b ++ [c]) h2
      exact ⟨v, List.infix_cons hv, hm⟩
    rcases lowerChar_cases U w hw b c t with ⟨-, hb⟩ | ⟨-, hfor⟩
    · have h1 := h
      simp only [lowerFrom, hb, List.singleton_append, List.infix_cons_iff] at h1
      rcases h1 with h1 | h1
      · have h3 : w <+: lowerFrom U b (c :: t) := by
          simpa only [lowerFrom, hb, List.singleton_append] using h1
        obtain ⟨v, hv, hm⟩ := lowerFrom_head U w hw b (c :: t) h3
        exact ⟨v, hv.isInfix, hm⟩
      · exact step h1
    · simp only [lowerFrom] at h
      exact step (infix_of_foreign w _ _ hne hfor h)

/-- The lower-case text includes a plain word exactly when the text contains the
word in some letter case. -/
theorem includes_toLowerCase (U : CaseTable) (w : Str) (hw : Plain w) (hne : w ≠ [])
    (s : Str) : includes (toLowerCase U s) w = true ↔ ContainsAnyCase w s := by
  rw [includes_iff]
  constructor
  · exact lowerFrom_infix U w hw hne [] s
  · rintro ⟨v, ⟨pre, suf, hs⟩, hm⟩
    have hv : ∀ c ∈ v, c.toNat < 128 := by
      intro c hc
      apply toLower_high
      have : c.toLower ∈ w := by
        rw [← hm]
        exact List.mem_map_of_mem _ hc
      exact (hw _ this).1
    obtain ⟨l, hl⟩ := lowerFrom_append U [] pre (v ++ suf)
    unfold toLowerCase
    rw [← hs, List.append_assoc, hl, lowerFrom_ascii U _ v suf hv, hm]
    exact List.infix_append' l w _

end GitEnvDetector

/-! ## The git config rule -/

namespace LeakDetect

theorem excludeHtml_test (s : Str) :
    PATTERNS.git.config.excludeHtml.test s = true ↔
      ContainsAnyCase "<html".toList s ∨ ContainsAnyCase "<body".toList s := by
  unfold PATTERNS.git.config.excludeHtml
  rw [test_alt, test_lit_folded _ _ _ (by decide), test_lit_folded _ _ _ (by decide)]

theorem patterns_any (s : Str) :
    PATTERNS.git.config.patterns.any (fun pattern => pattern.test s) = true ↔
      ∃ w ∈ configWords, w <:+: s := by
  unfold PATTERNS.git.config.patterns
  rw [List.any_eq_true]
  constructor
  · rintro ⟨x, hx, ht⟩
    obtain ⟨w, hw, rfl⟩ := List.mem_map.mp hx
    exact ⟨w, hw, (test_lit_sensitive _ _ _).mp ht⟩
  · rintro ⟨w, hw, hi⟩
    exact ⟨_, List.mem_map_of_mem _ hw, (test_lit_sensitive _ _ _).mpr hi⟩

/-- The verdict on the text of `/.git/config`. -/
theorem configTextVerdict_iff (s : Str) :
    configTextVerdict s = true ↔
      (∃ w ∈ configWords, w <:+: s) ∧
        ¬ ContainsAnyCase "<html".toList s ∧ ¬ ContainsAnyCase "<body".toList s := by
  unfold configTextVerdict
  by_cases h1 : PATTERNS.git.config.excludeHtml.test s = true
  · rw [if_pos h1]
    have := (excludeHtml_test s).mp h1
    simp only [Bool.false_eq_true, false_iff]
    tauto
  · rw [if_neg h1]
    rw [excludeHtml_test] at h1
    by_cases h2 : PATTERNS.git.config.patterns.any (fun pattern => pattern.test s) = true
    · rw [if_pos h2]
      have := (patterns_any s).mp h2
      simp only [true_iff]
      tauto
    · rw [if_neg h2]
      rw [patterns_any] at h2
      simp only [Bool.false_eq_true, false_iff]
      exact fun h => h2 h.1

end LeakDetect

namespace GitEnvDetector

theorem gitPatterns_any (s : Str) :
    gitPatterns.any (fun pattern => pattern.test s) = true ↔
      ∃ w ∈ LeakDetect.configWords, w <:+: s := by
  simp only [gitPatterns, LeakDetect.configWords, List.any_cons, List.any_nil, Bool.or_false,
    Bool.or_eq_true, test_lit_sensitive, List.mem_cons, List.mem_singleton, List.not_mem_nil,
    or_false, exists_eq_or_imp, exists_eq_left, or_assoc]

/-- The decision of `checkGitConfig` on the text of `/.git/config`. -/
theorem gitTextMatches_iff (U : CaseTable) (s : Str) :
    gitTextMatches U s = true ↔
      (∃ w ∈ LeakDetect.configWords, w <:+: s) ∧
        ¬ ContainsAnyCase "<html".toList s ∧ ¬ ContainsAnyCase "<body".toList s := by
  have h1 := includes_toLowerCase U "<html".toList (by unfold Plain; decide) (by decide) s
  have h2 := includes_toLowerCase U "<body".toList (by unfold Plain; decide) (by decide) s
  unfold gitTextMatches
  simp only [Bool.and_eq_true, Bool.not_eq_true', Bool.or_eq_false_iff, gitPatterns_any,
    ← Bool.not_eq_true, Bool.or_eq_true, not_or, h1, h2]

end GitEnvDetector

/-- C1: in both variants the response of `/.git/config` with a given status and
body is classified as a match if and only if the status is 200, the body
contains one of the seven section words, and it contains neither `<html` nor
`<body` in any letter case; the two variants agree on every response. -/
theorem git_config_rule (U : GitEnvDetector.CaseTable) (status : Nat) (body : Str) :
    (LeakDetect.configStep ⟨status, .ok body⟩ = .ok true ↔
      status = 200 ∧ (∃ w ∈ LeakDetect.configWords, w <:+: body) ∧
        ¬ ContainsAnyCase "<html".toList body ∧ ¬ ContainsAnyCase "<body".toList body) ∧
    (GitEnvDetector.gitConfigFinds U ⟨status, .ok body⟩ = .ok true ↔
      status = 200 ∧ (∃ w ∈ LeakDetect.configWords, w <:+: body) ∧
        ¬ ContainsAnyCase "<html".toList body ∧ ¬ ContainsAnyCase "<body".toList body) ∧
    LeakDetect.configStep ⟨status, .ok body⟩ =
      GitEnvDetector.gitConfigFinds U ⟨status, .ok body⟩ := by
  have key : LeakDetect.configTextVerdict body = GitEnvDetector.gitTextMatches U body := by
    rw [Bool.eq_iff_iff, LeakDetect.configTextVerdict_iff, GitEnvDetector.gitTextMatches_iff]
  refine ⟨?_, ?_, ?_⟩
  · unfold LeakDetect.configStep
    by_cases hs : status = 200
    · simp [hs, LeakDetect.configTextVerdict_iff]
    · simp [hs]
  · unfold GitEnvDetector.gitConfigFinds
    by_cases hs : status = 200
    · simp [hs, GitEnvDetector.gitTextMatches_iff]
    · simp [hs]
  · unfold LeakDetect.configStep GitEnvDetector.gitConfigFinds
    by_cases hs : status = 200
    · simp [hs, key]
    · simp [hs]

/-! ## Classes, repetition and line starts -/

namespace JsRegex

theorem mem_run_seq (fl : Flags) (a b : Re) (p q : Pos) :
    q ∈ (Re.seq a b).run fl p ↔ ∃ m ∈ a.run fl p, q ∈ b.run fl m := by
  show q ∈ (a.run fl p).flatMap (b.run fl) ↔ _
  rw [List.mem_flatMap]

theorem mem_run_bol (fl : Flags) (p q : Pos) :
    q ∈ Re.bol.run fl p ↔ atLineStart fl p = true ∧ q = p := by
  show q ∈ (if atLineStart fl p = true then [p] else []) ↔ _
  by_cases h : atLineStart fl p = true
  · simp [h]
  · simp [h]

theorem mem_run_chr (fl : Flags) (a : Char) (pv : Option Char) (s : Str) (q : Pos) :
    q ∈ (Re.chr a).run fl ⟨pv, s⟩ ↔
      ∃ c t, s = c :: t ∧ charMatches fl a c = true ∧ q = ⟨some c, t⟩ := by
  cases s with
  | nil => simp [Re.run]
  | cons c t =>
    by_cases h : charMatches fl a c = true
    · simp only [Re.run, h, if_true, List.mem_singleton, List.cons.injEq]
      constructor
      · rintro rfl
        exact ⟨c, t, ⟨rfl, rfl⟩, h, rfl⟩
      · rintro ⟨c2, t2, ⟨rfl, rfl⟩, -, rfl⟩
        rfl
    · simp only [Re.run, h, List.cons.injEq]
      constructor
      · intro hq
        simp at hq
      · rintro ⟨c2, t2, ⟨rfl, rfl⟩, h2, -⟩
        exact absurd h2 h

theorem mem_run_cls (fl : Flags) (A : List ClassAtom) (pv : Option Char) (s : Str) (q : Pos) :
    q ∈ (Re.cls A).run fl ⟨pv, s⟩ ↔
      ∃ c t, s = c :: t ∧ classMatches fl A c = true ∧ q = ⟨some c, t⟩ := by
  cases s with
  | nil => simp [Re.run]
  | cons c t =>
    by_cases h : classMatches fl A c = true
    · simp only [Re.run, h, if_true, List.mem_singleton, List.cons.injEq]
      constructor
      · rintro rfl
        exact ⟨c, t, ⟨rfl, rfl⟩, h, rfl⟩
      · rintro ⟨c2, t2, ⟨rfl, rfl⟩, -, rfl⟩
        rfl
    · simp only [Re.run, h, List.cons.injEq]
      constructor
      · intro hq
        simp at hq
      · rintro ⟨c2, t2, ⟨rfl, rfl⟩, h2, -⟩
        exact absurd h2 h

/-- Iterating a class reads any run of characters of the class. -/
theorem mem_starFrom_cls (fl : Flags) (A : List ClassAtom) (fuel : Nat) (pv : Option Char)
    (s : Str) (hf : s.length ≤ fuel) (q : Pos) :
    q ∈ starFrom ((Re.cls A).run fl) fuel ⟨pv, s⟩ ↔
      ∃ w t, s = w ++ t ∧ (∀ c ∈ w, classMatches fl A c = true) ∧ q = ⟨lastOr pv w, t⟩ := by
  induction fuel generalizing pv s with
  | zero =>
    have hs : s = [] := List.length_eq_zero.mp (Nat.le_zero.mp hf)
    subst hs
    simp only [starFrom, List.mem_singleton]
    constructor
    · rintro rfl
      exact ⟨[], [], rfl, by simp, rfl⟩
    · rintro ⟨w, t, hs, -, rfl⟩
      have hw : w = [] := by
        cases w with
        | nil => rfl
        | cons a l => simp at hs
      have ht : t = [] := by
        cases t with
        | nil => rfl
        | cons a l => simp at hs
      subst hw; subst ht
      rfl
  | succ n ih =>
    simp only [starFrom, List.mem_cons, List.mem_flatMap, List.mem_filter, mem_run_cls]
    constructor
    · rintro (rfl | ⟨m, ⟨⟨c, t0, rfl, hc, rfl⟩, -⟩, hq⟩)
      · exact ⟨[], s, rfl, by simp, rfl⟩
      · have hl : t0.length ≤ n := by simpa using hf
        obtain ⟨w, t, rfl, hw, rfl⟩ := (ih (some c) t0 hl).mp hq
        refine ⟨c :: w, t, rfl, ?_, rfl⟩
        intro d hd
        rcases List.mem_cons.mp hd with rfl | hd
        · exact hc
        · exact hw d hd
    · rintro ⟨w, t, rfl, hw, rfl⟩
      cases w with
      | nil => exact Or.inl rfl
      | cons c w =>
        right
        have hl : (w ++ t).length ≤ n := by simpa using hf
        refine ⟨⟨some c, w ++ t⟩, ⟨⟨c, w ++ t, rfl, hw c (List.mem_cons_self c w), rfl⟩, ?_⟩, ?_⟩
        · simp
        · exact (ih (some c) (w ++ t) hl).mpr
            ⟨w, t, rfl, fun d hd => hw d (List.mem_cons_of_mem c hd), rfl⟩

theorem mem_run_star_cls (fl : Flags) (A : List ClassAtom) (pv : Option Char) (s : Str)
    (q : Pos) :
    q ∈ (Re.star (.cls A)).run fl ⟨pv, s⟩ ↔
      ∃ w t, s = w ++ t ∧ (∀ c ∈ w, classMatches fl A c = true) ∧ q = ⟨lastOr pv w, t⟩ :=
  mem_starFrom_cls fl A s.length pv s (Nat.le_refl _) q

theorem mem_run_plus_cls (fl : Flags) (A : List ClassAtom) (pv : Option Char) (s : Str)
    (q : Pos) :
    q ∈ (Re.plus (.cls A)).run fl ⟨pv, s⟩ ↔
      ∃ w t, w ≠ [] ∧ s = w ++ t ∧ (∀ c ∈ w, classMatches fl A c = true) ∧
        q = ⟨lastOr pv w, t⟩ := by
  show q ∈ ((Re.cls A).run fl ⟨pv, s⟩).flatMap
    (fun m => starFrom ((Re.cls A).run fl) m.rest.length m) ↔ _
  simp only [List.mem_flatMap, mem_run_cls]
  constructor
  · rintro ⟨m, ⟨c, t0, rfl, hc, rfl⟩, hq⟩
    obtain ⟨w, t, hs, hw, rfl⟩ := (mem_starFrom_cls fl A _ (some c) t0 (Nat.le_refl _) q).mp hq
    subst hs
    refine ⟨c :: w, t, by simp, rfl, ?_, rfl⟩
    intro d hd
    rcases List.mem_cons.mp hd with rfl | hd
    · exact hc
    · exact hw d hd
  · rintro ⟨w, t, hne, rfl, hw, rfl⟩
    cases w with
    | nil => exact absurd rfl hne
    | cons c w =>
      refine ⟨⟨some c, w ++ t⟩, ⟨c, w ++ t, rfl, hw c (List.mem_cons_self c w), rfl⟩, ?_⟩
      exact (mem_starFrom_cls fl A _ (some c) (w ++ t) (Nat.le_refl _) _).mpr
        ⟨w, t, rfl, fun d hd => hw d (List.mem_cons_of_mem c hd), rfl⟩

/-- A class repeated `n` times matches exactly at `n` characters of the class. -/
theorem repFrom_cls_ne_nil (fl : Flags) (A : List ClassAtom) (n : Nat) (pv : Option Char)
    (s : Str) :
    repFrom ((Re.cls A).run fl) n ⟨pv, s⟩ ≠ [] ↔
      ∃ v, v <+: s ∧ v.length = n ∧ ∀ c ∈ v, classMatches fl A c = true := by
  induction n generalizing pv s with
  | zero =>
    simp only [repFrom, ne_eq, List.cons_ne_self, not_false_eq_true, true_iff]
    exact ⟨[], List.nil_prefix, rfl, by simp⟩
  | succ n ih =>
    cases s with
    | nil =>
      simp only [repFrom, Re.run, List.flatMap_nil, ne_eq, not_true_eq_false, false_iff]
      rintro ⟨v, hv, hl, -⟩
      rw [List.prefix_nil.mp hv] at hl
      simp at hl
    | cons c t =>
      by_cases hc : classMatches fl A c = true
      · have h1 : repFrom ((Re.cls A).run fl) (n + 1) ⟨pv, c :: t⟩ =
            repFrom ((Re.cls A).run fl) n ⟨some c, t⟩ := by
          simp [repFrom, Re.run, hc]
        rw [h1, ih (some c) t]
        constructor
        · rintro ⟨v, hv, hl, hall⟩
          refine ⟨c :: v, List.cons_prefix_cons.mpr ⟨rfl, hv⟩, by simp [hl], ?_⟩
          intro d hd
          rcases List.mem_cons.mp hd with rfl | hd
          · exact hc
          · exact hall d hd
        · rintro ⟨v, hv, hl, hall⟩
          cases v with
          | nil => simp at hl
          | cons d v =>
            obtain ⟨rfl, hv2⟩ := List.cons_prefix_cons.mp hv
            exact ⟨v, hv2, by simpa using hl, fun e he => hall e (List.mem_cons_of_mem _ he)⟩
      · have h1 : repFrom ((Re.cls A).run fl) (n + 1) ⟨pv, c :: t⟩ = [] := by
          simp [repFrom, Re.run, hc]
        rw [h1]
        simp only [ne_eq, not_true_eq_false, false_iff]
        rintro ⟨v, hv, hl, hall⟩
        cases v with
        | nil => simp at hl
        | cons d v =>
          obtain ⟨rfl, -⟩ := List.cons_prefix_cons.mp hv
          exact hc (hall d (List.mem_cons_self d v))

/-- With the `m` flag, `^` holds after `pre` exactly when `pre` ends a line. -/
theorem atLineStart_iff (i : Bool) (pre suf : Str) :
    atLineStart ⟨i, true⟩ ⟨lastOr none pre, suf⟩ = true ↔ EndsLine pre := by
  rcases List.eq_nil_or_concat pre with rfl | ⟨p, c, rfl⟩
  · simp [atLineStart, lastOr, EndsLine]
  · rw [List.concat_eq_append, lastOr_concat]
    simp only [atLineStart, Bool.true_and, EndsLine]
    constructor
    · intro h
      exact Or.inr ⟨p, c, rfl, h⟩
    · rintro (h | ⟨p2, c2, h, hc⟩)
      · simp at h
      · obtain ⟨-, h2⟩ := List.append_inj' h rfl
        simp only [List.cons.injEq, and_true] at h2
        rw [h2]
        exact hc

/-- What follows an alternative that ends with the expression `X` can be found
by `X` alone, at a later position of the same input. -/
theorem run_tail (fl : Flags) (B : List ClassAtom) (Z X : Re) (pv : Option Char) (s : Str)
    (h : (Re.seq .bol (.seq (.cls B) (.seq (.star Z) X))).run fl ⟨pv, s⟩ ≠ []) :
    ∃ w t, s = w ++ t ∧ X.run fl ⟨lastOr pv w, t⟩ ≠ [] := by
  obtain ⟨q, hq⟩ := List.exists_mem_of_ne_nil _ h
  rw [mem_run_seq] at hq
  obtain ⟨m1, hm1, hq⟩ := hq
  rw [mem_run_seq] at hq
  obtain ⟨m2, hm2, hq⟩ := hq
  rw [mem_run_seq] at hq
  obtain ⟨m3, hm3, hq⟩ := hq
  obtain ⟨w1, hs1, hp1⟩ := run_advances fl .bol pv s m1 hm1
  obtain ⟨w2, hs2, hp2⟩ := run_advances fl (.cls B) m1.prev m1.rest m2 hm2
  obtain ⟨w3, hs3, hp3⟩ := run_advances fl (.star Z) m2.prev m2.rest m3 hm3
  refine ⟨w1 ++ w2 ++ w3, m3.rest, ?_, ?_⟩
  · rw [hs1, hs2, hs3]
    simp [List.append_assoc]
  · rw [lastOr_append, lastOr_append, ← hp1, ← hp2, ← hp3]
    exact List.ne_nil_of_mem hq

/-- An expression `X|^[B]Z*X` is found in the texts in which `X` is found. -/
theorem test_alt_tail (fl : Flags) (B : List ClassAtom) (Z X : Re) (s : Str) :
    (RegExp.mk (.seq .bol (.seq (.cls B) (.seq (.star Z) X))) fl).test s = true →
      (RegExp.mk X fl).test s = true := by
  unfold RegExp.test
  simp only [searchFrom_iff]
  rintro ⟨pre, suf, hs, h⟩
  obtain ⟨w, t, hw, hx⟩ := run_tail fl B Z X _ suf h
  refine ⟨pre ++ w, t, ?_, ?_⟩
  · rw [hs, hw, List.append_assoc]
  · rw [lastOr_append]
    exact hx

end JsRegex

/-! ## The HEAD rule and the env rule of LeakDetect -/

namespace LeakDetect

theorem hexClass_iff (c : Char) :
    classMatches ⟨false, false⟩ [.range 'a' 'f', .range '0' '9'] c = true ↔ IsLowerHex c := by
  simp only [classMatches, ClassAtom.has, IsLowerHex, List.any_cons, List.any_nil,
    Bool.or_false, Bool.or_eq_true, Bool.and_eq_true, decide_eq_true_eq, Bool.false_eq_true,
    if_false]
  tauto

theorem head_regex_test (s : Str) :
    PATTERNS.git.head.regex.test s = true ↔
      ∃ v, v <:+: s ∧ v.length = 40 ∧ ∀ c ∈ v, IsLowerHex c := by
  unfold PATTERNS.git.head.regex RegExp.test
  rw [searchFrom_iff]
  constructor
  · rintro ⟨pre, suf, hs, h⟩
    obtain ⟨v, hv, hl, hall⟩ := (repFrom_cls_ne_nil _ _ 40 _ suf).mp h
    exact ⟨v, (infix_iff_split v s).mpr ⟨pre, suf, hs, hv⟩, hl,
      fun c hc => (hexClass_iff c).mp (hall c hc)⟩
  · rintro ⟨v, hv, hl, hall⟩
    obtain ⟨pre, suf, hs, hp⟩ := (infix_iff_split v s).mp hv
    exact ⟨pre, suf, hs, (repFrom_cls_ne_nil _ _ 40 _ suf).mpr
      ⟨v, hp, hl, fun c hc => (hexClass_iff c).mpr (hall c hc)⟩⟩

/-- The condition of `checkGit` on the text of `/.git/HEAD`. -/
theorem headTextMatches_iff (s : Str) :
    headTextMatches s = true ↔
      "ref: refs/heads/".toList <+: s ∨
        ∃ v, v <:+: s ∧ v.length = 40 ∧ ∀ c ∈ v, IsLowerHex c := by
  unfold headTextMatches
  rw [Bool.or_eq_true, List.isPrefixOf_iff_prefix, head_regex_test]
  rfl

theorem upperClass_iff (c : Char) :
    classMatches ⟨false, true⟩ [.range 'A' 'Z', .single '_'] c = true ↔
      IsUpperOrUnderscore c := by
  simp only [classMatches, ClassAtom.has, IsUpperOrUnderscore, List.any_cons, List.any_nil,
    Bool.or_false, Bool.or_eq_true, Bool.and_eq_true, decide_eq_true_eq, Bool.false_eq_true,
    if_false]

/-- Where `^[A-Z_]+=` matches. -/
theorem envAssign_run (pv : Option Char) (s : Str) :
    envAssign.run ⟨false, true⟩ ⟨pv, s⟩ ≠ [] ↔
      atLineStart ⟨false, true⟩ ⟨pv, s⟩ = true ∧
        ∃ w t, w ≠ [] ∧ s = w ++ '=' :: t ∧ ∀ c ∈ w, IsUpperOrUnderscore c := by
  unfold envAssign
  constructor
  · intro h
    obtain ⟨q, hq⟩ := List.exists_mem_of_ne_nil _ h
    rw [mem_run_seq] at hq
    obtain ⟨m1, hm1, hq⟩ := hq
    rw [mem_run_bol] at hm1
    obtain ⟨hb, rfl⟩ := hm1
    rw [mem_run_seq] at hq
    obtain ⟨m2, hm2, hq⟩ := hq
    rw [mem_run_plus_cls] at hm2
    obtain ⟨w, t, hne, hs, hw, rfl⟩ := hm2
    rw [mem_run_chr] at hq
    obtain ⟨c, t2, ht, hc, -⟩ := hq
    have hc2 : c = '=' := by
      simpa [charMatches, eq_comm] using hc
    subst hc2
    refine ⟨hb, w, t2, hne, ?_, fun c hc => (upperClass_iff c).mp (hw c hc)⟩
    rw [hs, ht]
  · rintro ⟨hb, w, t, hne, hs, hw⟩
    apply List.ne_nil_of_mem (a := ⟨some '=', t⟩)
    rw [mem_run_seq]
    refine ⟨⟨pv, s⟩, (mem_run_bol _ _ _).mpr ⟨hb, rfl⟩, ?_⟩
    rw [mem_run_seq]
    refine ⟨⟨lastOr pv w, '=' :: t⟩, ?_, ?_⟩
    · rw [mem_run_plus_cls]
      exact ⟨w, '=' :: t, hne, hs, fun c hc => (upperClass_iff c).mpr (hw c hc), rfl⟩
    · rw [mem_run_chr]
      exact ⟨'=', t, rfl, by simp [charMatches], rfl⟩

/-- The first alternative of the env expression is found exactly in the texts a
line of which begins with an assignment. -/
theorem envAlt1_test (s : Str) :
    (RegExp.mk envAlt1 ⟨false, true⟩).test s = true ↔ LineBeginsAssign s := by
  unfold RegExp.test envAlt1 LineBeginsAssign
  simp only [searchFrom_iff, envAssign_run, atLineStart_iff]
  constructor
  · rintro ⟨pre, suf, hs, hb, w, t, hne, hsuf, hw⟩
    exact ⟨pre, w, t, by rw [hs, hsuf, List.append_assoc], hb, hne, hw⟩
  · rintro ⟨pre, w, t, hs, hb, hne, hw⟩
    exact ⟨pre, w ++ '=' :: t, by rw [hs, List.append_assoc], hb, w, t, hne, rfl, hw⟩

theorem envAlt2_sub (s : Str) :
    (RegExp.mk envAlt2 ⟨false, true⟩).test s = true →
      (RegExp.mk envAlt1 ⟨false, true⟩).test s = true :=
  test_alt_tail _ _ _ envAssign s

theorem env_regex_test (s : Str) :
    PATTERNS.env.regex.test s = true ↔ LineBeginsAssign s := by
  unfold PATTERNS.env.regex
  rw [test_alt, ← envAlt1_test]
  constructor
  · rintro (h | h)
    · exact h
    · exact envAlt2_sub s h
  · exact Or.inl

end LeakDetect

/-- C3: the response of `/.git/HEAD` is classified as a match if and only if the
status is 200 and the body starts with `ref: refs/heads/` or contains 40
consecutive characters of `0`-`9`, `a`-`f`; so `ref: refs/heads/main` matches,
and neither the 32-character example nor a 40-character run in upper case does. -/
theorem git_head_rule :
    (∀ (status : Nat) (body : Str),
      LeakDetect.headStep ⟨status, .ok body⟩ = .ok true ↔
        status = 200 ∧ ("ref: refs/heads/".toList <+: body ∨
          ∃ v, v <:+: body ∧ v.length = 40 ∧ ∀ c ∈ v, IsLowerHex c)) ∧
    LeakDetect.headStep ⟨200, .ok "ref: refs/heads/main\n".toList⟩ = .ok true ∧
    LeakDetect.headStep ⟨200, .ok "550e8400e29b41d4a716446655440000".toList⟩ = .ok false ∧
    LeakDetect.headStep ⟨200, .ok "DA39A3EE5E6B4B0D3255BFEF95601890AFD80709".toList⟩ =
      .ok false := by
  refine ⟨?_, congrArg Except.ok (by decide : LeakDetect.headTextMatches _ = true),
    congrArg Except.ok (by decide : LeakDetect.headTextMatches _ = false),
    congrArg Except.ok (by decide : LeakDetect.headTextMatches _ = false)⟩
  intro status body
  unfold LeakDetect.headStep
  by_cases hs : status = 200
  · simp [hs, LeakDetect.headTextMatches_iff]
  · simp [hs]

/-- C4: `checkEnv` classifies the response of `/.env` as a match if and only if
the status is 200 and some line of the body begins, at its first character,
with a non-empty run of `A`-`Z` and `_` followed by `=`; the second alternative
of the expression accepts no body that the first one rejects; the three
examples of the specification come out as stated. -/
theorem env_rule :
    (∀ (status : Nat) (body : Str),
      LeakDetect.envStep ⟨status, .ok body⟩ = .ok true ↔
        status = 200 ∧ LineBeginsAssign body) ∧
    (∀ body : Str, (RegExp.mk LeakDetect.envAlt2 ⟨false, true⟩).test body = true →
      (RegExp.mk LeakDetect.envAlt1 ⟨false, true⟩).test body = true) ∧
    LeakDetect.envStep ⟨200, .ok "DB_HOST=localhost\nDB_PORT=5432".toList⟩ = .ok true ∧
    LeakDetect.envStep ⟨200, .ok "hello world".toList⟩ = .ok false ∧
    LeakDetect.envStep ⟨404, .ok "DB_HOST=localhost".toList⟩ = .ok false := by
  refine ⟨?_, LeakDetect.envAlt2_sub,
    congrArg Except.ok (by decide : LeakDetect.PATTERNS.env.regex.test _ = true),
    congrArg Except.ok (by decide : LeakDetect.PATTERNS.env.regex.test _ = false), rfl⟩
  intro status body
  unfold LeakDetect.envStep
  by_cases hs : status = 200
  · simp [hs, LeakDetect.env_regex_test]
  · simp [hs]

/-! ## The probes of LeakDetect -/

namespace LeakDetect

theorem fetchWithTimeout_probe (net : Network) (resource : Str) (log : List Request) :
    fetchWithTimeout net resource probeOptions log =
      (settled (net (probeRequest resource)), log ++ [probeRequest resource]) := rfl

theorem checkGit_head_error (net : Network) (url : Str) (log : List Request) (e : Fault)
    (h : settled (net (headRequest url)) = .error e) :
    checkGit net url log = (.ok false, log ++ [headRequest url]) := by
  unfold headRequest at h
  simp only [checkGit, checkGitTry, fetchWithTimeout_probe, h]
  rfl

theorem checkGit_head_unread (net : Network) (url : Str) (log : List Request)
    (hr : Response) (e : Fault) (h : settled (net (headRequest url)) = .ok hr)
    (hs : headStep hr = .error e) :
    checkGit net url log = (.ok false, log ++ [headRequest url]) := by
  unfold headRequest at h
  simp only [checkGit, checkGitTry, fetchWithTimeout_probe, h, hs]
  rfl

theorem checkGit_head_match (net : Network) (url : Str) (log : List Request)
    (hr : Response) (h : settled (net (headRequest url)) = .ok hr)
    (hs : headStep hr = .ok true) :
    checkGit net url log = (.ok true, log ++ [headRequest url]) := by
  unfold headRequest at h
  simp only [checkGit, checkGitTry, fetchWithTimeout_probe, h, hs]
  rfl

theorem checkGit_config_error (net : Network) (url : Str) (log : List Request)
    (hr : Response) (e : Fault) (h : settled (net (headRequest url)) = .ok hr)
    (hs : headStep hr = .ok false) (hc : settled (net (configRequest url)) = .error e) :
    checkGit net url log = (.ok false, log ++ [headRequest url, configRequest url]) := by
  unfold headRequest at h
  unfold configRequest at hc
  simp only [checkGit, checkGitTry, fetchWithTimeout_probe, h, hs, hc]
  simp [headRequest, configRequest]

theorem checkGit_config_unread (net : Network) (url : Str) (log : List Request)
    (hr cr : Response) (e : Fault) (h : settled (net (headRequest url)) = .ok hr)
    (hs : headStep hr = .ok false) (hc : settled (net (configRequest url)) = .ok cr)
    (hcs : configStep cr = .error e) :
    checkGit net url log = (.ok false, log ++ [headRequest url, configRequest url]) := by
  unfold headRequest at h
  unfold configRequest at hc
  simp only [checkGit, checkGitTry, fetchWithTimeout_probe, h, hs, hc, hcs]
  simp [headRequest, configRequest]

theorem checkGit_config (net : Network) (url : Str) (log : List Request)
    (hr cr : Response) (b : Bool) (h : settled (net (headRequest url)) = .ok hr)
    (hs : headStep hr = .ok false) (hc : settled (net (configRequest url)) = .ok cr)
    (hcs : configStep cr = .ok b) :
    checkGit net url log = (.ok b, log ++ [headRequest url, configRequest url]) := by
  unfold headRequest at h
  unfold configRequest at hc
  simp only [checkGit, checkGitTry, fetchWithTimeout_probe, h, hs, hc, hcs]
  simp [headRequest, configRequest]

theorem checkEnv_error (net : Network) (url : Str) (log : List Request) (e : Fault)
    (h : settled (net (envRequest url)) = .error e) :
    checkEnv net url log = (.ok false, log ++ [envRequest url]) := by
  unfold envRequest at h
  simp only [checkEnv, checkEnvTry, fetchWithTimeout_probe, h]
  rfl

theorem checkEnv_unread (net : Network) (url : Str) (log : List Request) (r : Response)
    (e : Fault) (h : settled (net (envRequest url)) = .ok r) (hs : envStep r = .error e) :
    checkEnv net url log = (.ok false, log ++ [envRequest url]) := by
  unfold envRequest at h
  simp only [checkEnv, checkEnvTry, fetchWithTimeout_probe, h, hs]
  rfl

theorem checkEnv_response (net : Network) (url : Str) (log : List Request) (r : Response)
    (b : Bool) (h : settled (net (envRequest url)) = .ok r) (hs : envStep r = .ok b) :
    checkEnv net url log = (.ok b, log ++ [envRequest url]) := by
  unfold envRequest at h
  simp only [checkEnv, checkEnvTry, fetchWithTimeout_probe, h, hs]
  rfl

/-- The outcomes of `checkGit`: it returns a boolean, after the HEAD request
alone or after the HEAD and the config request. -/
theorem checkGit_cases (net : Network) (url : Str) (log : List Request) :
    ∃ b, checkGit net url log = (.ok b, log ++ [headRequest url]) ∨
      checkGit net url log = (.ok b, log ++ [headRequest url, configRequest url]) := by
  cases h : settled (net (headRequest url)) with
  | error e => exact ⟨false, Or.inl (checkGit_head_error net url log e h)⟩
  | ok hr =>
    cases hs : headStep hr with
    | error e => exact ⟨false, Or.inl (checkGit_head_unread net url log hr e h hs)⟩
    | ok b =>
      cases b with
      | true => exact ⟨true, Or.inl (checkGit_head_match net url log hr h hs)⟩
      | false =>
        cases hc : settled (net (configRequest url)) with
        | error e => exact ⟨false, Or.inr (checkGit_config_error net url log hr e h hs hc)⟩
        | ok cr =>
          cases hcs : configStep cr with
          | error e =>
            exact ⟨false, Or.inr (checkGit_config_unread net url log hr cr e h hs hc hcs)⟩
          | ok b => exact ⟨b, Or.inr (checkGit_config net url log hr cr b h hs hc hcs)⟩

/-- The outcomes of `checkEnv`: it returns a boolean after its one request. -/
theorem checkEnv_cases (net : Network) (url : Str) (log : List Request) :
    ∃ b, checkEnv net url log = (.ok b, log ++ [envRequest url]) := by
  cases h : settled (net (envRequest url)) with
  | error e => exact ⟨false, checkEnv_error net url log e h⟩
  | ok r =>
    cases hs : envStep r with
    | error e => exact ⟨false, checkEnv_unread net url log r e h hs⟩
    | ok b => exact ⟨b, checkEnv_response net url log r b h hs⟩

end LeakDetect

/-- C2, counterexample: the body `ref: refs/heads/<html>` contains `<html`, and
when `/.git/HEAD` and `/.git/config` both answer 200 with it `checkGit` returns
`true`: the HEAD text is trusted without any HTML exclusion. -/
theorem html_exclusion_head_counterexample :
    ContainsAnyCase "<html".toList "ref: refs/heads/<html>".toList ∧
    (LeakDetect.checkGit (constNet 200 "ref: refs/heads/<html>".toList)
      "https://example.test".toList []).1 = .ok true := by
  refine ⟨⟨"<html".toList, ⟨"ref: refs/heads/".toList, ">".toList, by decide⟩, by decide⟩, ?_⟩
  rw [LeakDetect.checkGit_head_match (constNet 200 "ref: refs/heads/<html>".toList)
    "https://example.test".toList [] ⟨200, .ok "ref: refs/heads/<html>".toList⟩ rfl
    (congrArg Except.ok (by decide : LeakDetect.headTextMatches _ = true))]

/-- C2, amended: for a body `B` that contains `<html` or `<body` in any letter
case the config rule at status 200 is false; when `/.git/HEAD` and
`/.git/config` both answer 200 with `B`, `checkGit` returns `true` exactly when
`B` satisfies the HEAD rule, and `false` exactly when it does not. -/
theorem html_exclusion_config_only (net : Network) (url : Str) (log : List Request) (B : Str)
    (hB : ContainsAnyCase "<html".toList B ∨ ContainsAnyCase "<body".toList B)
    (hh : LeakDetect.settled (net (LeakDetect.headRequest url)) = .ok ⟨200, .ok B⟩)
    (hc : LeakDetect.settled (net (LeakDetect.configRequest url)) = .ok ⟨200, .ok B⟩) :
    LeakDetect.configStep ⟨200, .ok B⟩ = .ok false ∧
    ((LeakDetect.checkGit net url log).1 = .ok true ↔
      ("ref: refs/heads/".toList <+: B ∨
        ∃ v, v <:+: B ∧ v.length = 40 ∧ ∀ c ∈ v, IsLowerHex c)) ∧
    ((LeakDetect.checkGit net url log).1 = .ok false ↔
      ¬ ("ref: refs/heads/".toList <+: B ∨
        ∃ v, v <:+: B ∧ v.length = 40 ∧ ∀ c ∈ v, IsLowerHex c)) := by
  have hcfg : LeakDetect.configTextVerdict B = false := by
    rw [← Bool.not_eq_true, LeakDetect.configTextVerdict_iff]
    rintro ⟨-, h1, h2⟩
    exact hB.elim h1 h2
  have hcs : LeakDetect.configStep ⟨200, .ok B⟩ = .ok false := by
    simp [LeakDetect.configStep, hcfg]
  have hhs : LeakDetect.headStep ⟨200, .ok B⟩ = .ok (LeakDetect.headTextMatches B) := by
    simp [LeakDetect.headStep]
  refine ⟨hcs, ?_⟩
  rw [← LeakDetect.headTextMatches_iff]
  cases hm : LeakDetect.headTextMatches B with
  | true =>
    rw [hm] at hhs
    rw [LeakDetect.checkGit_head_match net url log _ hh hhs]
    simp
  | false =>
    rw [hm] at hhs
    rw [LeakDetect.checkGit_config net url log _ _ false hh hhs hc hcs]
    simp

/-- C2, witness: an HTML page with the word `[core]`, served for both paths. -/
theorem html_exclusion_config_only_witness :
    LeakDetect.configStep ⟨200, .ok "<HTML>[core]".toList⟩ = .ok false ∧
    ((LeakDetect.checkGit (constNet 200 "<HTML>[core]".toList) "https://example.test".toList
        []).1 = .ok true ↔
      ("ref: refs/heads/".toList <+: "<HTML>[core]".toList ∨
        ∃ v, v <:+: "<HTML>[core]".toList ∧ v.length = 40 ∧ ∀ c ∈ v, IsLowerHex c)) ∧
    ((LeakDetect.checkGit (constNet 200 "<HTML>[core]".toList) "https://example.test".toList
        []).1 = .ok false ↔
      ¬ ("ref: refs/heads/".toList <+: "<HTML>[core]".toList ∨
        ∃ v, v <:+: "<HTML>[core]".toList ∧ v.length = 40 ∧ ∀ c ∈ v, IsLowerHex c)) :=
  html_exclusion_config_only (constNet 200 "<HTML>[core]".toList) "https://example.test".toList
    [] "<HTML>[core]".toList
    (Or.inl ⟨"<HTML".toList, ⟨[], ">[core]".toList, by decide⟩, by decide⟩) rfl rfl

/-- C5, counterexample: in the body `  DB_HOST=localhost` the only line begins,
once trimmed, with `DB_HOST=`, and the env check at status 200 returns `false`. -/
theorem env_trimmed_counterexample :
    TrimmedLineBeginsAssign "  DB_HOST=localhost".toList ∧
    LeakDetect.envStep ⟨200, .ok "  DB_HOST=localhost".toList⟩ = .ok false ∧
    (LeakDetect.checkEnv (constNet 200 "  DB_HOST=localhost".toList)
      "https://example.test".toList []).1 = .ok false := by
  have h : LeakDetect.envStep ⟨200, .ok "  DB_HOST=localhost".toList⟩ = .ok false :=
    congrArg Except.ok (by decide : LeakDetect.PATTERNS.env.regex.test _ = false)
  refine ⟨⟨[], "  ".toList, "DB_HOST".toList, "localhost".toList, by decide, Or.inl rfl,
    by decide, by decide, by decide⟩, h, ?_⟩
  rw [LeakDetect.checkEnv_response (constNet 200 "  DB_HOST=localhost".toList)
    "https://example.test".toList [] ⟨200, .ok "  DB_HOST=localhost".toList⟩ false rfl h]

/-- C5, amended: for every body in which some line begins at its very first
character, with no white space before it, with a non-empty run of `A`-`Z` and
`_` followed by `=`, the env check of LeakDetect returns `true` when `/.env`
answers 200 with that body. -/
theorem env_untrimmed_line (net : Network) (url : Str) (log : List Request) (body : Str)
    (hnet : LeakDetect.settled (net (LeakDetect.envRequest url)) = .ok ⟨200, .ok body⟩)
    (h : LineBeginsAssign body) :
    (LeakDetect.checkEnv net url log).1 = .ok true := by
  have hs : LeakDetect.envStep ⟨200, .ok body⟩ = .ok true := by
    simp [LeakDetect.envStep, LeakDetect.env_regex_test, h]
  rw [LeakDetect.checkEnv_response net url log _ true hnet hs]

/-- C5, witness: a body whose second line is an assignment. -/
theorem env_untrimmed_line_witness :
    (LeakDetect.checkEnv (constNet 200 "# db\nDB_HOST=localhost".toList)
      "https://example.test".toList []).1 = .ok true :=
  env_untrimmed_line (constNet 200 "# db\nDB_HOST=localhost".toList)
    "https://example.test".toList [] "# db\nDB_HOST=localhost".toList rfl
    ⟨"# db\n".toList, "DB_HOST".toList, "localhost".toList, by decide,
      Or.inr ⟨"# db".toList, '\n', by decide, by decide⟩, by decide, by decide⟩

/-! ## The probes of git-env-detector -/

namespace GitEnvDetector

theorem addFoundItem_requests (now : Nat) (st : State) (target type url : Str)
    (secrets : Option Str) : (addFoundItem now st target type url secrets).requests = st.requests := by
  unfold addFoundItem updateBadge showNotification
  simp only
  split <;> rfl

theorem addFoundItem_foundItems (now : Nat) (st : State) (target type url : Str)
    (secrets : Option Str) :
    (addFoundItem now st target type url secrets).foundItems =
      st.foundItems ++ [⟨now, target, type, url, secrets, now⟩] := by
  unfold addFoundItem updateBadge showNotification
  simp only
  split <;> rfl

/-- The outcomes of `checkGitConfig`: it completes, having issued its one
request, and the findings are as before or one more. -/
theorem checkGitConfig_cases (U : CaseTable) (net : Network) (now : Nat) (st : State)
    (baseUrl targetKey : Str) :
    checkGitConfig U net now st baseUrl targetKey =
        .ok { st with requests := st.requests ++ [gitRequest baseUrl] } ∨
      checkGitConfig U net now st baseUrl targetKey =
        .ok (addFoundItem now { st with requests := st.requests ++ [gitRequest baseUrl] }
          targetKey "git".toList (baseUrl ++ "/.git/config".toList) none) := by
  unfold checkGitConfig fetch gitRequest
  simp only
  cases (net ⟨baseUrl ++ "/.git/config".toList, probeInit baseUrl⟩).outcome with
  | error e => exact Or.inl rfl
  | ok response =>
    simp only
    cases gitConfigFinds U response with
    | error e => exact Or.inl rfl
    | ok b =>
      cases b with
      | true => exact Or.inr rfl
      | false => exact Or.inl rfl

theorem checkGitConfig_failed (U : CaseTable) (net : Network) (now : Nat) (st : State)
    (baseUrl targetKey : Str)
    (h : (∃ e, (net (gitRequest baseUrl)).outcome = .error e) ∨
      ∃ status e, (net (gitRequest baseUrl)).outcome = .ok ⟨status, .error e⟩) :
    checkGitConfig U net now st baseUrl targetKey =
      .ok { st with requests := st.requests ++ [gitRequest baseUrl] } := by
  unfold gitRequest at h
  unfold checkGitConfig fetch gitRequest
  simp only
  rcases h with ⟨e, h⟩ | ⟨status, e, h⟩
  · rw [h]
  · rw [h]
    by_cases hs : status = 200 <;> simp [gitConfigFinds, hs]

/-- The outcomes of `checkEnvFile`. -/
theorem checkEnvFile_cases (net : Network) (now : Nat) (st : State)
    (baseUrl targetKey : Str) :
    checkEnvFile net now st baseUrl targetKey =
        .ok { st with requests := st.requests ++ [envRequest baseUrl] } ∨
      checkEnvFile net now st baseUrl targetKey =
        .ok (addFoundItem now { st with requests := st.requests ++ [envRequest baseUrl] }
          targetKey "env".toList (baseUrl ++ "/.env".toList) none) := by
  unfold checkEnvFile fetch envRequest
  simp only
  cases (net ⟨baseUrl ++ "/.env".toList, probeInit baseUrl⟩).outcome with
  | error e => exact Or.inl rfl
  | ok response =>
    simp only
    cases envFileFinds response with
    | error e => exact Or.inl rfl
    | ok b =>
      cases b with
      | true => exact Or.inr rfl
      | false => exact Or.inl rfl

theorem checkEnvFile_failed (net : Network) (now : Nat) (st : State)
    (baseUrl targetKey : Str)
    (h : (∃ e, (net (envRequest baseUrl)).outcome = .error e) ∨
      ∃ status e, (net (envRequest baseUrl)).outcome = .ok ⟨status, .error e⟩) :
    checkEnvFile net now st baseUrl targetKey =
      .ok { st with requests := st.requests ++ [envRequest baseUrl] } := by
  unfold envRequest at h
  unfold checkEnvFile fetch envRequest
  simp only
  rcases h with ⟨e, h⟩ | ⟨status, e, h⟩
  · rw [h]
  · rw [h]
    by_cases hs : status = 200 <;> simp [envFileFinds, hs]

end GitEnvDetector

/-! ## The env rule of git-env-detector -/

namespace GitEnvDetector

theorem identStart_iff (c : Char) :
    classMatches ⟨false, true⟩ [.range 'a' 'z', .range 'A' 'Z', .single '_'] c = true ↔
      IsIdentStart c := by
  simp only [classMatches, ClassAtom.has, IsIdentStart, List.any_cons, List.any_nil,
    Bool.or_false, Bool.or_eq_true, Bool.and_eq_true, decide_eq_true_eq, Bool.false_eq_true,
    if_false, or_assoc]

theorem identChar_iff (c : Char) :
    classMatches ⟨false, true⟩
      [.range 'a' 'z', .range 'A' 'Z', .range '0' '9', .single '_'] c = true ↔
      IsIdentChar c := by
  simp only [classMatches, ClassAtom.has, IsIdentChar, List.any_cons, List.any_nil,
    Bool.or_false, Bool.or_eq_true, Bool.and_eq_true, decide_eq_true_eq, Bool.false_eq_true,
    if_false, or_assoc]

theorem spaceClass_iff (c : Char) :
    classMatches ⟨false, true⟩ [.space] c = true ↔ isSpace c = true := by
  simp only [classMatches, ClassAtom.has, List.any_cons, List.any_nil, Bool.or_false,
    Bool.false_eq_true, if_false]

/-- Where `^[a-zA-Z_][a-zA-Z0-9_]*\s*=` matches. -/
theorem looseAssign_run (pv : Option Char) (s : Str) :
    envAssign.run ⟨false, true⟩ ⟨pv, s⟩ ≠ [] ↔
      atLineStart ⟨false, true⟩ ⟨pv, s⟩ = true ∧
        ∃ c w ws t, s = c :: w ++ ws ++ '=' :: t ∧ IsIdentStart c ∧
          (∀ d ∈ w, IsIdentChar d) ∧ ∀ d ∈ ws, isSpace d = true := by
  unfold envAssign
  constructor
  · intro h
    obtain ⟨q, hq⟩ := List.exists_mem_of_ne_nil _ h
    rw [mem_run_seq] at hq
    obtain ⟨m1, hm1, hq⟩ := hq
    rw [mem_run_bol] at hm1
    obtain ⟨hb, rfl⟩ := hm1
    rw [mem_run_seq] at hq
    obtain ⟨m2, hm2, hq⟩ := hq
    rw [mem_run_cls] at hm2
    obtain ⟨c, t0, hs0, hc, rfl⟩ := hm2
    rw [mem_run_seq] at hq
    obtain ⟨m3, hm3, hq⟩ := hq
    rw [mem_run_star_cls] at hm3
    obtain ⟨w, t1, hs1, hw, rfl⟩ := hm3
    rw [mem_run_seq] at hq
    obtain ⟨m4, hm4, hq⟩ := hq
    rw [mem_run_star_cls] at hm4
    obtain ⟨ws, t2, hs2, hws, rfl⟩ := hm4
    rw [mem_run_chr] at hq
    obtain ⟨e, t, ht, he, -⟩ := hq
    have he2 : e = '=' := by
      simpa [charMatches, eq_comm] using he
    subst he2
    refine ⟨hb, c, w, ws, t, ?_, (identStart_iff c).mp hc,
      fun d hd => (identChar_iff d).mp (hw d hd), fun d hd => (spaceClass_iff d).mp (hws d hd)⟩
    rw [hs0, hs1, hs2, ht]
    simp [List.append_assoc]
  · rintro ⟨hb, c, w, ws, t, hs, hc, hw, hws⟩
    apply List.ne_nil_of_mem (a := ⟨some '=', t⟩)
    rw [mem_run_seq]
    refine ⟨⟨pv, s⟩, (mem_run_bol _ _ _).mpr ⟨hb, rfl⟩, ?_⟩
    rw [mem_run_seq]
    refine ⟨⟨some c, w ++ ws ++ '=' :: t⟩, ?_, ?_⟩
    · rw [mem_run_cls]
      exact ⟨c, w ++ ws ++ '=' :: t, by rw [hs]; simp [List.append_assoc],
        (identStart_iff c).mpr hc, rfl⟩
    · rw [mem_run_seq]
      refine ⟨⟨lastOr (some c) w, ws ++ '=' :: t⟩, ?_, ?_⟩
      · rw [mem_run_star_cls]
        exact ⟨w, ws ++ '=' :: t, by simp [List.append_assoc],
          fun d hd => (identChar_iff d).mpr (hw d hd), rfl⟩
      · rw [mem_run_seq]
        refine ⟨⟨lastOr (lastOr (some c) w) ws, '=' :: t⟩, ?_, ?_⟩
        · rw [mem_run_star_cls]
          exact ⟨ws, '=' :: t, rfl, fun d hd => (spaceClass_iff d).mpr (hws d hd), rfl⟩
        · rw [mem_run_chr]
          exact ⟨'=', t, rfl, by simp [charMatches], rfl⟩

/-- The env expression of git-env-detector is found exactly in the texts a line
of which begins with an identifier, white space if any, and `=`. -/
theorem envPattern_test (s : Str) : envPattern.test s = true ↔ LineBeginsLooseAssign s := by
  have h1 : (RegExp.mk envAssign ⟨false, true⟩).test s = true ↔ LineBeginsLooseAssign s := by
    unfold RegExp.test LineBeginsLooseAssign
    simp only [searchFrom_iff, looseAssign_run, atLineStart_iff]
    constructor
    · rintro ⟨pre, suf, hs, hb, c, w, ws, t, hsuf, hc, hw, hws⟩
      exact ⟨pre, c, w, ws, t, by rw [hs, hsuf]; simp [List.append_assoc], hb, hc, hw, hws⟩
    · rintro ⟨pre, c, w, ws, t, hs, hb, hc, hw, hws⟩
      exact ⟨pre, c :: w ++ ws ++ '=' :: t, by rw [hs]; simp [List.append_assoc], hb,
        c, w, ws, t, rfl, hc, hw, hws⟩
  unfold envPattern
  rw [test_alt, ← h1]
  constructor
  · rintro (h | h)
    · exact h
    · exact test_alt_tail _ _ _ envAssign s h
  · exact Or.inl

end GitEnvDetector

/-- C6, counterexample: the page `<html>` followed by the line `DB_HOST=x`
contains `<html`, and both env checks classify it as a match at status 200. -/
theorem env_soft404_counterexample :
    ContainsAnyCase "<html".toList "<html>\nDB_HOST=x".toList ∧
    LeakDetect.envStep ⟨200, .ok "<html>\nDB_HOST=x".toList⟩ = .ok true ∧
    GitEnvDetector.envFileFinds ⟨200, .ok "<html>\nDB_HOST=x".toList⟩ = .ok true :=
  ⟨⟨"<html".toList, ⟨[], ">\nDB_HOST=x".toList, by decide⟩, by decide⟩,
    congrArg Except.ok (by decide : LeakDetect.PATTERNS.env.regex.test _ = true),
    congrArg Except.ok (by decide : GitEnvDetector.envPattern.test _ = true)⟩

/-- C6, amended: neither env check looks for HTML. For every body, with or
without `<html` or `<body`, the env classification at status 200 is false if
and only if no line of the body begins with an assignment: in LeakDetect a run
of `A`-`Z` and `_` followed by `=`, in git-env-detector an identifier, white
space if any, and `=`. -/
theorem env_rejects_only_without_assignment (B : Str) :
    (LeakDetect.envStep ⟨200, .ok B⟩ = .ok false ↔ ¬ LineBeginsAssign B) ∧
    (GitEnvDetector.envFileFinds ⟨200, .ok B⟩ = .ok false ↔ ¬ LineBeginsLooseAssign B) := by
  constructor
  · rw [← LeakDetect.env_regex_test]
    simp [LeakDetect.envStep]
  · rw [← GitEnvDetector.envPattern_test]
    simp [GitEnvDetector.envFileFinds]

/-! ## Failures, fallback and requests -/

namespace LeakDetect

/-- The function `checkSite` always returns a result object. -/
theorem checkSite_value (net : Network) (sendMessage : FindingsMessage → Except Fault Unit)
    (url : Str) (options : Options) :
    ∃ r, (checkSite net sendMessage url options).value = .ok r := by
  unfold checkSite
  rcases checkSiteTry net sendMessage url options with ⟨v, requests, messages⟩
  cases v with
  | error e => exact ⟨_, rfl⟩
  | ok r => exact ⟨r, rfl⟩

/-- When every probe fails, `checkSite` reports no finding and sends nothing. -/
theorem checkSite_all_failed (net : Network)
    (sendMessage : FindingsMessage → Except Fault Unit) (url : Str) (functions : Functions)
    (hnet : ∀ r, ∃ e, settled (net r) = .error e) :
    (checkSite net sendMessage url ⟨some functions⟩).value = .ok ⟨[], true, none⟩ ∧
      (checkSite net sendMessage url ⟨some functions⟩).messages = [] := by
  have hg : ∀ log, checkGit net url log = (.ok false, log ++ [headRequest url]) := by
    intro log
    obtain ⟨e, he⟩ := hnet (headRequest url)
    exact checkGit_head_error net url log e he
  have he : ∀ log, checkEnv net url log = (.ok false, log ++ [envRequest url]) := by
    intro log
    obtain ⟨e, he⟩ := hnet (envRequest url)
    exact checkEnv_error net url log e he
  rcases functions with ⟨g, v⟩
  unfold checkSite checkSiteTry
  cases g <;> cases v <;> simp [hg, he]

end LeakDetect

/-- C7: no failure of a probe escapes. `checkGit` and `checkEnv` always return
a boolean, and return `false` when a fetch fails, is aborted by the timer of
8000 ms, or the body cannot be read; `checkSite` always returns a result
object, without findings when every probe fails; `checkGitConfig` and
`checkEnvFile` always complete, and leave the findings and notifications as
they were when the fetch or the reading of the body fails. -/
theorem probe_failures_never_escape :
    (∀ a : Answer, 8000 ≤ a.delay → LeakDetect.settled a = .error .abort) ∧
    (∀ net url log, ∃ b, (LeakDetect.checkGit net url log).1 = .ok b) ∧
    (∀ net url log e, LeakDetect.settled (net (LeakDetect.headRequest url)) = .error e →
      (LeakDetect.checkGit net url log).1 = .ok false) ∧
    (∀ net url log e,
      LeakDetect.settled (net (LeakDetect.headRequest url)) = .ok ⟨200, .error e⟩ →
      (LeakDetect.checkGit net url log).1 = .ok false) ∧
    (∀ net url log hr e, LeakDetect.settled (net (LeakDetect.headRequest url)) = .ok hr →
      LeakDetect.headStep hr = .ok false →
      LeakDetect.settled (net (LeakDetect.configRequest url)) = .error e →
      (LeakDetect.checkGit net url log).1 = .ok false) ∧
    (∀ net url log hr e, LeakDetect.settled (net (LeakDetect.headRequest url)) = .ok hr →
      LeakDetect.headStep hr = .ok false →
      LeakDetect.settled (net (LeakDetect.configRequest url)) = .ok ⟨200, .error e⟩ →
      (LeakDetect.checkGit net url log).1 = .ok false) ∧
    (∀ net url log, ∃ b, (LeakDetect.checkEnv net url log).1 = .ok b) ∧
    (∀ net url log e, LeakDetect.settled (net (LeakDetect.envRequest url)) = .error e →
      (LeakDetect.checkEnv net url log).1 = .ok false) ∧
    (∀ net url log e,
      LeakDetect.settled (net (LeakDetect.envRequest url)) = .ok ⟨200, .error e⟩ →
      (LeakDetect.checkEnv net url log).1 = .ok false) ∧
    (∀ net sendMessage url options,
      ∃ r, (LeakDetect.checkSite net sendMessage url options).value = .ok r) ∧
    (∀ net sendMessage url functions, (∀ r, ∃ e, LeakDetect.settled (net r) = .error e) →
      (LeakDetect.checkSite net sendMessage url ⟨some functions⟩).value =
        .ok ⟨[], true, none⟩) ∧
    (∀ U net now st baseUrl targetKey,
      ∃ st', GitEnvDetector.checkGitConfig U net now st baseUrl targetKey = .ok st') ∧
    (∀ U net now st baseUrl targetKey,
      ((∃ e, (net (GitEnvDetector.gitRequest baseUrl)).outcome = .error e) ∨
        ∃ status e, (net (GitEnvDetector.gitRequest baseUrl)).outcome =
          .ok ⟨status, .error e⟩) →
      ∃ st', GitEnvDetector.checkGitConfig U net now st baseUrl targetKey = .ok st' ∧
        st'.foundItems = st.foundItems ∧ st'.stored = st.stored ∧
        st'.notifications = st.notifications) ∧
    (∀ net now st baseUrl targetKey,
      ∃ st', GitEnvDetector.checkEnvFile net now st baseUrl targetKey = .ok st') ∧
    (∀ net now st baseUrl targetKey,
      ((∃ e, (net (GitEnvDetector.envRequest baseUrl)).outcome = .error e) ∨
        ∃ status e, (net (GitEnvDetector.envRequest baseUrl)).outcome =
          .ok ⟨status, .error e⟩) →
      ∃ st', GitEnvDetector.checkEnvFile net now st baseUrl targetKey = .ok st' ∧
        st'.foundItems = st.foundItems ∧ st'.stored = st.stored ∧
        st'.notifications = st.notifications) := by
  refine ⟨?_, ?_, ?_, ?_, ?_, ?_, ?_, ?_, ?_, ?_, ?_, ?_, ?_, ?_, ?_⟩
  · intro a ha
    unfold LeakDetect.settled
    rw [if_neg (by omega)]
  · intro net url log
    obtain ⟨b, h | h⟩ := LeakDetect.checkGit_cases net url log
    · exact ⟨b, by rw [h]⟩
    · exact ⟨b, by rw [h]⟩
  · intro net url log e h
    rw [LeakDetect.checkGit_head_error net url log e h]
  · intro net url log e h
    rw [LeakDetect.checkGit_head_unread net url log _ e h (by simp [LeakDetect.headStep])]
  · intro net url log hr e h hs hc
    rw [LeakDetect.checkGit_config_error net url log hr e h hs hc]
  · intro net url log hr e h hs hc
    rw [LeakDetect.checkGit_config_unread net url log hr _ e h hs hc
      (by simp [LeakDetect.configStep])]
  · intro net url log
    obtain ⟨b, h⟩ := LeakDetect.checkEnv_cases net url log
    exact ⟨b, by rw [h]⟩
  · intro net url log e h
    rw [LeakDetect.checkEnv_error net url log e h]
  · intro net url log e h
    rw [LeakDetect.checkEnv_unread net url log _ e h (by simp [LeakDetect.envStep])]
  · intro net sendMessage url options
    exact LeakDetect.checkSite_value net sendMessage url options
  · intro net sendMessage url functions hnet
    exact (LeakDetect.checkSite_all_failed net sendMessage url functions hnet).1
  · intro U net now st baseUrl targetKey
    rcases GitEnvDetector.checkGitConfig_cases U net now st baseUrl targetKey with h | h
    · exact ⟨_, h⟩
    · exact ⟨_, h⟩
  · intro U net now st baseUrl targetKey h
    exact ⟨_, GitEnvDetector.checkGitConfig_failed U net now st baseUrl targetKey h,
      rfl, rfl, rfl⟩
  · intro net now st baseUrl targetKey
    rcases GitEnvDetector.checkEnvFile_cases net now st baseUrl targetKey with h | h
    · exact ⟨_, h⟩
    · exact ⟨_, h⟩
  · intro net now st baseUrl targetKey h
    exact ⟨_, GitEnvDetector.checkEnvFile_failed net now st baseUrl targetKey h, rfl, rfl, rfl⟩

/-- C8, counterexample: on a network where the request of `/.git/HEAD` fails
and `/.git/config` would answer 200 with `[core]`, a text that the config rule
accepts, `checkGit` returns `false` after the HEAD request alone. -/
theorem fallback_head_failure_counterexample :
    LeakDetect.settled (headDownNet "https://example.test".toList
      (LeakDetect.headRequest "https://example.test".toList)) = .error .network ∧
    LeakDetect.settled (headDownNet "https://example.test".toList
      (LeakDetect.configRequest "https://example.test".toList)) =
        .ok ⟨200, .ok "[core]".toList⟩ ∧
    LeakDetect.configStep ⟨200, .ok "[core]".toList⟩ = .ok true ∧
    LeakDetect.checkGit (headDownNet "https://example.test".toList)
      "https://example.test".toList [] =
        (.ok false, [LeakDetect.headRequest "https://example.test".toList]) :=
  ⟨rfl, rfl, congrArg Except.ok (by decide : LeakDetect.configTextVerdict _ = true),
    LeakDetect.checkGit_head_error _ _ [] .network rfl⟩

/-- C8, amended: when the request of `/.git/HEAD` completes and does not match
(a status other than 200, or a body that fails the HEAD rule), the request of
`/.git/config` is issued and the result of `checkGit` is the verdict of the
config rule on the config response, `false` when the config request fails;
when the HEAD request fails or is aborted, or its body cannot be read,
`checkGit` returns `false` and `/.git/config` is not requested. -/
theorem fallback_after_head_response (net : Network) (url : Str) (log : List Request) :
    (∀ hr, LeakDetect.settled (net (LeakDetect.headRequest url)) = .ok hr →
      LeakDetect.headStep hr = .ok false →
      (LeakDetect.checkGit net url log).2 =
          log ++ [LeakDetect.headRequest url, LeakDetect.configRequest url] ∧
        (∀ status body, LeakDetect.settled (net (LeakDetect.configRequest url)) =
            .ok ⟨status, .ok body⟩ →
          (LeakDetect.checkGit net url log).1 = LeakDetect.configStep ⟨status, .ok body⟩) ∧
        (∀ e, LeakDetect.settled (net (LeakDetect.configRequest url)) = .error e →
          (LeakDetect.checkGit net url log).1 = .ok false)) ∧
    (∀ e, LeakDetect.settled (net (LeakDetect.headRequest url)) = .error e →
      LeakDetect.checkGit net url log = (.ok false, log ++ [LeakDetect.headRequest url])) ∧
    (∀ e, LeakDetect.settled (net (LeakDetect.headRequest url)) = .ok ⟨200, .error e⟩ →
      LeakDetect.checkGit net url log = (.ok false, log ++ [LeakDetect.headRequest url])) := by
  refine ⟨?_, ?_, ?_⟩
  · intro hr hh hs
    refine ⟨?_, ?_, ?_⟩
    · cases hc : LeakDetect.settled (net (LeakDetect.configRequest url)) with
      | error e => rw [LeakDetect.checkGit_config_error net url log hr e hh hs hc]
      | ok cr =>
        cases hcs : LeakDetect.configStep cr with
        | error e => rw [LeakDetect.checkGit_config_unread net url log hr cr e hh hs hc hcs]
        | ok b => rw [LeakDetect.checkGit_config net url log hr cr b hh hs hc hcs]
    · intro status body hc
      cases hcs : LeakDetect.configStep ⟨status, .ok body⟩ with
      | error e =>
        exfalso
        unfold LeakDetect.configStep at hcs
        split at hcs <;> simp at hcs
      | ok b => rw [LeakDetect.checkGit_config net url log hr _ b hh hs hc hcs]
    · intro e hc
      rw [LeakDetect.checkGit_config_error net url log hr e hh hs hc]
  · intro e hh
    exact LeakDetect.checkGit_head_error net url log e hh
  · intro e hh
    exact LeakDetect.checkGit_head_unread net url log _ e hh (by simp [LeakDetect.headStep])

/-- C8, witness: `/.git/HEAD` answers 404 and `/.git/config` answers 404. -/
theorem fallback_after_head_response_witness :
    (LeakDetect.checkGit (constNet 404 []) "https://example.test".toList []).2 =
      [] ++ [LeakDetect.headRequest "https://example.test".toList,
        LeakDetect.configRequest "https://example.test".toList] :=
  ((fallback_after_head_response (constNet 404 []) "https://example.test".toList []).1
    ⟨404, .ok []⟩ rfl rfl).1

/-- C9: when `/.git/HEAD` answers 200 with a body that satisfies the HEAD rule,
`checkGit` returns `true` after the one request of `url + '/.git/HEAD'`; in
every case `checkGit` issues the HEAD request and then at most the request of
`url + '/.git/config'`, and `checkEnv` issues exactly the request of
`url + '/.env'`. -/
theorem head_short_circuit_and_request_bound :
    (∀ net url log body,
      LeakDetect.settled (net (LeakDetect.headRequest url)) = .ok ⟨200, .ok body⟩ →
      LeakDetect.headTextMatches body = true →
      LeakDetect.checkGit net url log = (.ok true, log ++ [LeakDetect.headRequest url])) ∧
    (∀ net url log,
      (LeakDetect.checkGit net url log).2 = log ++ [LeakDetect.headRequest url] ∨
      (LeakDetect.checkGit net url log).2 =
        log ++ [LeakDetect.headRequest url, LeakDetect.configRequest url]) ∧
    (∀ net url log, (LeakDetect.checkEnv net url log).2 = log ++ [LeakDetect.envRequest url]) ∧
    (∀ url, (LeakDetect.headRequest url).url = url ++ "/.git/HEAD".toList ∧
      (LeakDetect.configRequest url).url = url ++ "/.git/config".toList ∧
      (LeakDetect.envRequest url).url = url ++ "/.env".toList) := by
  refine ⟨?_, ?_, ?_, ?_⟩
  · intro net url log body hh hm
    exact LeakDetect.checkGit_head_match net url log _ hh (by simp [LeakDetect.headStep, hm])
  · intro net url log
    obtain ⟨b, h | h⟩ := LeakDetect.checkGit_cases net url log
    · exact Or.inl (by rw [h])
    · exact Or.inr (by rw [h])
  · intro net url log
    obtain ⟨b, h⟩ := LeakDetect.checkEnv_cases net url log
    rw [h]
  · intro url
    exact ⟨rfl, rfl, rfl⟩

/-- C10, counterexample: the request that `checkEnvFile` issues, and likewise
the one of `checkGitConfig`, carries no redirect mode, so it is not issued with
the mode `manual`. -/
theorem no_follow_counterexample :
    (∃ st', GitEnvDetector.checkEnvFile (constNet 301 []) 0 GitEnvDetector.initialState
        "https://example.test".toList "https://example.test".toList = .ok st' ∧
      ∃ r ∈ st'.requests, r.init.redirect ≠ some "manual".toList) ∧
    (∃ st', GitEnvDetector.checkGitConfig GitEnvDetector.plainTable (constNet 301 []) 0
        GitEnvDetector.initialState "https://example.test".toList
        "https://example.test".toList = .ok st' ∧
      ∃ r ∈ st'.requests, r.init.redirect ≠ some "manual".toList) :=
  ⟨⟨_, rfl, GitEnvDetector.envRequest "https://example.test".toList,
      List.mem_singleton.mpr rfl, by
      simp [GitEnvDetector.envRequest, GitEnvDetector.probeInit]⟩,
    ⟨_, rfl, GitEnvDetector.gitRequest "https://example.test".toList,
      List.mem_singleton.mpr rfl, by
      simp [GitEnvDetector.gitRequest, GitEnvDetector.probeInit]⟩⟩

/-- C10, amended: every request that the probes of LeakDetect issue - the HEAD
and config requests of `checkGit` and the request of `checkEnv` - has the
redirect mode `manual`, and a response with a status other than 200, such as a
3xx answer, is classified as no match; the requests of `checkGitConfig` and
`checkEnvFile` in git-env-detector carry no redirect mode. -/
theorem no_follow_in_leakdetect :
    (∀ net url, ∀ r ∈ (LeakDetect.checkGit net url []).2,
      r.init.redirect = some "manual".toList) ∧
    (∀ net url, ∀ r ∈ (LeakDetect.checkEnv net url []).2,
      r.init.redirect = some "manual".toList) ∧
    (∀ resp : Response, resp.status ≠ 200 →
      LeakDetect.headStep resp = .ok false ∧ LeakDetect.configStep resp = .ok false ∧
        LeakDetect.envStep resp = .ok false) ∧
    (∀ U net now st baseUrl targetKey,
      ∃ st', GitEnvDetector.checkGitConfig U net now st baseUrl targetKey = .ok st' ∧
        st'.requests = st.requests ++ [GitEnvDetector.gitRequest baseUrl] ∧
        (GitEnvDetector.gitRequest baseUrl).init.redirect = none) ∧
    (∀ net now st baseUrl targetKey,
      ∃ st', GitEnvDetector.checkEnvFile net now st baseUrl targetKey = .ok st' ∧
        st'.requests = st.requests ++ [GitEnvDetector.envRequest baseUrl] ∧
        (GitEnvDetector.envRequest baseUrl).init.redirect = none) := by
  refine ⟨?_, ?_, ?_, ?_, ?_⟩
  · intro net url r hr
    have hreq : r = LeakDetect.headRequest url ∨ r = LeakDetect.configRequest url := by
      obtain ⟨b, h | h⟩ := LeakDetect.checkGit_cases net url []
      · rw [h] at hr
        simp only [List.nil_append, List.mem_singleton] at hr
        exact Or.inl hr
      · rw [h] at hr
        simp only [List.nil_append, List.mem_cons, List.mem_singleton, List.not_mem_nil,
          or_false] at hr
        exact hr
    rcases hreq with rfl | rfl <;> rfl
  · intro net url r hr
    obtain ⟨b, h⟩ := LeakDetect.checkEnv_cases net url []
    rw [h] at hr
    simp only [List.nil_append, List.mem_singleton] at hr
    rw [hr]
    rfl
  · intro resp hs
    simp [LeakDetect.headStep, LeakDetect.configStep, LeakDetect.envStep, hs]
  · intro U net now st baseUrl targetKey
    rcases GitEnvDetector.checkGitConfig_cases U net now st baseUrl targetKey with h | h
    · exact ⟨_, h, rfl, rfl⟩
    · exact ⟨_, h, GitEnvDetector.addFoundItem_requests _ _ _ _ _ _, rfl⟩
  · intro net now st baseUrl targetKey
    rcases GitEnvDetector.checkEnvFile_cases net now st baseUrl targetKey with h | h
    · exact ⟨_, h, rfl, rfl⟩
    · exact ⟨_, h, GitEnvDetector.addFoundItem_requests _ _ _ _ _ _, rfl⟩

/-! ## The stored list of LeakDetect -/

namespace DotGit

theorem sliceLast_length {α : Type} (n : Nat) (hn : 0 < n) (l : List α) (h : n < l.length) :
    (sliceLast n l).length = n := by
  unfold sliceLast
  rw [if_neg (by omega), List.length_drop]
  omega

theorem limitSites_suffix (m : Nat) (l : List Site) : limitSites m l <:+ l := by
  unfold limitSites sliceLast
  split
  · split
    · exact List.suffix_refl l
    · exact List.drop_suffix _ l
  · exact List.suffix_refl l

theorem UniquePairs.of_suffix {l₁ l₂ : List Site} (h : UniquePairs l₂) (hs : l₁ <:+ l₂) :
    UniquePairs l₁ :=
  List.Pairwise.sublist hs.sublist h

theorem loopBody_unique (origin : Str) (now : Nat) (ls : LoopState) (type : Str)
    (h : UniquePairs ls.withExposedGit) : UniquePairs (loopBody origin now ls type).withExposedGit := by
  unfold loopBody
  split
  · rename_i hnew
    simp only [Bool.not_eq_true', List.any_eq_false, Bool.and_eq_true, decide_eq_true_eq,
      not_and] at hnew
    unfold UniquePairs
    rw [List.pairwise_append]
    refine ⟨h, List.pairwise_singleton _ _, ?_⟩
    intro a ha b hb
    simp only [List.mem_singleton] at hb
    subst hb
    intro hab
    exact hnew a ha hab.1 hab.2
  · exact h

theorem loop_unique (origin : Str) (clock : Nat → Nat) (types : List Str) (i : Nat)
    (ls : LoopState) (h : UniquePairs ls.withExposedGit) :
    UniquePairs (loop origin clock i types ls).withExposedGit := by
  induction types generalizing i ls with
  | nil => exact h
  | cons type rest ih => exact ih (i + 1) _ (loopBody_unique origin (clock i) ls type h)

/-- The flag `updatedList` tells whether `newFindings` is non-empty. -/
theorem loop_updated (origin : Str) (clock : Nat → Nat) (types : List Str) (i : Nat)
    (ls : LoopState) (h : ls.updatedList = true ↔ ls.newFindings ≠ []) :
    (loop origin clock i types ls).updatedList = true ↔
      (loop origin clock i types ls).newFindings ≠ [] := by
  induction types generalizing i ls with
  | nil => exact h
  | cons type rest ih =>
    apply ih
    unfold loopBody
    split
    · simp
    · exact h

/-- An entry that is there is not added again: the loop leaves the entries of
the pair as they are and does not report the pair as new. -/
theorem loop_keeps (origin : Str) (clock : Nat → Nat) (type0 : Str) (types : List Str)
    (i : Nat) (ls : LoopState)
    (hex : ∃ item ∈ ls.withExposedGit, item.url = origin ∧ item.type = type0) :
    (loop origin clock i types ls).withExposedGit.filter
        (fun item => item.url = origin && item.type = type0) =
      ls.withExposedGit.filter (fun item => item.url = origin && item.type = type0) ∧
    (⟨type0, origin⟩ ∈ (loop origin clock i types ls).newFindings →
      ⟨type0, origin⟩ ∈ ls.newFindings) := by
  induction types generalizing i ls with
  | nil => exact ⟨rfl, id⟩
  | cons type rest ih =>
    have hbody : (loopBody origin (clock i) ls type).withExposedGit.filter
          (fun item => item.url = origin && item.type = type0) =
        ls.withExposedGit.filter (fun item => item.url = origin && item.type = type0) ∧
        (⟨type0, origin⟩ ∈ (loopBody origin (clock i) ls type).newFindings →
          ⟨type0, origin⟩ ∈ ls.newFindings) ∧
        ∃ item ∈ (loopBody origin (clock i) ls type).withExposedGit,
          item.url = origin ∧ item.type = type0 := by
      unfold loopBody
      split
      · rename_i hnew
        simp only [Bool.not_eq_true', List.any_eq_false, Bool.and_eq_true, decide_eq_true_eq,
          not_and] at hnew
        obtain ⟨item, hmem, hu, ht⟩ := hex
        have hne : type ≠ type0 := by
          intro heq
          exact hnew item hmem hu (ht.trans heq.symm)
        refine ⟨?_, ?_, item, List.mem_append_left _ hmem, hu, ht⟩
        · simp [List.filter_append, List.filter_cons, hne]
        · intro hin
          simp only [List.mem_append, List.mem_singleton, NewFinding.mk.injEq] at hin
          rcases hin with hin | hin
          · exact hin
          · exact absurd hin.1.symm hne
      · exact ⟨rfl, id, hex⟩
    obtain ⟨h1, h2, h3⟩ := hbody
    obtain ⟨k1, k2⟩ := ih (i + 1) _ h3
    exact ⟨k1.trans h1, fun hin => h2 (k2 hin)⟩

theorem setBadge_sites (io : Chrome) (st : State) :
    (setBadge io st).withExposedGit = st.withExposedGit := by
  unfold setBadge
  split <;> rfl

theorem setBadge_notifications (io : Chrome) (st : State) :
    (setBadge io st).notifications = st.notifications := by
  unfold setBadge
  split <;> rfl

theorem setBadge_options (io : Chrome) (st : State) :
    (setBadge io st).currentOptions = st.currentOptions := by
  unfold setBadge
  split <;> rfl

theorem showNotification_sites (st : State) (title message : Str) :
    (showNotification st title message).withExposedGit = st.withExposedGit := by
  unfold showNotification
  split <;> rfl

/-- The stored list after `handleFindings`: the old one, or the limited list of
the loop. -/
theorem handleFindings_sites (io : Chrome) (clock : Nat → Nat) (st : State) (data : Data) :
    (handleFindings io clock st data).1.withExposedGit = st.withExposedGit ∨
      (handleFindings io clock st data).1.withExposedGit =
        limitSites st.currentOptions.max_sites (loopResult clock st data).withExposedGit := by
  unfold handleFindings loopResult
  simp only
  split
  · exact Or.inl rfl
  · split
    · split
      · exact Or.inl rfl
      · split
        · right
          rw [showNotification_sites, setBadge_sites]
        · right
          rw [setBadge_sites]
    · exact Or.inl rfl

end DotGit

theorem oldest_first_eviction_aux (m : Nat) (hm : 0 < m) (L : List DotGit.Site) :
    (L.length ≤ m → DotGit.limitSites m L = L) ∧
    (m < L.length →
      DotGit.limitSites m L = L.drop (L.length - m) ∧ (DotGit.limitSites m L).length = m) := by
  constructor
  · intro h
    unfold DotGit.limitSites
    rw [if_neg (by omega)]
  · intro h
    have h1 : DotGit.limitSites m L = L.drop (L.length - m) := by
      unfold DotGit.limitSites DotGit.sliceLast
      rw [if_pos h, if_neg (by omega)]
    refine ⟨h1, ?_⟩
    rw [h1, List.length_drop]
    omega

/-- C13: if the stored list holds at most one entry per pair of url and type, it
still does after `handleFindings` for any data and after `deleteSite` for any
url; a type whose entry for the origin is already stored is not appended again
by the loop and not reported as new. -/
theorem store_uniqueness (io : DotGit.Chrome) (clock : Nat → Nat) (st : DotGit.State)
    (data : DotGit.Data) (url : Str) (h : DotGit.UniquePairs st.withExposedGit) :
    DotGit.UniquePairs (DotGit.handleFindings io clock st data).1.withExposedGit ∧
    DotGit.UniquePairs (DotGit.deleteSite io st url).1.withExposedGit ∧
    ∀ type, (∃ item ∈ st.withExposedGit, item.url = data.url ∧ item.type = type) →
      (DotGit.loopResult clock st data).withExposedGit.filter
          (fun item => item.url = data.url && item.type = type) =
        st.withExposedGit.filter (fun item => item.url = data.url && item.type = type) ∧
      (⟨type, data.url⟩ : DotGit.NewFinding) ∉ (DotGit.loopResult clock st data).newFindings := by
  refine ⟨?_, ?_, ?_⟩
  · rcases DotGit.handleFindings_sites io clock st data with hs | hs
    · rw [hs]
      exact h
    · rw [hs]
      exact DotGit.UniquePairs.of_suffix
        (DotGit.loop_unique data.url clock data.types 0 _ h) (DotGit.limitSites_suffix _ _)
  · unfold DotGit.deleteSite
    split
    · exact h
    · split
      · exact h
      · rw [DotGit.setBadge_sites]
        exact List.Pairwise.sublist (List.filter_sublist _) h
  · intro type hex
    obtain ⟨h1, h2⟩ := DotGit.loop_keeps data.url clock type data.types 0
      ⟨st.withExposedGit, false, []⟩ hex
    exact ⟨h1, fun hin => by simpa using h2 hin⟩

/-- C13, witness: the origin already has its git entry, and the data names git
twice and env once. -/
theorem store_uniqueness_witness :
    DotGit.UniquePairs (DotGit.handleFindings ⟨true, true, true⟩ (fun _ => 7)
      (DotGit.sampleState [⟨"git".toList, "https://a.test".toList, [], 1⟩] 100)
      ⟨"https://a.test".toList, ["git".toList, "env".toList, "git".toList]⟩).1.withExposedGit ∧
    DotGit.UniquePairs (DotGit.deleteSite ⟨true, true, true⟩
      (DotGit.sampleState [⟨"git".toList, "https://a.test".toList, [], 1⟩] 100)
      "https://a.test".toList).1.withExposedGit ∧
    ∀ type, (∃ item ∈ (DotGit.sampleState [⟨"git".toList, "https://a.test".toList, [], 1⟩]
        100).withExposedGit,
        item.url = (⟨"https://a.test".toList, ["git".toList, "env".toList, "git".toList]⟩ :
          DotGit.Data).url ∧ item.type = type) →
      (DotGit.loopResult (fun _ => 7)
          (DotGit.sampleState [⟨"git".toList, "https://a.test".toList, [], 1⟩] 100)
          ⟨"https://a.test".toList, ["git".toList, "env".toList, "git".toList]⟩
        ).withExposedGit.filter
          (fun item => item.url = (⟨"https://a.test".toList,
            ["git".toList, "env".toList, "git".toList]⟩ : DotGit.Data).url && item.type = type) =
        (DotGit.sampleState [⟨"git".toList, "https://a.test".toList, [], 1⟩]
          100).withExposedGit.filter
          (fun item => item.url = (⟨"https://a.test".toList,
            ["git".toList, "env".toList, "git".toList]⟩ : DotGit.Data).url && item.type = type) ∧
      (⟨type, (⟨"https://a.test".toList, ["git".toList, "env".toList, "git".toList]⟩ :
          DotGit.Data).url⟩ : DotGit.NewFinding) ∉
        (DotGit.loopResult (fun _ => 7)
          (DotGit.sampleState [⟨"git".toList, "https://a.test".toList, [], 1⟩] 100)
          ⟨"https://a.test".toList, ["git".toList, "env".toList, "git".toList]⟩).newFindings :=
  store_uniqueness ⟨true, true, true⟩ (fun _ => 7)
    (DotGit.sampleState [⟨"git".toList, "https://a.test".toList, [], 1⟩] 100)
    ⟨"https://a.test".toList, ["git".toList, "env".toList, "git".toList]⟩
    "https://a.test".toList (List.pairwise_singleton _ _)

/-- C15: for a maximum `m > 0` the eviction step leaves a list of at most `m`
entries unchanged and otherwise yields exactly its last `m` entries, in their
order and unmodified. -/
theorem oldest_first_eviction (m : Nat) (hm : 0 < m) (L : List DotGit.Site) :
    (L.length ≤ m → DotGit.limitSites m L = L) ∧
    (m < L.length →
      DotGit.limitSites m L = L.drop (L.length - m) ∧ (DotGit.limitSites m L).length = m) ∧
    DotGit.limitSites m L <:+ L := by
  refine ⟨?_, ?_, DotGit.limitSites_suffix m L⟩
  · intro h
    unfold DotGit.limitSites
    rw [if_neg (by omega)]
  · intro h
    have h1 : DotGit.limitSites m L = L.drop (L.length - m) := by
      unfold DotGit.limitSites DotGit.sliceLast
      rw [if_pos h, if_neg (by omega)]
    refine ⟨h1, ?_⟩
    rw [h1, List.length_drop]
    omega

/-- C15, witness: with the maximum 3 the list of the findings 1 to 5 becomes
the list of the findings 3, 4 and 5. -/
theorem oldest_first_eviction_witness :
    DotGit.limitSites 3 [DotGit.sampleSite 1, DotGit.sampleSite 2, DotGit.sampleSite 3,
        DotGit.sampleSite 4, DotGit.sampleSite 5] =
      [DotGit.sampleSite 3, DotGit.sampleSite 4, DotGit.sampleSite 5] :=
  ((oldest_first_eviction 3 (by decide) [DotGit.sampleSite 1, DotGit.sampleSite 2,
    DotGit.sampleSite 3, DotGit.sampleSite 4, DotGit.sampleSite 5]).2.1 (by decide)).1

/-- C16, counterexample: the stored list has five entries, the maximum is 3, and
the data names no type; `handleFindings` completes with status `true` and the
stored list still has five entries. -/
theorem capacity_bound_counterexample :
    (DotGit.handleFindings ⟨true, true, true⟩ (fun _ => 9)
      (DotGit.sampleState [DotGit.sampleSite 1, DotGit.sampleSite 2, DotGit.sampleSite 3,
        DotGit.sampleSite 4, DotGit.sampleSite 5] 3) ⟨"https://f1".toList, []⟩).2 = true ∧
    (DotGit.handleFindings ⟨true, true, true⟩ (fun _ => 9)
      (DotGit.sampleState [DotGit.sampleSite 1, DotGit.sampleSite 2, DotGit.sampleSite 3,
        DotGit.sampleSite 4, DotGit.sampleSite 5] 3)
      ⟨"https://f1".toList, []⟩).1.withExposedGit.length = 5 :=
  ⟨rfl, rfl⟩

/-- C16, amended: for a maximum `m > 0`, after a `handleFindings` that completed
successfully and appended at least one new finding the stored list holds at
most `m` entries; a call that appended none leaves the state, and so the stored
list, as it was. -/
theorem capacity_bound_after_append (io : DotGit.Chrome) (clock : Nat → Nat)
    (st : DotGit.State) (data : DotGit.Data) (hm : 0 < st.currentOptions.max_sites)
    (hok : (DotGit.handleFindings io clock st data).2 = true) :
    ((DotGit.loopResult clock st data).newFindings ≠ [] →
      (DotGit.handleFindings io clock st data).1.withExposedGit.length ≤
        st.currentOptions.max_sites) ∧
    ((DotGit.loopResult clock st data).newFindings = [] →
      (DotGit.handleFindings io clock st data).1 = st) := by
  have hup := DotGit.loop_updated data.url clock data.types 0 ⟨st.withExposedGit, false, []⟩
    (by simp)
  have hlim : (DotGit.limitSites st.currentOptions.max_sites
      (DotGit.loopResult clock st data).withExposedGit).length ≤ st.currentOptions.max_sites := by
    by_cases hl : (DotGit.loopResult clock st data).withExposedGit.length ≤
        st.currentOptions.max_sites
    · rw [(oldest_first_eviction_aux _ hm _).1 hl]
      exact hl
    · rw [((oldest_first_eviction_aux _ hm _).2 (by omega)).2]
  unfold DotGit.loopResult at hlim ⊢
  unfold DotGit.handleFindings at hok ⊢
  simp only at hok ⊢
  constructor
  · intro hne
    have hu := hup.mpr hne
    by_cases hg : io.getOk = true
    · by_cases hset : io.setOk = true
      · simp only [hg, hset, hu, Bool.not_true, Bool.false_eq_true, if_false, if_true]
        split
        · rw [DotGit.showNotification_sites, DotGit.setBadge_sites]
          exact hlim
        · rw [DotGit.setBadge_sites]
          exact hlim
      · simp [hg, hset, hu] at hok
    · simp [hg] at hok
  · intro hnil
    have hu : (DotGit.loop data.url clock 0 data.types ⟨st.withExposedGit, false, []⟩).updatedList
        = false := by
      rw [← Bool.not_eq_true, hup]
      simpa using hnil
    by_cases hg : io.getOk = true
    · simp [hg, hu]
    · simp [hg]

/-- C16, witness: five stored entries, the maximum 3, and one new finding. -/
theorem capacity_bound_after_append_witness :
    (DotGit.handleFindings ⟨true, true, true⟩ (fun _ => 9)
      (DotGit.sampleState [DotGit.sampleSite 1, DotGit.sampleSite 2, DotGit.sampleSite 3,
        DotGit.sampleSite 4, DotGit.sampleSite 5] 3)
      ⟨"https://new.test".toList, ["git".toList]⟩).1.withExposedGit.length ≤ 3 :=
  (capacity_bound_after_append ⟨true, true, true⟩ (fun _ => 9)
    (DotGit.sampleState [DotGit.sampleSite 1, DotGit.sampleSite 2, DotGit.sampleSite 3,
      DotGit.sampleSite 4, DotGit.sampleSite 5] 3)
    ⟨"https://new.test".toList, ["git".toList]⟩ (by decide) rfl).1 (by decide)

/-- C19: `handleFindings` creates at most one notification, and it creates one
exactly when the call appended at least one new finding to the stored list (the
storage was read and written, and the loop found something new) and
`notification.new_git` is enabled. -/
theorem one_notification_per_handleFindings (io : DotGit.Chrome) (clock : Nat → Nat)
    (st : DotGit.State) (data : DotGit.Data) :
    ((DotGit.handleFindings io clock st data).1.notifications = st.notifications ∨
      ∃ n, (DotGit.handleFindings io clock st data).1.notifications =
        st.notifications ++ [n]) ∧
    ((DotGit.handleFindings io clock st data).1.notifications.length =
        st.notifications.length + 1 ↔
      io.getOk = true ∧ io.setOk = true ∧ (DotGit.loopResult clock st data).newFindings ≠ [] ∧
        st.currentOptions.notification.new_git = true) := by
  have hup := DotGit.loop_updated data.url clock data.types 0 ⟨st.withExposedGit, false, []⟩
    (by simp)
  unfold DotGit.loopResult
  unfold DotGit.handleFindings
  simp only
  generalize DotGit.loop data.url clock 0 data.types ⟨st.withExposedGit, false, []⟩ = ls at hup ⊢
  rcases ls with ⟨l, u, nf⟩
  simp only at hup ⊢
  cases u with
  | false =>
    have hnf : nf = [] := by
      by_contra hne
      exact absurd (hup.mpr hne) (by simp)
    subst hnf
    cases hg : io.getOk <;> simp
  | true =>
    have hnf : nf ≠ [] := hup.mp rfl
    have hlen : nf.length > 0 := List.length_pos.mpr hnf
    cases hg : io.getOk <;> cases hs : io.setOk <;> cases hb : io.badgeOk <;>
      cases hn : st.currentOptions.notification.new_git <;>
      simp [DotGit.showNotification, DotGit.setBadge, hb, hn, hnf, hlen]

/-! ## The gate of git-env-detector -/

namespace GitEnvDetector

@[simp] theorem addFoundItem_checkedTargets (now : Nat) (st : State) (target type url : Str)
    (secrets : Option Str) :
    (addFoundItem now st target type url secrets).checkedTargets = st.checkedTargets := by
  unfold addFoundItem updateBadge showNotification
  simp only
  split <;> rfl

@[simp] theorem addFoundItem_gitCheckEnabled (now : Nat) (st : State) (target type url : Str)
    (secrets : Option Str) :
    (addFoundItem now st target type url secrets).gitCheckEnabled = st.gitCheckEnabled := by
  unfold addFoundItem updateBadge showNotification
  simp only
  split <;> rfl

@[simp] theorem addFoundItem_envCheckEnabled (now : Nat) (st : State) (target type url : Str)
    (secrets : Option Str) :
    (addFoundItem now st target type url secrets).envCheckEnabled = st.envCheckEnabled := by
  unfold addFoundItem updateBadge showNotification
  simp only
  split <;> rfl

theorem addFoundItem_notifications (now : Nat) (st : State) (target type url : Str)
    (secrets : Option Str) :
    (addFoundItem now st target type url secrets).notifications.length =
      st.notifications.length + 1 := by
  unfold addFoundItem updateBadge showNotification
  simp only
  split <;> simp

theorem gitDone_cases (U : CaseTable) (now : Nat) (st : State) (targetKey gitUrl : Str)
    (outcome : Except Fault Response) :
    gitDone U now st targetKey gitUrl outcome = st ∨
      gitDone U now st targetKey gitUrl outcome =
        addFoundItem now st targetKey "git".toList gitUrl none := by
  unfold gitDone
  cases outcome with
  | error e => exact Or.inl rfl
  | ok response =>
    simp only
    cases gitConfigFinds U response with
    | error e => exact Or.inl rfl
    | ok b =>
      cases b with
      | true => exact Or.inr rfl
      | false => exact Or.inl rfl

theorem envDone_cases (now : Nat) (st : State) (targetKey envUrl : Str)
    (outcome : Except Fault Response) :
    envDone now st targetKey envUrl outcome = st ∨
      envDone now st targetKey envUrl outcome =
        addFoundItem now st targetKey "env".toList envUrl none := by
  unfold envDone
  cases outcome with
  | error e => exact Or.inl rfl
  | ok response =>
    simp only
    cases envFileFinds response with
    | error e => exact Or.inl rfl
    | ok b =>
      cases b with
      | true => exact Or.inr rfl
      | false => exact Or.inl rfl

/-- The function `checkGitConfig` is its fetch followed by the rest of the probe. -/
theorem checkGitConfig_eq (U : CaseTable) (net : Network) (now : Nat) (st : State)
    (baseUrl targetKey : Str) :
    checkGitConfig U net now st baseUrl targetKey =
      .ok (gitDone U now (issue st (gitRequest baseUrl)) targetKey
        (baseUrl ++ "/.git/config".toList) (net (gitRequest baseUrl)).outcome) := by
  unfold checkGitConfig fetch gitDone issue gitRequest
  simp only
  cases (net ⟨baseUrl ++ "/.git/config".toList, probeInit baseUrl⟩).outcome with
  | error e => rfl
  | ok response =>
    simp only
    cases gitConfigFinds U response with
    | error e => rfl
    | ok b => cases b <;> rfl

/-- The function `checkEnvFile` is its fetch followed by the rest of the probe. -/
theorem checkEnvFile_eq (net : Network) (now : Nat) (st : State) (baseUrl targetKey : Str) :
    checkEnvFile net now st baseUrl targetKey =
      .ok (envDone now (issue st (envRequest baseUrl)) targetKey
        (baseUrl ++ "/.env".toList) (net (envRequest baseUrl)).outcome) := by
  unfold checkEnvFile fetch envDone issue envRequest
  simp only
  cases (net ⟨baseUrl ++ "/.env".toList, probeInit baseUrl⟩).outcome with
  | error e => rfl
  | ok response =>
    simp only
    cases envFileFinds response with
    | error e => rfl
    | ok b => cases b <;> rfl

/-- A call of `checkTarget` whose gate is closed changes nothing. -/
theorem checkTarget_closed (U : CaseTable) (net : Network) (now1 now2 : Nat) (st : State)
    (url : Url)
    (h : st.checkedTargets.contains (targetKeyOf url) = true ∨
      isAlreadyFound st (targetKeyOf url) = true) :
    checkTarget U net now1 now2 st url = .ok st := by
  unfold targetKeyOf at h
  unfold checkTarget
  simp only
  rw [if_pos (by simpa using h)]

/-- A call of `checkTarget` whose gate is open records the key and runs the
enabled probes. -/
theorem checkTarget_open (U : CaseTable) (net : Network) (now1 now2 : Nat) (st : State)
    (url : Url) (h1 : st.checkedTargets.contains (targetKeyOf url) = false)
    (h2 : isAlreadyFound st (targetKeyOf url) = false) :
    checkTarget U net now1 now2 st url =
      .ok (afterGate U net now1 now2
        { st with checkedTargets := setAdd st.checkedTargets (targetKeyOf url) }
        (targetKeyOf url)) := by
  unfold targetKeyOf at h1 h2
  unfold checkTarget afterGate targetKeyOf getTargetKey
  unfold getTargetKey at h1 h2
  simp only [h1, h2, Bool.or_self, Bool.false_eq_true, if_false]
  cases hg : st.gitCheckEnabled
  · simp only [Bool.false_eq_true, if_false]
    split
    · rw [checkEnvFile_eq]
    · rfl
  · simp only [if_true, checkGitConfig_eq]
    split
    · rw [checkEnvFile_eq]
    · rfl

end GitEnvDetector

namespace GitEnvDetector

theorem gitDone_shape (U : CaseTable) (now : Nat) (st : State) (k url : Str)
    (outcome : Except Fault Response) :
    ∃ G : List FoundItem, (G = [] ∨ G = [⟨now, k, "git".toList, url, none, now⟩]) ∧
      (gitDone U now st k url outcome).foundItems = st.foundItems ++ G ∧
      (gitDone U now st k url outcome).notifications.length =
        st.notifications.length + G.length ∧
      (gitDone U now st k url outcome).checkedTargets = st.checkedTargets ∧
      (gitDone U now st k url outcome).requests = st.requests ∧
      (gitDone U now st k url outcome).gitCheckEnabled = st.gitCheckEnabled ∧
      (gitDone U now st k url outcome).envCheckEnabled = st.envCheckEnabled := by
  rcases gitDone_cases U now st k url outcome with h | h
  · rw [h]
    exact ⟨[], Or.inl rfl, by simp, rfl, rfl, rfl, rfl, rfl⟩
  · rw [h]
    exact ⟨_, Or.inr rfl, addFoundItem_foundItems _ _ _ _ _ _,
      addFoundItem_notifications _ _ _ _ _ _, addFoundItem_checkedTargets _ _ _ _ _ _,
      addFoundItem_requests _ _ _ _ _ _, addFoundItem_gitCheckEnabled _ _ _ _ _ _,
      addFoundItem_envCheckEnabled _ _ _ _ _ _⟩

theorem envDone_shape (now : Nat) (st : State) (k url : Str)
    (outcome : Except Fault Response) :
    ∃ E : List FoundItem, (E = [] ∨ E = [⟨now, k, "env".toList, url, none, now⟩]) ∧
      (envDone now st k url outcome).foundItems = st.foundItems ++ E ∧
      (envDone now st k url outcome).notifications.length =
        st.notifications.length + E.length ∧
      (envDone now st k url outcome).checkedTargets = st.checkedTargets ∧
      (envDone now st k url outcome).requests = st.requests ∧
      (envDone now st k url outcome).gitCheckEnabled = st.gitCheckEnabled ∧
      (envDone now st k url outcome).envCheckEnabled = st.envCheckEnabled := by
  rcases envDone_cases now st k url outcome with h | h
  · rw [h]
    exact ⟨[], Or.inl rfl, by simp, rfl, rfl, rfl, rfl, rfl⟩
  · rw [h]
    exact ⟨_, Or.inr rfl, addFoundItem_foundItems _ _ _ _ _ _,
      addFoundItem_notifications _ _ _ _ _ _, addFoundItem_checkedTargets _ _ _ _ _ _,
      addFoundItem_requests _ _ _ _ _ _, addFoundItem_gitCheckEnabled _ _ _ _ _ _,
      addFoundItem_envCheckEnabled _ _ _ _ _ _⟩

/-- The findings, notifications and requests of the probes that follow the gate. -/
theorem afterGate_shape (U : CaseTable) (net : Network) (now1 now2 : Nat) (st1 : State)
    (k : Str) :
    ∃ G E : List FoundItem,
      (G = [] ∨ (st1.gitCheckEnabled = true ∧
        G = [⟨now1, k, "git".toList, k ++ "/.git/config".toList, none, now1⟩])) ∧
      (E = [] ∨ (st1.envCheckEnabled = true ∧
        E = [⟨now2, k, "env".toList, k ++ "/.env".toList, none, now2⟩])) ∧
      (afterGate U net now1 now2 st1 k).foundItems = st1.foundItems ++ G ++ E ∧
      (afterGate U net now1 now2 st1 k).notifications.length =
        st1.notifications.length + G.length + E.length ∧
      (afterGate U net now1 now2 st1 k).checkedTargets = st1.checkedTargets ∧
      (afterGate U net now1 now2 st1 k).requests =
        st1.requests ++ (if st1.gitCheckEnabled then [gitRequest k] else []) ++
          (if st1.envCheckEnabled then [envRequest k] else []) := by
  have key : ∃ (st2 : State) (G : List FoundItem),
      (G = [] ∨ (st1.gitCheckEnabled = true ∧
        G = [⟨now1, k, "git".toList, k ++ "/.git/config".toList, none, now1⟩])) ∧
      (if st1.gitCheckEnabled then
          gitDone U now1 (issue st1 (gitRequest k)) k (k ++ "/.git/config".toList)
            (net (gitRequest k)).outcome
        else st1) = st2 ∧
      st2.foundItems = st1.foundItems ++ G ∧
      st2.notifications.length = st1.notifications.length + G.length ∧
      st2.checkedTargets = st1.checkedTargets ∧
      st2.requests = st1.requests ++ (if st1.gitCheckEnabled then [gitRequest k] else []) ∧
      st2.envCheckEnabled = st1.envCheckEnabled := by
    by_cases hg : st1.gitCheckEnabled = true
    · obtain ⟨G, hG, f1, n1, c1, r1, -, e1⟩ := gitDone_shape U now1 (issue st1 (gitRequest k)) k
        (k ++ "/.git/config".toList) (net (gitRequest k)).outcome
      refine ⟨_, G, ?_, by rw [if_pos hg], f1, n1, c1, ?_, e1⟩
      · rcases hG with h | h
        · exact Or.inl h
        · exact Or.inr ⟨hg, h⟩
      · rw [r1, if_pos hg]
        rfl
    · refine ⟨st1, [], Or.inl rfl, by rw [if_neg hg], by simp, rfl, rfl, ?_, rfl⟩
      rw [if_neg hg, List.append_nil]
  obtain ⟨st2, G, hG, hst2, f1, n1, c1, r1, e1⟩ := key
  unfold afterGate
  simp only
  rw [hst2]
  by_cases he : st1.envCheckEnabled = true
  · rw [if_pos (by rw [e1]; exact he)]
    obtain ⟨E, hE, f2, n2, c2, r2, -, -⟩ := envDone_shape now2 (issue st2 (envRequest k)) k
      (k ++ "/.env".toList) (net (envRequest k)).outcome
    refine ⟨G, E, hG, ?_, ?_, ?_, ?_, ?_⟩
    · rcases hE with h | h
      · exact Or.inl h
      · exact Or.inr ⟨he, h⟩
    · rw [f2]
      show st2.foundItems ++ E = _
      rw [f1]
    · rw [n2]
      show st2.notifications.length + E.length = _
      rw [n1]
    · rw [c2]
      exact c1
    · rw [r2, if_pos he]
      show st2.requests ++ [envRequest k] = _
      rw [r1]
  · rw [if_neg (by rw [e1]; exact he)]
    refine ⟨G, [], hG, Or.inl rfl, ?_, ?_, c1, ?_⟩
    · rw [f1, List.append_nil]
    · rw [n1]
      rfl
    · rw [r1, if_neg he, List.append_nil]

end GitEnvDetector

namespace GitEnvDetector

theorem contains_iff (s : List Str) (k : Str) : s.contains k = true ↔ k ∈ s := by
  simp

theorem isAlreadyFound_iff (st : State) (k : Str) :
    isAlreadyFound st k = true ↔ ∃ item ∈ st.foundItems, item.target = k := by
  simp [isAlreadyFound]

/-- The gate of `checkTarget` is closed or open. -/
theorem gate_cases (st : State) (k : Str) :
    (st.checkedTargets.contains k = true ∨ isAlreadyFound st k = true) ∨
      (st.checkedTargets.contains k = false ∧ isAlreadyFound st k = false) := by
  cases st.checkedTargets.contains k <;> cases isAlreadyFound st k <;> simp

end GitEnvDetector

/-- C11, counterexample: nothing is recorded as probed, the only stored finding
of the target is of the kind git, and the env check is enabled; `checkTarget`
for the target issues no request and leaves the state as it is. -/
theorem ledger_gate_counterexample :
    GitEnvDetector.gitFoundState.checkedTargets = [] ∧
    GitEnvDetector.gitFoundState.envCheckEnabled = true ∧
    (∀ item ∈ GitEnvDetector.gitFoundState.foundItems,
      ¬ (item.target = GitEnvDetector.sampleKey ∧ item.type = "env".toList)) ∧
    GitEnvDetector.targetKeyOf GitEnvDetector.sampleUrl = GitEnvDetector.sampleKey ∧
    ∀ U net now1 now2, GitEnvDetector.checkTarget U net now1 now2
      GitEnvDetector.gitFoundState GitEnvDetector.sampleUrl = .ok GitEnvDetector.gitFoundState :=
  ⟨rfl, rfl, by decide, by decide, fun U net now1 now2 =>
    GitEnvDetector.checkTarget_closed U net now1 now2 _ _ (Or.inr (by decide))⟩

/-- C11, amended: the gate of `checkTarget` is per target, not per kind. When
the target is in `checkedTargets` or a finding of any kind is stored for it,
`checkTarget` probes nothing and leaves the state as it is; otherwise it issues
the request of every enabled kind, git before env. -/
theorem ledger_gate_per_target (U : GitEnvDetector.CaseTable) (net : Network)
    (now1 now2 : Nat) (st : GitEnvDetector.State) (url : GitEnvDetector.Url) :
    ((GitEnvDetector.targetKeyOf url ∈ st.checkedTargets ∨
        ∃ item ∈ st.foundItems, item.target = GitEnvDetector.targetKeyOf url) →
      GitEnvDetector.checkTarget U net now1 now2 st url = .ok st) ∧
    ((GitEnvDetector.targetKeyOf url ∉ st.checkedTargets ∧
        ∀ item ∈ st.foundItems, item.target ≠ GitEnvDetector.targetKeyOf url) →
      ∃ st', GitEnvDetector.checkTarget U net now1 now2 st url = .ok st' ∧
        st'.requests = st.requests ++
          (if st.gitCheckEnabled then
            [GitEnvDetector.gitRequest (GitEnvDetector.targetKeyOf url)] else []) ++
          (if st.envCheckEnabled then
            [GitEnvDetector.envRequest (GitEnvDetector.targetKeyOf url)] else [])) := by
  constructor
  · intro h
    apply GitEnvDetector.checkTarget_closed
    rcases h with h | h
    · exact Or.inl ((GitEnvDetector.contains_iff _ _).mpr h)
    · exact Or.inr ((GitEnvDetector.isAlreadyFound_iff _ _).mpr h)
  · rintro ⟨h1, h2⟩
    have c1 : st.checkedTargets.contains (GitEnvDetector.targetKeyOf url) = false := by
      rw [← Bool.not_eq_true, GitEnvDetector.contains_iff]
      exact h1
    have c2 : GitEnvDetector.isAlreadyFound st (GitEnvDetector.targetKeyOf url) = false := by
      rw [← Bool.not_eq_true, GitEnvDetector.isAlreadyFound_iff]
      rintro ⟨item, hi, ht⟩
      exact h2 item hi ht
    obtain ⟨G, E, -, -, -, -, -, hr⟩ := GitEnvDetector.afterGate_shape U net now1 now2
      { st with checkedTargets :=
        GitEnvDetector.setAdd st.checkedTargets (GitEnvDetector.targetKeyOf url) }
      (GitEnvDetector.targetKeyOf url)
    exact ⟨_, GitEnvDetector.checkTarget_open U net now1 now2 st url c1 c2, hr⟩

/-- C17, counterexample: the finding with the id 1 is stored for the target of
the examples, which is in `checkedTargets`; after a `removeItem` request with
this id and another value in its `target` field the target is still in
`checkedTargets`. -/
theorem forget_on_delete_counterexample :
    (∃ F ∈ GitEnvDetector.probedState.foundItems,
      F.id = 1 ∧ F.target = GitEnvDetector.sampleKey) ∧
    GitEnvDetector.sampleKey ∈ (GitEnvDetector.onMessage GitEnvDetector.probedState
      (.removeItem 1 "https://other.test".toList)).checkedTargets := by
  decide

/-- C17, amended: after a `removeItem` request no finding with the requested id
is stored, the other findings are kept, and the value of the request's `target`
field is no longer in `checkedTargets`; every other key, the removed finding's
own target included when it differs from that value, stays as it was. -/
theorem forget_request_target (st : GitEnvDetector.State) (itemId : Nat) (target : Str) :
    (GitEnvDetector.onMessage st (.removeItem itemId target)).foundItems =
      st.foundItems.filter (fun item => item.id ≠ itemId) ∧
    (∀ item ∈ (GitEnvDetector.onMessage st (.removeItem itemId target)).foundItems,
      item.id ≠ itemId) ∧
    target ∉ (GitEnvDetector.onMessage st (.removeItem itemId target)).checkedTargets ∧
    ∀ k, k ≠ target →
      (k ∈ (GitEnvDetector.onMessage st (.removeItem itemId target)).checkedTargets ↔
        k ∈ st.checkedTargets) := by
  have hf : (GitEnvDetector.onMessage st (.removeItem itemId target)).foundItems =
      st.foundItems.filter (fun item => item.id ≠ itemId) := by
    unfold GitEnvDetector.onMessage GitEnvDetector.updateBadge
    simp only
    split <;> rfl
  have hc : (GitEnvDetector.onMessage st (.removeItem itemId target)).checkedTargets =
      GitEnvDetector.setDelete st.checkedTargets target := by
    unfold GitEnvDetector.onMessage GitEnvDetector.updateBadge
    simp only
    split <;> rfl
  refine ⟨hf, ?_, ?_, ?_⟩
  · intro item hi
    rw [hf] at hi
    simpa using (List.mem_filter.mp hi).2
  · rw [hc]
    simp [GitEnvDetector.setDelete]
  · intro k hk
    rw [hc]
    simp [GitEnvDetector.setDelete, hk]

/-- C20, counterexample: `/.git/config` and `/.env` both answer 200 with a text
that their rules accept; the one call of `checkTarget` creates two
notifications. -/
theorem one_notification_counterexample :
    ∃ st', GitEnvDetector.checkTarget GitEnvDetector.plainTable
        (constNet 200 GitEnvDetector.bothBody) 1 2 GitEnvDetector.initialState
        GitEnvDetector.sampleUrl = .ok st' ∧
      st'.notifications.length = 2 :=
  ⟨_, GitEnvDetector.checkTarget_open _ _ 1 2 _ _ (by decide) (by decide), by decide⟩

namespace GitEnvDetector

theorem addFoundItem_notification (now : Nat) (st : State) (k type path : Str)
    (h : type = "git".toList ∧ path = "/.git/config".toList ∨
      type = "env".toList ∧ path = "/.env".toList) :
    (addFoundItem now st k type (k ++ path) none).notifications =
      st.notifications ++ [notificationOf k type] := by
  have hb : ∀ s : State, (updateBadge s).notifications = s.notifications := by
    intro s
    unfold updateBadge
    split <;> rfl
  unfold addFoundItem
  simp only [hb]
  rcases h with ⟨rfl, rfl⟩ | ⟨rfl, rfl⟩
  · simp [showNotification, notificationOf]
  · simp [showNotification, notificationOf]

theorem match_found {α : Type} (r : Except Fault Bool) (a b : α) :
    (match r with
      | .ok true => a
      | _ => b) =
      if (match r with
        | .ok true => true
        | _ => false) = true then a else b := by
  rcases r with e | b
  · rfl
  · cases b <;> rfl

theorem gitDone_exact (U : CaseTable) (now : Nat) (st : State) (k url : Str)
    (outcome : Except Fault Response) :
    gitDone U now st k url outcome =
      if gitAnswerMatches U outcome then addFoundItem now st k "git".toList url none
      else st := by
  unfold gitDone gitAnswerMatches
  cases outcome with
  | error e => rfl
  | ok response => exact match_found (gitConfigFinds U response) _ _

theorem envDone_exact (now : Nat) (st : State) (k url : Str)
    (outcome : Except Fault Response) :
    envDone now st k url outcome =
      if envAnswerMatches outcome then addFoundItem now st k "env".toList url none
      else st := by
  unfold envDone envAnswerMatches
  cases outcome with
  | error e => rfl
  | ok response => exact match_found (envFileFinds response) _ _

/-- The notifications and the types of the findings of the probes that follow
the gate. -/
theorem afterGate_exact (U : CaseTable) (net : Network) (now1 now2 : Nat) (st1 : State)
    (k : Str) :
    (afterGate U net now1 now2 st1 k).notifications = st1.notifications ++
      ((if st1.gitCheckEnabled && gitAnswerMatches U (net (gitRequest k)).outcome
          then ["git".toList] else []) ++
        (if st1.envCheckEnabled && envAnswerMatches (net (envRequest k)).outcome
          then ["env".toList] else [])).map (notificationOf k) ∧
    (afterGate U net now1 now2 st1 k).foundItems.map (fun item => item.type) =
      st1.foundItems.map (fun item => item.type) ++
        ((if st1.gitCheckEnabled && gitAnswerMatches U (net (gitRequest k)).outcome
          then ["git".toList] else []) ++
        (if st1.envCheckEnabled && envAnswerMatches (net (envRequest k)).outcome
          then ["env".toList] else [])) := by
  unfold afterGate
  simp only [gitDone_exact, envDone_exact]
  have hg : ∀ s : State, (addFoundItem now1 s k "git".toList
      (k ++ "/.git/config".toList) none).notifications =
        s.notifications ++ [notificationOf k "git".toList] := fun s =>
    addFoundItem_notification now1 s k "git".toList "/.git/config".toList (Or.inl ⟨rfl, rfl⟩)
  have he : ∀ s : State, (addFoundItem now2 s k "env".toList
      (k ++ "/.env".toList) none).notifications =
        s.notifications ++ [notificationOf k "env".toList] := fun s =>
    addFoundItem_notification now2 s k "env".toList "/.env".toList (Or.inr ⟨rfl, rfl⟩)
  cases hge : st1.gitCheckEnabled <;> cases hee : st1.envCheckEnabled <;>
    cases hgm : gitAnswerMatches U (net (gitRequest k)).outcome <;>
    cases hem : envAnswerMatches (net (envRequest k)).outcome <;>
    simp only [hge, hee, hg, he, addFoundItem_envCheckEnabled, addFoundItem_foundItems, issue,
      Bool.and_self, Bool.and_true, Bool.and_false, Bool.false_eq_true, if_true, if_false,
      List.map_nil, List.map_cons, List.map_append, List.append_nil, List.nil_append,
      List.append_assoc, List.singleton_append, and_self]

end GitEnvDetector

/-- C20, amended: a call of `checkTarget` creates one notification for each
finding that it adds, and it adds one finding for each probe that runs and
matches: none when the gate is closed or no probe matches, one when one probe
matches, two when the git probe and the env probe both match. -/
theorem one_notification_per_finding (U : GitEnvDetector.CaseTable) (net : Network)
    (now1 now2 : Nat) (st : GitEnvDetector.State) (url : GitEnvDetector.Url) :
    ∃ st', GitEnvDetector.checkTarget U net now1 now2 st url = .ok st' ∧
      st'.notifications = st.notifications ++
        (GitEnvDetector.matchedTypes U net st (GitEnvDetector.targetKeyOf url)).map
          (GitEnvDetector.notificationOf (GitEnvDetector.targetKeyOf url)) ∧
      st'.foundItems.map (fun item => item.type) =
        st.foundItems.map (fun item => item.type) ++
          GitEnvDetector.matchedTypes U net st (GitEnvDetector.targetKeyOf url) ∧
      st'.notifications.length = st.notifications.length +
        (GitEnvDetector.matchedTypes U net st (GitEnvDetector.targetKeyOf url)).length ∧
      st'.foundItems.length = st.foundItems.length +
        (GitEnvDetector.matchedTypes U net st (GitEnvDetector.targetKeyOf url)).length ∧
      (GitEnvDetector.matchedTypes U net st (GitEnvDetector.targetKeyOf url)).length ≤ 2 ∧
      (GitEnvDetector.gateOpen st (GitEnvDetector.targetKeyOf url) = true →
        st.gitCheckEnabled = true → st.envCheckEnabled = true →
        GitEnvDetector.gitAnswerMatches U
          (net (GitEnvDetector.gitRequest (GitEnvDetector.targetKeyOf url))).outcome = true →
        GitEnvDetector.envAnswerMatches
          (net (GitEnvDetector.envRequest (GitEnvDetector.targetKeyOf url))).outcome = true →
        st'.notifications.length = st.notifications.length + 2) := by
  have key : ∃ st', GitEnvDetector.checkTarget U net now1 now2 st url = .ok st' ∧
      st'.notifications = st.notifications ++
        (GitEnvDetector.matchedTypes U net st (GitEnvDetector.targetKeyOf url)).map
          (GitEnvDetector.notificationOf (GitEnvDetector.targetKeyOf url)) ∧
      st'.foundItems.map (fun item => item.type) =
        st.foundItems.map (fun item => item.type) ++
          GitEnvDetector.matchedTypes U net st (GitEnvDetector.targetKeyOf url) := by
    rcases GitEnvDetector.gate_cases st (GitEnvDetector.targetKeyOf url) with h | ⟨c1, c2⟩
    · have hclosed : GitEnvDetector.gateOpen st (GitEnvDetector.targetKeyOf url) = false := by
        unfold GitEnvDetector.gateOpen
        rcases h with h | h <;> rw [h] <;> simp
      refine ⟨st, GitEnvDetector.checkTarget_closed U net now1 now2 st url h, ?_, ?_⟩ <;>
        simp [GitEnvDetector.matchedTypes, hclosed]
    · have hopen : GitEnvDetector.gateOpen st (GitEnvDetector.targetKeyOf url) = true := by
        unfold GitEnvDetector.gateOpen
        rw [c1, c2]
        rfl
      obtain ⟨hn, hf⟩ := GitEnvDetector.afterGate_exact U net now1 now2
        { st with checkedTargets :=
          GitEnvDetector.setAdd st.checkedTargets (GitEnvDetector.targetKeyOf url) }
        (GitEnvDetector.targetKeyOf url)
      refine ⟨_, GitEnvDetector.checkTarget_open U net now1 now2 st url c1 c2, ?_, ?_⟩
      · rw [hn]
        simp only [GitEnvDetector.matchedTypes, hopen, if_true]
      · rw [hf]
        simp only [GitEnvDetector.matchedTypes, hopen, if_true]
  obtain ⟨st', hrun, hn, hf⟩ := key
  have hlen : (GitEnvDetector.matchedTypes U net st (GitEnvDetector.targetKeyOf url)).length
      ≤ 2 := by
    unfold GitEnvDetector.matchedTypes
    split
    · rw [List.length_append]
      have h1 : ∀ (c : Bool) (t : Str), (if c then [t] else []).length ≤ 1 := by
        intro c t
        cases c <;> simp
      have := h1 (st.gitCheckEnabled && GitEnvDetector.gitAnswerMatches U
        (net (GitEnvDetector.gitRequest (GitEnvDetector.targetKeyOf url))).outcome)
        "git".toList
      have := h1 (st.envCheckEnabled && GitEnvDetector.envAnswerMatches
        (net (GitEnvDetector.envRequest (GitEnvDetector.targetKeyOf url))).outcome)
        "env".toList
      omega
    · simp
  have hflen : st'.foundItems.length = st.foundItems.length +
      (GitEnvDetector.matchedTypes U net st (GitEnvDetector.targetKeyOf url)).length := by
    have := congrArg List.length hf
    simpa using this
  refine ⟨st', hrun, hn, hf, ?_, hflen, hlen, ?_⟩
  · rw [hn]
    simp
  · intro ho hg he hgm hem
    rw [hn]
    simp [GitEnvDetector.matchedTypes, ho, hg, he, hgm, hem]

/-! ## Runs of git-env-detector -/

namespace GitEnvDetector

theorem mem_setAdd_of_mem (s : List Str) (k k' : Str) (h : k ∈ s) : k ∈ setAdd s k' := by
  unfold setAdd
  split
  · exact h
  · exact List.mem_append_left _ h

theorem mem_setAdd_self (s : List Str) (k : Str) : k ∈ setAdd s k := by
  unfold setAdd
  split
  · rename_i h
    exact (contains_iff s k).mp h
  · simp

/-- A call of `checkTarget` for a key of `checkedTargets` changes nothing. -/
theorem gate_noop (sys : System) (url : Url) (h : targetKeyOf url ∈ sys.st.checkedTargets) :
    gate sys url = sys := by
  unfold targetKeyOf at h
  unfold gate
  simp only [(contains_iff _ _).mpr h, Bool.true_or, if_true]

/-- The synchronous part of `checkTarget` on an open gate: the key is recorded
and the first request is issued. -/
theorem gate_open (sys : System) (url : Url)
    (h1 : targetKeyOf url ∉ sys.st.checkedTargets)
    (h2 : ∀ item ∈ sys.st.foundItems, item.target ≠ targetKeyOf url) :
    (gate sys url).st.checkedTargets = setAdd sys.st.checkedTargets (targetKeyOf url) ∧
    (gate sys url).st.requests = sys.st.requests ++
      (if sys.st.gitCheckEnabled then [gitRequest (targetKeyOf url)]
        else if sys.st.envCheckEnabled then [envRequest (targetKeyOf url)] else []) := by
  have c1 : sys.st.checkedTargets.contains (targetKeyOf url) = false := by
    rw [← Bool.not_eq_true, contains_iff]
    exact h1
  have c2 : isAlreadyFound sys.st (targetKeyOf url) = false := by
    rw [← Bool.not_eq_true, isAlreadyFound_iff]
    rintro ⟨item, hi, ht⟩
    exact h2 item hi ht
  unfold targetKeyOf at c1 c2 ⊢
  unfold gate
  simp only [c1, c2, Bool.or_self, Bool.false_eq_true, if_false]
  cases hg : sys.st.gitCheckEnabled <;> cases he : sys.st.envCheckEnabled <;>
    simp [issue, getTargetKey]

theorem gate_checked (sys : System) (url : Url) :
    (gate sys url).st.checkedTargets = sys.st.checkedTargets ∨
      (gate sys url).st.checkedTargets = setAdd sys.st.checkedTargets (targetKeyOf url) := by
  unfold gate targetKeyOf
  simp only
  split
  · exact Or.inl rfl
  · right
    split
    · rfl
    · split <;> rfl

theorem settle_checked (U : CaseTable) (sys : System) (i : Nat)
    (outcome : Except Fault Response) (now : Nat) :
    (settle U sys i outcome now).st.checkedTargets = sys.st.checkedTargets := by
  unfold settle
  cases sys.pending[i]? with
  | none => rfl
  | some p =>
    simp only
    cases p.kind with
    | git =>
      obtain ⟨G, -, -, -, c, -, -, -⟩ := gitDone_shape U now sys.st p.targetKey
        (p.baseUrl ++ "/.git/config".toList) outcome
      simp only
      split
      · exact c
      · exact c
    | env =>
      obtain ⟨E, -, -, -, c, -, -, -⟩ := envDone_shape now sys.st p.targetKey
        (p.baseUrl ++ "/.env".toList) outcome
      exact c

theorem onMessage_removeItem_checked (st : State) (itemId : Nat) (target : Str) :
    (onMessage st (.removeItem itemId target)).checkedTargets =
      setDelete st.checkedTargets target := by
  unfold onMessage updateBadge
  simp only
  split <;> rfl

/-- A key of `checkedTargets` stays there through every event other than
`clearAll` and a `removeItem` that names it. -/
theorem step_keeps (U : CaseTable) (k : Str) (sys : System) (e : Event)
    (h : k ∈ sys.st.checkedTargets) (he : Keeps k e) :
    k ∈ (step U sys e).st.checkedTargets := by
  cases e with
  | navigate url =>
    rcases gate_checked sys url with hc | hc
    · show k ∈ (gate sys url).st.checkedTargets
      rw [hc]
      exact h
    · show k ∈ (gate sys url).st.checkedTargets
      rw [hc]
      exact mem_setAdd_of_mem _ _ _ h
  | settle i outcome now =>
    show k ∈ (settle U sys i outcome now).st.checkedTargets
    rw [settle_checked]
    exact h
  | message m =>
    cases m with
    | getFoundItems => exact h
    | removeItem itemId target =>
      show k ∈ (onMessage sys.st (.removeItem itemId target)).checkedTargets
      rw [onMessage_removeItem_checked]
      have hne : target ≠ k := he
      simp only [setDelete, List.mem_filter, decide_eq_true_eq]
      exact ⟨h, fun hk => hne hk.symm⟩
    | clearAll => exact absurd he (by simp [Keeps])

theorem run_keeps (U : CaseTable) (k : Str) (events : List Event) (sys : System)
    (h : k ∈ sys.st.checkedTargets) (he : ∀ e ∈ events, Keeps k e) :
    k ∈ (run U sys events).st.checkedTargets := by
  induction events generalizing sys with
  | nil => exact h
  | cons e rest ih =>
    show k ∈ (run U (step U sys e) rest).st.checkedTargets
    exact ih _ (step_keeps U k sys e h (he e (List.mem_cons_self e rest)))
      (fun e' he' => he e' (List.mem_cons_of_mem e he'))

/-- The probes after the gate add at most one finding of each type for the key. -/
theorem afterGate_countFor (U : CaseTable) (net : Network) (now1 now2 : Nat) (st1 : State)
    (k type : Str) :
    countFor (afterGate U net now1 now2 st1 k) k type ≤ countFor st1 k type + 1 := by
  obtain ⟨G, E, hG, hE, hf, -, -, -⟩ := afterGate_shape U net now1 now2 st1 k
  unfold countFor
  rw [hf]
  simp only [List.filter_append, List.length_append]
  have hne : "git".toList ≠ "env".toList := by decide
  rcases hG with rfl | ⟨-, rfl⟩ <;> rcases hE with rfl | ⟨-, rfl⟩
  · simp
  · simp only [List.filter_nil, List.length_nil, Nat.add_zero]
    have := List.length_filter_le
      (fun item : FoundItem => decide (item.target = k) && decide (item.type = type))
      [⟨now2, k, "env".toList, k ++ "/.env".toList, none, now2⟩]
    simp only [List.length_singleton] at this
    omega
  · simp only [List.filter_nil, List.length_nil, Nat.add_zero]
    have := List.length_filter_le
      (fun item : FoundItem => decide (item.target = k) && decide (item.type = type))
      [⟨now1, k, "git".toList, k ++ "/.git/config".toList, none, now1⟩]
    simp only [List.length_singleton] at this
    omega
  · have hg1 := List.length_filter_le
      (fun item : FoundItem => decide (item.target = k) && decide (item.type = type))
      [⟨now1, k, "git".toList, k ++ "/.git/config".toList, none, now1⟩]
    have he1 := List.length_filter_le
      (fun item : FoundItem => decide (item.target = k) && decide (item.type = type))
      [⟨now2, k, "env".toList, k ++ "/.env".toList, none, now2⟩]
    simp only [List.length_singleton] at hg1 he1
    by_cases ht : type = ['g', 'i', 't']
    · have he0 : (List.filter
          (fun item : FoundItem => decide (item.target = k) && decide (item.type = type))
          [⟨now2, k, "env".toList, k ++ "/.env".toList, none, now2⟩]).length = 0 := by
        subst ht
        simp [List.filter_cons]
      omega
    · have hg0 : (List.filter
          (fun item : FoundItem => decide (item.target = k) && decide (item.type = type))
          [⟨now1, k, "git".toList, k ++ "/.git/config".toList, none, now1⟩]).length = 0 := by
        simp [List.filter_cons, ht, Ne.symm ht]
      omega

end GitEnvDetector

/-- C12: `checkTarget` records the key in `checkedTargets` in the synchronous
step in which the gate is passed and the first request is issued; once a key is
in `checkedTargets`, a later call of `checkTarget` for it - while probes are in
flight or after they are done - issues no request and adds no finding, as long
as no `clearAll` and no `removeItem` naming the key comes in between; and two
calls in sequence add at most one finding per key and kind. -/
theorem claim_before_execute (U : GitEnvDetector.CaseTable) :
    (∀ sys url, GitEnvDetector.targetKeyOf url ∉ sys.st.checkedTargets →
      (∀ item ∈ sys.st.foundItems, item.target ≠ GitEnvDetector.targetKeyOf url) →
      GitEnvDetector.targetKeyOf url ∈ (GitEnvDetector.gate sys url).st.checkedTargets ∧
      (GitEnvDetector.gate sys url).st.requests = sys.st.requests ++
        (if sys.st.gitCheckEnabled then
          [GitEnvDetector.gitRequest (GitEnvDetector.targetKeyOf url)]
        else if sys.st.envCheckEnabled then
          [GitEnvDetector.envRequest (GitEnvDetector.targetKeyOf url)] else [])) ∧
    (∀ sys url events, GitEnvDetector.targetKeyOf url ∈ sys.st.checkedTargets →
      (∀ e ∈ events, GitEnvDetector.Keeps (GitEnvDetector.targetKeyOf url) e) →
      GitEnvDetector.step U (GitEnvDetector.run U sys events) (.navigate url) =
        GitEnvDetector.run U sys events) ∧
    (∀ net now1 now2 now3 now4 st url,
      ∃ st1, GitEnvDetector.checkTarget U net now1 now2 st url = .ok st1 ∧
        GitEnvDetector.checkTarget U net now3 now4 st1 url = .ok st1 ∧
        ∀ type, GitEnvDetector.countFor st1 (GitEnvDetector.targetKeyOf url) type ≤
          GitEnvDetector.countFor st (GitEnvDetector.targetKeyOf url) type + 1) := by
  refine ⟨?_, ?_, ?_⟩
  · intro sys url h1 h2
    obtain ⟨hc, hr⟩ := GitEnvDetector.gate_open sys url h1 h2
    exact ⟨by rw [hc]; exact GitEnvDetector.mem_setAdd_self _ _, hr⟩
  · intro sys url events h he
    exact GitEnvDetector.gate_noop _ url (GitEnvDetector.run_keeps U _ events sys h he)
  · intro net now1 now2 now3 now4 st url
    rcases GitEnvDetector.gate_cases st (GitEnvDetector.targetKeyOf url) with h | ⟨c1, c2⟩
    · exact ⟨st, GitEnvDetector.checkTarget_closed U net now1 now2 st url h,
        GitEnvDetector.checkTarget_closed U net now3 now4 st url h, fun type => by omega⟩
    · obtain ⟨G, E, -, -, -, -, hc, -⟩ := GitEnvDetector.afterGate_shape U net now1 now2
        { st with checkedTargets :=
          GitEnvDetector.setAdd st.checkedTargets (GitEnvDetector.targetKeyOf url) }
        (GitEnvDetector.targetKeyOf url)
      refine ⟨_, GitEnvDetector.checkTarget_open U net now1 now2 st url c1 c2, ?_, ?_⟩
      · apply GitEnvDetector.checkTarget_closed
        left
        rw [GitEnvDetector.contains_iff, hc]
        exact GitEnvDetector.mem_setAdd_self _ _
      · intro type
        exact GitEnvDetector.afterGate_countFor U net now1 now2 _ _ type

/-- C14: the run `raceEvents` - a navigation, `clearAll` while its git probe is
in flight, a second navigation to the same target, and both git probes
answered with a matching text - ends with two findings of the type git for the
one target: the stored list does not hold at most one finding per pair. -/
theorem duplicate_finding_race :
    (GitEnvDetector.run GitEnvDetector.plainTable GitEnvDetector.initialSystem
      GitEnvDetector.raceEvents).st.foundItems =
      [⟨1, GitEnvDetector.sampleKey, "git".toList,
          GitEnvDetector.sampleKey ++ "/.git/config".toList, none, 1⟩,
        ⟨2, GitEnvDetector.sampleKey, "git".toList,
          GitEnvDetector.sampleKey ++ "/.git/config".toList, none, 2⟩] ∧
    ¬ GitEnvDetector.UniqueFindings (GitEnvDetector.run GitEnvDetector.plainTable
      GitEnvDetector.initialSystem GitEnvDetector.raceEvents).st.foundItems := by
  have h : (GitEnvDetector.run GitEnvDetector.plainTable GitEnvDetector.initialSystem
      GitEnvDetector.raceEvents).st.foundItems =
      [⟨1, GitEnvDetector.sampleKey, "git".toList,
          GitEnvDetector.sampleKey ++ "/.git/config".toList, none, 1⟩,
        ⟨2, GitEnvDetector.sampleKey, "git".toList,
          GitEnvDetector.sampleKey ++ "/.git/config".toList, none, 2⟩] := by
    decide
  refine ⟨h, ?_⟩
  rw [h]
  unfold GitEnvDetector.UniqueFindings
  simp

/-! ## Forgetting and finding again -/

namespace GitEnvDetector

theorem gitDone_found (U : CaseTable) (now : Nat) (st : State) (k url body : Str)
    (outcome : Except Fault Response) (ho : outcome = .ok ⟨200, .ok body⟩)
    (hm : gitTextMatches U body = true) :
    gitDone U now st k url outcome = addFoundItem now st k "git".toList url none := by
  subst ho
  simp [gitDone, gitConfigFinds, hm]

theorem envDone_found (now : Nat) (st : State) (k url body : Str)
    (outcome : Except Fault Response) (ho : outcome = .ok ⟨200, .ok body⟩)
    (hm : envPattern.test body = true) :
    envDone now st k url outcome = addFoundItem now st k "env".toList url none := by
  subst ho
  simp [envDone, envFileFinds, hm]

theorem onMessage_removeItem_fields (st : State) (itemId : Nat) (target : Str) :
    (onMessage st (.removeItem itemId target)).foundItems =
      st.foundItems.filter (fun item => item.id ≠ itemId) ∧
    (onMessage st (.removeItem itemId target)).gitCheckEnabled = st.gitCheckEnabled ∧
    (onMessage st (.removeItem itemId target)).envCheckEnabled = st.envCheckEnabled := by
  unfold onMessage updateBadge
  simp only
  split <;> exact ⟨rfl, rfl, rfl⟩

theorem gate_probeUrls (sys : System) (url : Url) (h : ProbeUrls sys) :
    ProbeUrls (gate sys url) := by
  unfold gate
  simp only
  split
  · exact h
  · split
    · refine ⟨h.1, ?_⟩
      intro p hp
      rcases List.mem_append.mp hp with hp | hp
      · exact h.2 p hp
      · simp only [List.mem_singleton] at hp
        rw [hp]
        rfl
    · split
      · refine ⟨h.1, ?_⟩
        intro p hp
        rcases List.mem_append.mp hp with hp | hp
        · exact h.2 p hp
        · simp only [List.mem_singleton] at hp
          rw [hp]
          rfl
      · exact ⟨h.1, h.2⟩

theorem settle_probeUrls (U : CaseTable) (sys : System) (i : Nat)
    (outcome : Except Fault Response) (now : Nat) (h : ProbeUrls sys) :
    ProbeUrls (settle U sys i outcome now) := by
  unfold settle
  cases hp : sys.pending[i]? with
  | none => exact h
  | some p =>
    have hpm : p ∈ sys.pending := List.getElem?_mem hp
    have hb : p.baseUrl = p.targetKey := h.2 p hpm
    have hrest : ∀ q ∈ sys.pending.eraseIdx i, q.baseUrl = q.targetKey :=
      fun q hq => h.2 q ((List.eraseIdx_sublist _ _).subset hq)
    simp only
    cases p.kind with
    | git =>
      obtain ⟨G, hG, f, -, -, -, -, -⟩ := gitDone_shape U now sys.st p.targetKey
        (p.baseUrl ++ "/.git/config".toList) outcome
      have hitems : ∀ item ∈ (gitDone U now sys.st p.targetKey
          (p.baseUrl ++ "/.git/config".toList) outcome).foundItems, HasProbeUrl item := by
        intro item hi
        rw [f] at hi
        rcases List.mem_append.mp hi with hi | hi
        · exact h.1 item hi
        · rcases hG with hG | hG
          · rw [hG] at hi
            simp at hi
          · rw [hG] at hi
            simp only [List.mem_singleton] at hi
            rw [hi]
            exact Or.inl ⟨rfl, by rw [hb]⟩
      simp only
      split
      · refine ⟨hitems, ?_⟩
        intro q hq
        rcases List.mem_append.mp hq with hq | hq
        · exact hrest q hq
        · simp only [List.mem_singleton] at hq
          rw [hq]
          exact hb
      · exact ⟨hitems, hrest⟩
    | env =>
      obtain ⟨E, hE, f, -, -, -, -, -⟩ := envDone_shape now sys.st p.targetKey
        (p.baseUrl ++ "/.env".toList) outcome
      refine ⟨?_, hrest⟩
      intro item hi
      simp only at hi
      rw [f] at hi
      rcases List.mem_append.mp hi with hi | hi
      · exact h.1 item hi
      · rcases hE with hE | hE
        · rw [hE] at hi
          simp at hi
        · rw [hE] at hi
          simp only [List.mem_singleton] at hi
          rw [hi]
          exact Or.inr ⟨rfl, by rw [hb]⟩

theorem step_probeUrls (U : CaseTable) (sys : System) (e : Event) (h : ProbeUrls sys) :
    ProbeUrls (step U sys e) := by
  cases e with
  | navigate url => exact gate_probeUrls sys url h
  | settle i outcome now => exact settle_probeUrls U sys i outcome now h
  | message m =>
    cases m with
    | getFoundItems => exact h
    | removeItem itemId target =>
      refine ⟨?_, h.2⟩
      intro item hi
      have hf := (onMessage_removeItem_fields sys.st itemId target).1
      have hi' : item ∈ (onMessage sys.st (.removeItem itemId target)).foundItems := hi
      rw [hf] at hi'
      exact h.1 item (List.mem_filter.mp hi').1
    | clearAll =>
      refine ⟨?_, h.2⟩
      intro item hi
      have hf : (onMessage sys.st .clearAll).foundItems = [] := by
        unfold onMessage updateBadge
        simp only
        split <;> rfl
      have hi' : item ∈ (onMessage sys.st .clearAll).foundItems := hi
      rw [hf] at hi'
      simp at hi'

/-- In every state that a run reaches from the start, each stored finding has
the type and the address of its probe. -/
theorem reachable_probeUrls (U : CaseTable) (events : List Event) :
    ProbeUrls (run U initialSystem events) := by
  have gen : ∀ (events : List Event) (sys : System), ProbeUrls sys →
      ProbeUrls (run U sys events) := by
    intro events
    induction events with
    | nil => exact fun sys h => h
    | cons e rest ih => exact fun sys h => ih (step U sys e) (step_probeUrls U sys e h)
  exact gen events initialSystem ⟨by simp [initialSystem, initialState],
    by simp [initialSystem]⟩

end GitEnvDetector

/-- C18, counterexample: a call of `checkTarget` from the start, with both
probes answered by a matching text, stores a git finding with the id 1 and an
env finding for the target; after `removeItem` with the id 1 and the target, a
new call of `checkTarget` for the target, the exposure still there, leaves the
state as it is, and no git finding is stored. -/
theorem rediscover_counterexample :
    ∃ st1, GitEnvDetector.checkTarget GitEnvDetector.plainTable
        (constNet 200 GitEnvDetector.bothBody) 1 2 GitEnvDetector.initialState
        GitEnvDetector.sampleUrl = .ok st1 ∧
      (∃ F ∈ st1.foundItems, F.id = 1 ∧ F.target = GitEnvDetector.sampleKey ∧
        F.type = "git".toList) ∧
      GitEnvDetector.checkTarget GitEnvDetector.plainTable
        (constNet 200 GitEnvDetector.bothBody) 3 4
        (GitEnvDetector.onMessage st1 (.removeItem 1 GitEnvDetector.sampleKey))
        GitEnvDetector.sampleUrl =
          .ok (GitEnvDetector.onMessage st1 (.removeItem 1 GitEnvDetector.sampleKey)) ∧
      ∀ G ∈ (GitEnvDetector.onMessage st1
          (.removeItem 1 GitEnvDetector.sampleKey)).foundItems, G.type ≠ "git".toList :=
  ⟨_, GitEnvDetector.checkTarget_open _ _ 1 2 _ _ (by decide) (by decide), by decide,
    GitEnvDetector.checkTarget_closed _ _ 3 4 _ _ (Or.inr (by decide)), by decide⟩

/-- C18, amended: let `F` be a stored finding with the type and address of its
probe (as every finding of a reachable state has), and let no finding of another
id be stored for its target. After `removeItem` with the id and the target of
`F`, a call of `checkTarget` for an address of that target, with the kind of `F`
enabled and its probe answered 200 with a matching text, passes the gate and
stores a finding with the target, type and url of `F`. -/
theorem forget_then_rediscover (U : GitEnvDetector.CaseTable) (net : Network)
    (now1 now2 : Nat) (st : GitEnvDetector.State) (F : GitEnvDetector.FoundItem)
    (url : GitEnvDetector.Url) (_hF : F ∈ st.foundItems)
    (hurl : GitEnvDetector.targetKeyOf url = F.target)
    (hnone : ∀ item ∈ st.foundItems, item.target = F.target → item.id = F.id)
    (hK : (F.type = "git".toList ∧ F.url = F.target ++ "/.git/config".toList ∧
        st.gitCheckEnabled = true ∧
        ∃ body, (net (GitEnvDetector.gitRequest F.target)).outcome = .ok ⟨200, .ok body⟩ ∧
          GitEnvDetector.gitTextMatches U body = true) ∨
      (F.type = "env".toList ∧ F.url = F.target ++ "/.env".toList ∧
        st.envCheckEnabled = true ∧
        ∃ body, (net (GitEnvDetector.envRequest F.target)).outcome = .ok ⟨200, .ok body⟩ ∧
          GitEnvDetector.envPattern.test body = true)) :
    F ∉ (GitEnvDetector.onMessage st (.removeItem F.id F.target)).foundItems ∧
    ∃ st3, GitEnvDetector.checkTarget U net now1 now2
        (GitEnvDetector.onMessage st (.removeItem F.id F.target)) url = .ok st3 ∧
      ∃ G ∈ st3.foundItems, G.target = F.target ∧ G.type = F.type ∧ G.url = F.url := by
  obtain ⟨hf, hgit, henv⟩ := GitEnvDetector.onMessage_removeItem_fields st F.id F.target
  have hgone : F ∉ (GitEnvDetector.onMessage st (.removeItem F.id F.target)).foundItems := by
    rw [hf]
    intro hin
    simpa using (List.mem_filter.mp hin).2
  refine ⟨hgone, ?_⟩
  have c1 : (GitEnvDetector.onMessage st (.removeItem F.id F.target)).checkedTargets.contains
      (GitEnvDetector.targetKeyOf url) = false := by
    rw [← Bool.not_eq_true, GitEnvDetector.contains_iff, hurl,
      GitEnvDetector.onMessage_removeItem_checked]
    simp [GitEnvDetector.setDelete]
  have c2 : GitEnvDetector.isAlreadyFound
      (GitEnvDetector.onMessage st (.removeItem F.id F.target))
      (GitEnvDetector.targetKeyOf url) = false := by
    rw [← Bool.not_eq_true, GitEnvDetector.isAlreadyFound_iff, hurl, hf]
    rintro ⟨item, hi, ht⟩
    obtain ⟨hmem, hid⟩ := List.mem_filter.mp hi
    have := hnone item hmem ht
    simp [this] at hid
  refine ⟨_, GitEnvDetector.checkTarget_open U net now1 now2 _ url c1 c2, ?_⟩
  rw [hurl]
  generalize hst1 : ({ GitEnvDetector.onMessage st (.removeItem F.id F.target) with
    checkedTargets := GitEnvDetector.setAdd
      (GitEnvDetector.onMessage st (.removeItem F.id F.target)).checkedTargets F.target } :
    GitEnvDetector.State) = st1
  have g1 : st1.gitCheckEnabled = st.gitCheckEnabled := by
    rw [← hst1]
    exact hgit
  have e1 : st1.envCheckEnabled = st.envCheckEnabled := by
    rw [← hst1]
    exact henv
  unfold GitEnvDetector.afterGate
  simp only
  rcases hK with ⟨ht, hu, hen, body, ho, hm⟩ | ⟨ht, hu, hen, body, ho, hm⟩
  · rw [if_pos (show st1.gitCheckEnabled = true by rw [g1]; exact hen),
      GitEnvDetector.gitDone_found U now1 _ F.target _ body _ ho hm]
    have hin : (⟨now1, F.target, "git".toList, F.target ++ "/.git/config".toList, none, now1⟩ :
        GitEnvDetector.FoundItem) ∈
        (GitEnvDetector.addFoundItem now1 (GitEnvDetector.issue st1
          (GitEnvDetector.gitRequest F.target)) F.target "git".toList
          (F.target ++ "/.git/config".toList) none).foundItems := by
      rw [GitEnvDetector.addFoundItem_foundItems]
      simp
    refine ⟨⟨now1, F.target, "git".toList, F.target ++ "/.git/config".toList, none, now1⟩,
      ?_, rfl, ht.symm, hu.symm⟩
    split
    · obtain ⟨E, -, f, -, -, -, -, -⟩ := GitEnvDetector.envDone_shape now2
        (GitEnvDetector.issue (GitEnvDetector.addFoundItem now1 (GitEnvDetector.issue st1
          (GitEnvDetector.gitRequest F.target)) F.target "git".toList
          (F.target ++ "/.git/config".toList) none) (GitEnvDetector.envRequest F.target))
        F.target (F.target ++ "/.env".toList)
        (net (GitEnvDetector.envRequest F.target)).outcome
      rw [f]
      exact List.mem_append_left _ hin
    · exact hin
  · generalize hmid : (if st1.gitCheckEnabled = true then
        GitEnvDetector.gitDone U now1 (GitEnvDetector.issue st1
          (GitEnvDetector.gitRequest F.target)) F.target (F.target ++ "/.git/config".toList)
          (net (GitEnvDetector.gitRequest F.target)).outcome
      else st1) = mid
    have hmide : mid.envCheckEnabled = true := by
      rw [← hmid]
      split
      · obtain ⟨G, -, -, -, -, -, -, e⟩ := GitEnvDetector.gitDone_shape U now1
          (GitEnvDetector.issue st1 (GitEnvDetector.gitRequest F.target)) F.target
          (F.target ++ "/.git/config".toList)
          (net (GitEnvDetector.gitRequest F.target)).outcome
        rw [e]
        show st1.envCheckEnabled = true
        rw [e1]
        exact hen
      · rw [e1]
        exact hen
    rw [if_pos hmide, GitEnvDetector.envDone_found now2 _ F.target _ body _ ho hm,
      GitEnvDetector.addFoundItem_foundItems]
    exact ⟨⟨now2, F.target, "env".toList, F.target ++ "/.env".toList, none, now2⟩, by simp,
      rfl, ht.symm, hu.symm⟩

/-- C18, witness: the git finding of the examples, alone for its target, is
removed and found again. -/
theorem forget_then_rediscover_witness :
    (⟨1, GitEnvDetector.sampleKey, "git".toList,
        GitEnvDetector.sampleKey ++ "/.git/config".toList, none, 1⟩ :
      GitEnvDetector.FoundItem) ∉
      (GitEnvDetector.onMessage GitEnvDetector.probedState
        (.removeItem 1 GitEnvDetector.sampleKey)).foundItems ∧
    ∃ st3, GitEnvDetector.checkTarget GitEnvDetector.plainTable
        (constNet 200 GitEnvDetector.bothBody) 5 6
        (GitEnvDetector.onMessage GitEnvDetector.probedState
          (.removeItem 1 GitEnvDetector.sampleKey)) GitEnvDetector.sampleUrl = .ok st3 ∧
      ∃ G ∈ st3.foundItems, G.target = GitEnvDetector.sampleKey ∧ G.type = "git".toList ∧
        G.url = GitEnvDetector.sampleKey ++ "/.git/config".toList :=
  forget_then_rediscover GitEnvDetector.plainTable (constNet 200 GitEnvDetector.bothBody) 5 6
    GitEnvDetector.probedState
    ⟨1, GitEnvDetector.sampleKey, "git".toList,
      GitEnvDetector.sampleKey ++ "/.git/config".toList, none, 1⟩
    GitEnvDetector.sampleUrl (by decide) (by decide) (by decide)
    (Or.inl ⟨rfl, rfl, rfl, GitEnvDetector.bothBody, rfl, by decide⟩)

/-! ## The two env rules, and `deleteSite` -/

theorem lineBeginsAssign_loose (body : Str) (h : LineBeginsAssign body) :
    LineBeginsLooseAssign body := by
  obtain ⟨pre, w, t, hb, hl, hne, hw⟩ := h
  cases w with
  | nil => exact absurd rfl hne
  | cons c w =>
    refine ⟨pre, c, w, [], t, by simpa using hb, hl, ?_, ?_, by simp⟩
    · rcases hw c (List.mem_cons_self c w) with h1 | h1
      · exact Or.inr (Or.inl h1)
      · exact Or.inr (Or.inr h1)
    · intro d hd
      rcases hw d (List.mem_cons_of_mem c hd) with h1 | h1
      · exact Or.inr (Or.inl h1)
      · exact Or.inr (Or.inr (Or.inr h1))

/-- C27: every body that the env expression of LeakDetect accepts is accepted by
the env expression of git-env-detector; the body `db_host=localhost` is accepted
by the second and not by the first. -/
theorem relaxed_env_rule_extends_strict :
    (∀ body : Str, LeakDetect.PATTERNS.env.regex.test body = true →
      GitEnvDetector.envPattern.test body = true) ∧
    GitEnvDetector.envPattern.test "db_host=localhost".toList = true ∧
    LeakDetect.PATTERNS.env.regex.test "db_host=localhost".toList = false := by
  refine ⟨?_, by decide, by decide⟩
  intro body h
  rw [GitEnvDetector.envPattern_test]
  exact lineBeginsAssign_loose body ((LeakDetect.env_regex_test body).mp h)

/-- C28: after a `deleteSite(url)` that succeeds, the stored list is the old list
without the entries whose url is the argument, of whatever type; no such entry
is left, every other entry is kept, and the order is the old one. -/
theorem deleteSite_removes_origin (io : DotGit.Chrome) (st : DotGit.State) (url : Str)
    (h : (DotGit.deleteSite io st url).2 = true) :
    (DotGit.deleteSite io st url).1.withExposedGit =
      st.withExposedGit.filter (fun site => site.url ≠ url) ∧
    (∀ site ∈ (DotGit.deleteSite io st url).1.withExposedGit, site.url ≠ url) ∧
    (∀ site ∈ st.withExposedGit, site.url ≠ url →
      site ∈ (DotGit.deleteSite io st url).1.withExposedGit) ∧
    ((DotGit.deleteSite io st url).1.withExposedGit).Sublist st.withExposedGit := by
  have hf : (DotGit.deleteSite io st url).1.withExposedGit =
      st.withExposedGit.filter (fun site => site.url ≠ url) := by
    unfold DotGit.deleteSite at h ⊢
    by_cases hg : io.getOk = true
    · by_cases hs : io.setOk = true
      · simp only [hg, hs, Bool.not_true, Bool.false_eq_true, if_false]
        rw [DotGit.setBadge_sites]
      · simp [hg, hs] at h
    · simp [hg] at h
  refine ⟨hf, ?_, ?_, ?_⟩
  · intro site hs
    rw [hf] at hs
    simpa using (List.mem_filter.mp hs).2
  · intro site hs hne
    rw [hf]
    exact List.mem_filter.mpr ⟨hs, by simpa using hne⟩
  · rw [hf]
    exact List.filter_sublist _

/-- C28, witness: the origin `https://a.test` has a git and an env entry, and
another origin has one entry between them. -/
theorem deleteSite_removes_origin_witness :
    (DotGit.deleteSite ⟨true, true, true⟩
      (DotGit.sampleState [⟨"git".toList, "https://a.test".toList, [], 1⟩,
        DotGit.sampleSite 2, ⟨"env".toList, "https://a.test".toList, [], 3⟩] 100)
      "https://a.test".toList).1.withExposedGit = [DotGit.sampleSite 2] :=
  (deleteSite_removes_origin ⟨true, true, true⟩
    (DotGit.sampleState [⟨"git".toList, "https://a.test".toList, [], 1⟩,
      DotGit.sampleSite 2, ⟨"env".toList, "https://a.test".toList, [], 3⟩] 100)
    "https://a.test".toList rfl).1

/-! ## Badge, ids and the shape of the findings of git-env-detector -/

namespace GitEnvDetector

theorem updateBadge_badge (st : State) :
    (updateBadge st).badgeText = badgeFor (updateBadge st) ∧
      (updateBadge st).foundItems = st.foundItems ∧
      (updateBadge st).extensionEnabled = st.extensionEnabled := by
  refine ⟨?_, ?_, ?_⟩
  · unfold updateBadge badgeFor
    cases he : st.extensionEnabled
    · simp [he]
    · by_cases hl : st.foundItems.length = 0
      · simp [he, hl]
      · have : st.foundItems.length > 0 := by omega
        simp [he, hl, this]
  · unfold updateBadge
    split <;> rfl
  · unfold updateBadge
    split <;> rfl

end GitEnvDetector

/-- C26: after `addFoundItem`, after a `removeItem` and a `clearAll` message, and
after a storage change of `extensionEnabled`, the badge text is `OFF` when the
extension is disabled, empty when it is enabled and no finding is stored, and
the number of stored findings in decimal otherwise. -/
theorem badge_follows_state :
    (∀ now st target type url secrets,
      (GitEnvDetector.addFoundItem now st target type url secrets).badgeText =
        GitEnvDetector.badgeFor
          (GitEnvDetector.addFoundItem now st target type url secrets)) ∧
    (∀ st itemId target,
      (GitEnvDetector.onMessage st (.removeItem itemId target)).badgeText =
        GitEnvDetector.badgeFor (GitEnvDetector.onMessage st (.removeItem itemId target))) ∧
    (∀ st, (GitEnvDetector.onMessage st .clearAll).badgeText =
        GitEnvDetector.badgeFor (GitEnvDetector.onMessage st .clearAll)) ∧
    (∀ st v g e, (GitEnvDetector.onStorageChanged st ⟨some v, g, e, none⟩).badgeText =
        GitEnvDetector.badgeFor (GitEnvDetector.onStorageChanged st ⟨some v, g, e, none⟩)) ∧
    (∀ st : GitEnvDetector.State, st.extensionEnabled = false →
      GitEnvDetector.badgeFor st = "OFF".toList) ∧
    (∀ st : GitEnvDetector.State, st.extensionEnabled = true → st.foundItems = [] →
      GitEnvDetector.badgeFor st = []) ∧
    (∀ st : GitEnvDetector.State, st.extensionEnabled = true → st.foundItems ≠ [] →
      GitEnvDetector.badgeFor st = (Nat.repr st.foundItems.length).toList) := by
  refine ⟨?_, ?_, ?_, ?_, ?_, ?_, ?_⟩
  · intro now st target type url secrets
    unfold GitEnvDetector.addFoundItem
    exact (GitEnvDetector.updateBadge_badge _).1
  · intro st itemId target
    unfold GitEnvDetector.onMessage
    exact (GitEnvDetector.updateBadge_badge _).1
  · intro st
    unfold GitEnvDetector.onMessage
    exact (GitEnvDetector.updateBadge_badge _).1
  · intro st v g e
    obtain ⟨h1, h2, h3⟩ := GitEnvDetector.updateBadge_badge { st with extensionEnabled := v }
    unfold GitEnvDetector.onStorageChanged
    cases g <;> cases e <;> exact h1
  · intro st h
    simp [GitEnvDetector.badgeFor, h]
  · intro st h1 h2
    simp [GitEnvDetector.badgeFor, h1, h2]
  · intro st h1 h2
    have : st.foundItems.length ≠ 0 := by
      intro h0
      exact h2 (List.length_eq_zero.mp h0)
    simp [GitEnvDetector.badgeFor, h1, this]

namespace GitEnvDetector

theorem onMessage_clearAll_foundItems (st : State) :
    (onMessage st .clearAll).foundItems = [] := by
  unfold onMessage updateBadge
  simp only
  split <;> rfl

/-- The ids are pairwise distinct and below the bound. -/
theorem applyOps_ids (ops : List StoreOp) (bound : Nat) (st : State)
    (hn : (st.foundItems.map (fun item => item.id)).Nodup)
    (hb : ∀ item ∈ st.foundItems, item.id < bound) (h : StrictlyIncreasing bound ops) :
    ((applyOps st ops).foundItems.map (fun item => item.id)).Nodup := by
  induction ops generalizing bound st with
  | nil => exact hn
  | cons op rest ih =>
    cases op with
    | add now target type url =>
      obtain ⟨h1, h2⟩ := h
      apply ih (now + 1) (applyOp st (.add now target type url)) _ _ h2
      · show ((addFoundItem now st target type url none).foundItems.map
          (fun item => item.id)).Nodup
        rw [addFoundItem_foundItems, List.map_append, List.nodup_append]
        refine ⟨hn, by simp, ?_⟩
        intro a ha hb'
        simp only [List.map_cons, List.map_nil, List.mem_singleton] at hb'
        obtain ⟨item, hi, rfl⟩ := List.mem_map.mp ha
        have := hb item hi
        omega
      · intro item hi
        have hi' : item ∈ (addFoundItem now st target type url none).foundItems := hi
        rw [addFoundItem_foundItems] at hi'
        rcases List.mem_append.mp hi' with hi' | hi'
        · have := hb item hi'
          omega
        · simp only [List.mem_singleton] at hi'
          rw [hi']
          exact Nat.lt_succ_self now
    | remove itemId target =>
      apply ih bound (applyOp st (.remove itemId target)) _ _ h
      · show ((onMessage st (.removeItem itemId target)).foundItems.map
          (fun item => item.id)).Nodup
        rw [(onMessage_removeItem_fields st itemId target).1]
        exact List.Nodup.sublist ((List.filter_sublist _).map _) hn
      · intro item hi
        have hi' : item ∈ (onMessage st (.removeItem itemId target)).foundItems := hi
        rw [(onMessage_removeItem_fields st itemId target).1] at hi'
        exact hb item (List.mem_filter.mp hi').1
    | clear =>
      apply ih bound (applyOp st .clear) _ _ h
      · show ((onMessage st .clearAll).foundItems.map (fun item => item.id)).Nodup
        rw [onMessage_clearAll_foundItems]
        exact List.nodup_nil
      · intro item hi
        have hi' : item ∈ (onMessage st .clearAll).foundItems := hi
        rw [onMessage_clearAll_foundItems] at hi'
        simp at hi'

theorem filter_length_of_nodup (l : List FoundItem) (x : Nat) (p : FoundItem → Bool)
    (hp : ∀ item, p item = false → item.id = x)
    (h : (l.map (fun item => item.id)).Nodup) :
    l.length ≤ (l.filter p).length + 1 := by
  induction l with
  | nil => simp
  | cons a l ih =>
    simp only [List.map_cons, List.nodup_cons] at h
    cases hpa : p a with
    | false =>
      have hall : l.filter p = l := by
        apply List.filter_eq_self.mpr
        intro b hb
        cases hpb : p b with
        | true => rfl
        | false =>
          exfalso
          apply h.1
          rw [hp a hpa, ← hp b hpb]
          exact List.mem_map.mpr ⟨b, hb, rfl⟩
      rw [List.filter_cons_of_neg (by simp [hpa]), hall]
      simp
    | true =>
      rw [List.filter_cons_of_pos hpa]
      have := ih h.2
      simp only [List.length_cons]
      omega

theorem filter_id_length (l : List FoundItem) (x : Nat)
    (h : (l.map (fun item => item.id)).Nodup) :
    l.length ≤ (l.filter (fun item => item.id ≠ x)).length + 1 :=
  filter_length_of_nodup l x _ (fun item hi => by simpa using hi) h

end GitEnvDetector

/-- C23, counterexample: two additions with the same reading 5 of the clock,
which never goes down, store two findings with the id 5, and `removeItem` with
this id removes both. -/
theorem ids_counterexample :
    GitEnvDetector.NonDecreasing 0 GitEnvDetector.sameTickOps ∧
    (GitEnvDetector.applyOps GitEnvDetector.initialState
      GitEnvDetector.sameTickOps).foundItems.map (fun item => (item.id, item.type)) =
        [(5, "git".toList), (5, "env".toList)] ∧
    (GitEnvDetector.onMessage (GitEnvDetector.applyOps GitEnvDetector.initialState
      GitEnvDetector.sameTickOps) (.removeItem 5 GitEnvDetector.sampleKey)).foundItems = [] :=
  ⟨⟨by decide, by decide, trivial⟩, by decide, by decide⟩

/-- C23, amended: in every state reached from the empty store through
`addFoundItem`, `removeItem` and `clearAll` with a clock whose readings at the
additions go up strictly, the stored findings have pairwise distinct ids, so that
a `removeItem` removes at most one finding. -/
theorem ids_unique_with_strict_clock (ops : List GitEnvDetector.StoreOp)
    (h : GitEnvDetector.StrictlyIncreasing 0 ops) :
    ((GitEnvDetector.applyOps GitEnvDetector.initialState ops).foundItems.map
      (fun item => item.id)).Nodup ∧
    ∀ itemId target,
      (GitEnvDetector.applyOps GitEnvDetector.initialState ops).foundItems.length ≤
        (GitEnvDetector.onMessage (GitEnvDetector.applyOps GitEnvDetector.initialState ops)
          (.removeItem itemId target)).foundItems.length + 1 := by
  have hn := GitEnvDetector.applyOps_ids ops 0 GitEnvDetector.initialState
    (by simp [GitEnvDetector.initialState]) (by simp [GitEnvDetector.initialState]) h
  refine ⟨hn, ?_⟩
  intro itemId target
  rw [(GitEnvDetector.onMessage_removeItem_fields _ itemId target).1]
  exact GitEnvDetector.filter_id_length _ itemId hn

/-- C23, witness: two additions with the readings 5 and 6. -/
theorem ids_unique_with_strict_clock_witness :
    ((GitEnvDetector.applyOps GitEnvDetector.initialState
      [.add 5 GitEnvDetector.sampleKey "git".toList [],
        .add 6 GitEnvDetector.sampleKey "env".toList []]).foundItems.map
      (fun item => item.id)).Nodup ∧
    ∀ itemId target,
      (GitEnvDetector.applyOps GitEnvDetector.initialState
        [.add 5 GitEnvDetector.sampleKey "git".toList [],
          .add 6 GitEnvDetector.sampleKey "env".toList []]).foundItems.length ≤
        (GitEnvDetector.onMessage (GitEnvDetector.applyOps GitEnvDetector.initialState
          [.add 5 GitEnvDetector.sampleKey "git".toList [],
            .add 6 GitEnvDetector.sampleKey "env".toList []])
          (.removeItem itemId target)).foundItems.length + 1 :=
  ids_unique_with_strict_clock _ ⟨by decide, by decide, trivial⟩

namespace GitEnvDetector

/-- After a call of `checkTarget`, a call for an address with the same key
changes nothing. -/
theorem checkTarget_then_closed (U : CaseTable) (net : Network) (now1 now2 : Nat) (st : State)
    (url : Url) :
    ∃ st1, checkTarget U net now1 now2 st url = .ok st1 ∧
      ∀ url2 now3 now4, targetKeyOf url2 = targetKeyOf url →
        checkTarget U net now3 now4 st1 url2 = .ok st1 := by
  rcases gate_cases st (targetKeyOf url) with h | ⟨c1, c2⟩
  · refine ⟨st, checkTarget_closed U net now1 now2 st url h, ?_⟩
    intro url2 now3 now4 hk
    exact checkTarget_closed U net now3 now4 st url2 (by rw [hk]; exact h)
  · obtain ⟨G, E, -, -, -, -, hc, -⟩ := afterGate_shape U net now1 now2
      { st with checkedTargets := setAdd st.checkedTargets (targetKeyOf url) } (targetKeyOf url)
    refine ⟨_, checkTarget_open U net now1 now2 st url c1 c2, ?_⟩
    intro url2 now3 now4 hk
    apply checkTarget_closed
    left
    rw [hk, contains_iff, hc]
    exact mem_setAdd_self _ _

end GitEnvDetector

/-- C25: the findings that a call of `checkTarget` stores have the target
`scheme + '://' + hostname`, no secrets, and the url `target + '/.git/config'`
for the type git and `target + '/.env'` for the type env, which is the address of
the request that was issued; two addresses with the same protocol and hostname
have the same key, and the call for the second is skipped. -/
theorem created_finding_shape (U : GitEnvDetector.CaseTable) (net : Network)
    (now1 now2 : Nat) (st : GitEnvDetector.State) (url : GitEnvDetector.Url) :
    (∃ st' G E, GitEnvDetector.checkTarget U net now1 now2 st url = .ok st' ∧
      st'.foundItems = st.foundItems ++ G ++ E ∧
      (∀ item ∈ G, item.target = url.protocol.erase ':' ++ "://".toList ++ url.hostname ∧
        item.type = "git".toList ∧ item.url = item.target ++ "/.git/config".toList ∧
        item.secrets = none ∧ GitEnvDetector.gitRequest item.target ∈ st'.requests ∧
        (GitEnvDetector.gitRequest item.target).url = item.url) ∧
      (∀ item ∈ E, item.target = url.protocol.erase ':' ++ "://".toList ++ url.hostname ∧
        item.type = "env".toList ∧ item.url = item.target ++ "/.env".toList ∧
        item.secrets = none ∧ GitEnvDetector.envRequest item.target ∈ st'.requests ∧
        (GitEnvDetector.envRequest item.target).url = item.url)) ∧
    (∀ url2 : GitEnvDetector.Url, url2.protocol = url.protocol →
      url2.hostname = url.hostname →
      GitEnvDetector.targetKeyOf url2 = GitEnvDetector.targetKeyOf url) ∧
    (∃ st1, GitEnvDetector.checkTarget U net now1 now2 st url = .ok st1 ∧
      ∀ url2 now3 now4, url2.protocol = url.protocol → url2.hostname = url.hostname →
        GitEnvDetector.checkTarget U net now3 now4 st1 url2 = .ok st1) := by
  have hkey : ∀ url2 : GitEnvDetector.Url, url2.protocol = url.protocol →
      url2.hostname = url.hostname →
      GitEnvDetector.targetKeyOf url2 = GitEnvDetector.targetKeyOf url := by
    intro url2 hp hh
    unfold GitEnvDetector.targetKeyOf
    rw [hp, hh]
  refine ⟨?_, hkey, ?_⟩
  · rcases GitEnvDetector.gate_cases st (GitEnvDetector.targetKeyOf url) with h | ⟨c1, c2⟩
    · exact ⟨st, [], [], GitEnvDetector.checkTarget_closed U net now1 now2 st url h,
        by simp, by simp, by simp⟩
    · obtain ⟨G, E, hG, hE, hf, -, -, hr⟩ := GitEnvDetector.afterGate_shape U net now1 now2
        { st with checkedTargets :=
          GitEnvDetector.setAdd st.checkedTargets (GitEnvDetector.targetKeyOf url) }
        (GitEnvDetector.targetKeyOf url)
      refine ⟨_, G, E, GitEnvDetector.checkTarget_open U net now1 now2 st url c1 c2, hf, ?_, ?_⟩
      · intro item hi
        rcases hG with hG | ⟨hen, hG⟩
        · rw [hG] at hi
          simp at hi
        · rw [hG] at hi
          simp only [List.mem_singleton] at hi
          subst hi
          refine ⟨rfl, rfl, rfl, rfl, ?_, rfl⟩
          rw [hr]
          have hen' : st.gitCheckEnabled = true := hen
          simp [hen']
      · intro item hi
        rcases hE with hE | ⟨hen, hE⟩
        · rw [hE] at hi
          simp at hi
        · rw [hE] at hi
          simp only [List.mem_singleton] at hi
          subst hi
          refine ⟨rfl, rfl, rfl, rfl, ?_, rfl⟩
          rw [hr]
          have hen' : st.envCheckEnabled = true := hen
          simp [hen']
  · obtain ⟨st1, h1, h2⟩ := GitEnvDetector.checkTarget_then_closed U net now1 now2 st url
    exact ⟨st1, h1, fun url2 now3 now4 hp hh => h2 url2 now3 now4 (hkey url2 hp hh)⟩

/-! ## The kinds that `checkSite` probes and reports -/

namespace LeakDetect

theorem envRequest_ne_head (url : Str) : envRequest url ≠ headRequest url := by
  intro h
  have h1 : url ++ PATHS.env = url ++ PATHS.git.head := congrArg Request.url h
  exact absurd (List.append_cancel_left h1) (by decide)

theorem envRequest_ne_config (url : Str) : envRequest url ≠ configRequest url := by
  intro h
  have h1 : url ++ PATHS.env = url ++ PATHS.git.config := congrArg Request.url h
  exact absurd (List.append_cancel_left h1) (by decide)

/-- The run of `checkSite` with the field `functions`, from the results of the
two checks. -/
theorem checkSite_run (net : Network) (sendMessage : FindingsMessage → Except Fault Unit)
    (url : Str) (functions : Functions) :
    checkSite net sendMessage url ⟨some functions⟩ =
      if expectedTypes net url functions = [] then
        ⟨.ok ⟨[], true, none⟩,
          startedTogether (if functions.git then (checkGit net url []).2 else [])
            (if functions.env then [envRequest url] else []), []⟩
      else
        match sendMessage ⟨url, expectedTypes net url functions⟩ with
        | .ok _ =>
          ⟨.ok ⟨expectedTypes net url functions, true, none⟩,
            startedTogether (if functions.git then (checkGit net url []).2 else [])
              (if functions.env then [envRequest url] else []),
            [⟨url, expectedTypes net url functions⟩]⟩
        | .error e =>
          ⟨.ok ⟨[], false, some e⟩,
            startedTogether (if functions.git then (checkGit net url []).2 else [])
              (if functions.env then [envRequest url] else []), []⟩ := by
  obtain ⟨bg, lg, hg⟩ : ∃ bg lg, checkGit net url [] = (.ok bg, lg) := by
    obtain ⟨b, h | h⟩ := checkGit_cases net url []
    · exact ⟨b, _, h⟩
    · exact ⟨b, _, h⟩
  obtain ⟨be, he⟩ := checkEnv_cases net url []
  rcases functions with ⟨g, e⟩
  unfold expectedTypes checkSite checkSiteTry
  cases g <;> cases e <;> cases bg <;> cases be <;>
    cases hsend1 : sendMessage ⟨url, [['g', 'i', 't']]⟩ <;>
    cases hsend2 : sendMessage ⟨url, [['e', 'n', 'v']]⟩ <;>
    cases hsend3 : sendMessage ⟨url, [['g', 'i', 't'], ['e', 'n', 'v']]⟩ <;>
    simp [hg, he, found, hsend1, hsend2, hsend3]

end LeakDetect

/-- C24 (counterexample): `/.git/HEAD` answers 200 with `ref: refs/heads/main`,
so that the check of the enabled kind git returns `true`, and the call of
`chrome.runtime.sendMessage` throws: `checkSite` returns no found types, with
`success: false`. -/
theorem only_enabled_kinds_counterexample :
    LeakDetect.expectedTypes (constNet 200 "ref: refs/heads/main".toList)
      "https://example.test".toList ⟨true, false⟩ = ["git".toList] ∧
    LeakDetect.checkSite (constNet 200 "ref: refs/heads/main".toList)
      LeakDetect.brokenRuntime "https://example.test".toList ⟨some ⟨true, false⟩⟩ =
        ⟨.ok ⟨[], false, some .runtime⟩,
          [LeakDetect.headRequest "https://example.test".toList], []⟩ := by
  have h : LeakDetect.expectedTypes (constNet 200 "ref: refs/heads/main".toList)
      "https://example.test".toList ⟨true, false⟩ = ["git".toList] := by decide
  have hlog : (LeakDetect.checkGit (constNet 200 "ref: refs/heads/main".toList)
      "https://example.test".toList []).2 =
        [LeakDetect.headRequest "https://example.test".toList] := by
    rw [LeakDetect.checkGit_head_match (constNet 200 "ref: refs/heads/main".toList)
      "https://example.test".toList [] ⟨200, .ok "ref: refs/heads/main".toList⟩ rfl
      (congrArg Except.ok (by decide :
        LeakDetect.headTextMatches "ref: refs/heads/main".toList = true))]
    rfl
  refine ⟨h, ?_⟩
  rw [LeakDetect.checkSite_run, h, hlog]
  rfl

/-- C24: `checkSite` calls `fetch` for the enabled kinds only, for `/.git/HEAD`,
then `/.env`, then `/.git/config`. With `T` the list of the enabled kinds whose
check returned `true`, git before env: when `T` is empty, `foundTypes` is empty
and nothing is sent; when `T` is not empty and `chrome.runtime.sendMessage`
returns, `foundTypes` is `T` and the one message `FINDINGS_FOUND` carries the
probed url and `T`; when the call throws, the `catch` block returns no found
types with `success: false` and nothing is sent. Without the field `functions`
nothing is requested or sent. -/
theorem only_enabled_kinds (net : Network)
    (sendMessage : LeakDetect.FindingsMessage → Except Fault Unit) (url : Str)
    (functions : LeakDetect.Functions) :
    (LeakDetect.checkSite net sendMessage url ⟨some functions⟩).requests =
      LeakDetect.startedTogether
        (if functions.git then (LeakDetect.checkGit net url []).2 else [])
        (if functions.env then [LeakDetect.envRequest url] else []) ∧
    (functions.git = false →
      ∀ r ∈ (LeakDetect.checkSite net sendMessage url ⟨some functions⟩).requests,
        r = LeakDetect.envRequest url) ∧
    (functions.env = false →
      LeakDetect.envRequest url ∉
        (LeakDetect.checkSite net sendMessage url ⟨some functions⟩).requests) ∧
    (LeakDetect.expectedTypes net url functions = [] →
      (LeakDetect.checkSite net sendMessage url ⟨some functions⟩).value =
        .ok ⟨[], true, none⟩ ∧
      (LeakDetect.checkSite net sendMessage url ⟨some functions⟩).messages = []) ∧
    (LeakDetect.expectedTypes net url functions ≠ [] →
      sendMessage ⟨url, LeakDetect.expectedTypes net url functions⟩ = .ok () →
      (LeakDetect.checkSite net sendMessage url ⟨some functions⟩).value =
        .ok ⟨LeakDetect.expectedTypes net url functions, true, none⟩ ∧
      (LeakDetect.checkSite net sendMessage url ⟨some functions⟩).messages =
        [⟨url, LeakDetect.expectedTypes net url functions⟩]) ∧
    (LeakDetect.expectedTypes net url functions ≠ [] →
      ∀ e, sendMessage ⟨url, LeakDetect.expectedTypes net url functions⟩ = .error e →
      (LeakDetect.checkSite net sendMessage url ⟨some functions⟩).value =
        .ok ⟨[], false, some e⟩ ∧
      (LeakDetect.checkSite net sendMessage url ⟨some functions⟩).messages = []) ∧
    LeakDetect.checkSite net sendMessage url ⟨none⟩ =
      ⟨.ok ⟨[], false, some .typeError⟩, [], []⟩ := by
  have hrun := LeakDetect.checkSite_run net sendMessage url functions
  have hreq : (LeakDetect.checkSite net sendMessage url ⟨some functions⟩).requests =
      LeakDetect.startedTogether
        (if functions.git then (LeakDetect.checkGit net url []).2 else [])
        (if functions.env then [LeakDetect.envRequest url] else []) := by
    rw [hrun]
    split
    · rfl
    · split <;> rfl
  refine ⟨hreq, ?_, ?_, ?_, ?_, ?_, rfl⟩
  · intro hgit r hr
    rw [hreq, hgit] at hr
    cases hf : functions.env <;> simp [hf, LeakDetect.startedTogether] at hr
    exact hr
  · intro henv hmem
    rw [hreq, henv] at hmem
    cases hf : functions.git
    · simp [hf, LeakDetect.startedTogether] at hmem
    · obtain ⟨b, h | h⟩ := LeakDetect.checkGit_cases net url []
      · simp [hf, h, LeakDetect.startedTogether] at hmem
        exact LeakDetect.envRequest_ne_head url hmem
      · simp [hf, h, LeakDetect.startedTogether] at hmem
        rcases hmem with hmem | hmem
        · exact LeakDetect.envRequest_ne_head url hmem
        · exact LeakDetect.envRequest_ne_config url hmem
  · intro hT
    rw [hrun, if_pos hT]
    exact ⟨rfl, rfl⟩
  · intro hT hs
    rw [hrun, if_neg hT, hs]
    exact ⟨rfl, rfl⟩
  · intro hT e hs
    rw [hrun, if_neg hT, hs]
    exact ⟨rfl, rfl⟩

/-! ## Addresses that cannot be parsed -/

namespace GitEnvDetector

theorem tryCheck_unparsed (parse : Str → Option Url) (bg : Background) (text : Str)
    (record : Option Nat) (h : parse text = none) : tryCheck parse bg text record = bg := by
  unfold tryCheck
  rw [h]

end GitEnvDetector

/-- C21 (counterexample): with the extension enabled, `processWebRequest` for the
text `not a url` ends with the fault of the constructor `URL`: its promise is
rejected. -/
theorem malformed_url_counterexample :
    DotGit.storedSession.extensionEnabled = true ∧
    DotGit.sampleBrowser.origin "not a url".toList = none ∧
    DotGit.processWebRequest DotGit.sampleBrowser DotGit.storedSession "not a url".toList =
      .error .typeError :=
  ⟨rfl, rfl, rfl⟩

/-- C21: for an address that `new URL` rejects, the listeners of git-env-detector
return with the state, the calls in flight and `tabUrls` as they were, and a call
of `processWebRequest` of LeakDetect leaves the session as it was: nothing is
added to `processingUrls`, to the stored list or to the messages sent. The call
returns before the constructor while the extension is disabled; while it is
enabled, it ends with the fault of the constructor, which stands outside the
`try`. -/
theorem malformed_url_handling :
    (∀ (parse : Str → Option GitEnvDetector.Url) (bg : GitEnvDetector.Background)
        (details : GitEnvDetector.NavDetails), parse details.url = none →
      GitEnvDetector.onBeforeNavigate parse bg details = bg ∧
      GitEnvDetector.onCommitted parse bg details = bg) ∧
    (∀ (parse : Str → Option GitEnvDetector.Url) (bg : GitEnvDetector.Background)
        (tabId : Nat) (changeInfo : GitEnvDetector.ChangeInfo) (tabUrl : Option Str),
      (∀ text, changeInfo.url = some text → parse text = none) →
      (∀ text, tabUrl = some text → parse text = none) →
      GitEnvDetector.onUpdated parse bg tabId changeInfo tabUrl = bg) ∧
    (∀ (io : DotGit.Browser) (s : DotGit.Session) (url : Str), io.origin url = none →
      DotGit.sessionAfter io s url = s ∧
      DotGit.processWebRequest io s url =
        if s.extensionEnabled then .error .typeError else .ok s) := by
  refine ⟨?_, ?_, ?_⟩
  · intro parse bg details h
    unfold GitEnvDetector.onBeforeNavigate GitEnvDetector.onCommitted
    rw [GitEnvDetector.tryCheck_unparsed parse bg details.url _ h,
      GitEnvDetector.tryCheck_unparsed parse bg details.url _ h]
    simp
  · intro parse bg tabId changeInfo tabUrl h1 h2
    unfold GitEnvDetector.onUpdated
    have hchanged : (match changeInfo.url with
        | some (c :: cs) =>
          if some (c :: cs) ≠ GitEnvDetector.mapGet bg.tabUrls tabId then
            GitEnvDetector.tryCheck parse bg (c :: cs) (some tabId)
          else bg
        | _ => bg) = bg := by
      split
      · rename_i c cs hc
        rw [GitEnvDetector.tryCheck_unparsed parse bg _ _ (h1 _ hc)]
        simp
      · rfl
    simp only [hchanged]
    split
    · rfl
    · split
      · rw [GitEnvDetector.tryCheck_unparsed parse bg _ _ (h2 _ rfl)]
        simp
      · rfl
  · intro io s url h
    unfold DotGit.sessionAfter DotGit.processWebRequest DotGit.processStart
    cases s.extensionEnabled <;> simp [h]

/-! ## The origins in progress -/

namespace DotGit

theorem contains_setDelete (l : List Str) (k : Str) :
    (GitEnvDetector.setDelete l k).contains k = false := by
  unfold GitEnvDetector.setDelete
  rw [Bool.eq_false_iff]
  intro h
  rw [GitEnvDetector.contains_iff, List.mem_filter] at h
  simpa using h.2

theorem contains_setAdd (l : List Str) (k : Str) :
    (GitEnvDetector.setAdd l k).contains k = true := by
  rw [GitEnvDetector.contains_iff]
  exact GitEnvDetector.mem_setAdd_self l k

theorem contactTab_processingUrls (io : Browser) (s : Session) (tab : Nat) (origin : Str)
    (options : Options) : (contactTab io s tab origin options).processingUrls =
      s.processingUrls := by
  unfold contactTab
  cases io.ping tab with
  | error e => rfl
  | ok b =>
    cases b <;> cases io.executeScript tab <;> cases io.sendMessage ⟨tab, origin, options⟩ <;> rfl

theorem contactTab_sent (io : Browser) (s : Session) (tab : Nat) (origin : Str)
    (options : Options)
    (h : io.ping tab = .ok true ∨ (io.ping tab = .ok false ∧ io.executeScript tab = .ok ())) :
    (contactTab io s tab origin options).sent = s.sent ++ [⟨tab, origin, options⟩] := by
  unfold contactTab
  rcases h with h | ⟨h1, h2⟩
  · rw [h]
    cases io.sendMessage ⟨tab, origin, options⟩ <;> rfl
  · rw [h1]
    simp only [Bool.not_false, if_true, h2]
    cases io.sendMessage ⟨tab, origin, options⟩ <;> rfl

theorem processRest_processingUrls (io : Browser) (s : Session) (url origin : Str) :
    (processRest io s url origin).processingUrls =
      GitEnvDetector.setDelete s.processingUrls origin := by
  unfold processRest
  cases io.options with
  | error e => rfl
  | ok result =>
    cases io.query url with
    | error e => rfl
    | ok tabs =>
      cases tabs with
      | nil => rfl
      | cons tab rest =>
        simp only
        rw [contactTab_processingUrls]

theorem contactTab_stored (io : Browser) (s : Session) (tab : Nat) (origin : Str)
    (options : Options) (w : List Site) :
    contactTab io { s with withExposedGit := w } tab origin options =
      { contactTab io s tab origin options with withExposedGit := w } := by
  unfold contactTab
  cases io.ping tab with
  | error e => rfl
  | ok b =>
    cases b <;> cases io.executeScript tab <;> cases io.sendMessage ⟨tab, origin, options⟩ <;> rfl

theorem processRest_stored (io : Browser) (s : Session) (url origin : Str) (w : List Site) :
    processRest io { s with withExposedGit := w } url origin =
      { processRest io s url origin with withExposedGit := w } := by
  unfold processRest
  cases io.options with
  | error e => rfl
  | ok result =>
    cases io.query url with
    | error e => rfl
    | ok tabs =>
      cases tabs with
      | nil => rfl
      | cons tab rest =>
        simp only
        rw [contactTab_stored]

end DotGit

/-- C22 (counterexample): in a session that holds the git finding of the origin
`https://example.test`, git being the only enabled kind, `processWebRequest` for
`https://example.test/` sends `CHECK_SITE` and completes, and the next
`processWebRequest` for the same address sends `CHECK_SITE` again. -/
theorem session_ledger_counterexample :
    DotGit.processWebRequest DotGit.sampleBrowser DotGit.storedSession
        "https://example.test/".toList =
      .ok { DotGit.storedSession with sent := [DotGit.sampleCheck] } ∧
    DotGit.processWebRequest DotGit.sampleBrowser
        { DotGit.storedSession with sent := [DotGit.sampleCheck] }
        "https://example.test/".toList =
      .ok { DotGit.storedSession with sent := [DotGit.sampleCheck, DotGit.sampleCheck] } :=
  ⟨rfl, rfl⟩

/-- C22: while the origin of an address is in `processingUrls`, `processWebRequest`
for the address sends nothing and changes nothing; otherwise, with the extension
enabled, the call adds the origin before its first `await` and removes it when
it completes, and it sends `CHECK_SITE` for the origin to the first tab found when
the content script answers or is injected; the stored findings have no part in
it. -/
theorem in_progress_ledger (io : DotGit.Browser) (s : DotGit.Session) (url origin : Str)
    (h : io.origin url = some origin) :
    (s.processingUrls.contains origin = true → DotGit.processWebRequest io s url = .ok s) ∧
    (s.extensionEnabled = true → s.processingUrls.contains origin = false →
      ∃ s1, DotGit.processStart io s url = .ok (s1, some origin) ∧
        s1.processingUrls.contains origin = true ∧ s1.sent = s.sent ∧
        DotGit.processWebRequest io s url = .ok (DotGit.processRest io s1 url origin) ∧
        (DotGit.processRest io s1 url origin).processingUrls.contains origin = false ∧
        ∀ tab rest options, io.query url = .ok (tab :: rest) → io.options = .ok options →
          (io.ping tab = .ok true ∨
            (io.ping tab = .ok false ∧ io.executeScript tab = .ok ())) →
          (DotGit.processRest io s1 url origin).sent =
            s.sent ++ [⟨tab, origin, options.getD DotGit.DEFAULT_OPTIONS⟩]) ∧
    (∀ w, DotGit.processWebRequest io { s with withExposedGit := w } url =
      (DotGit.processWebRequest io s url).map (fun t => { t with withExposedGit := w })) := by
  refine ⟨?_, ?_, ?_⟩
  · intro hc
    have hm : origin ∈ s.processingUrls := (GitEnvDetector.contains_iff _ _).1 hc
    unfold DotGit.processWebRequest DotGit.processStart
    cases s.extensionEnabled <;> simp [h, hm]
  · intro hen hc
    have hm : origin ∉ s.processingUrls := by
      intro hm
      rw [(GitEnvDetector.contains_iff _ _).2 hm] at hc
      exact Bool.noConfusion hc
    refine ⟨{ s with processingUrls := GitEnvDetector.setAdd s.processingUrls origin },
      ?_, DotGit.contains_setAdd _ _, rfl, ?_, ?_, ?_⟩
    · unfold DotGit.processStart
      simp [h, hm, hen]
    · unfold DotGit.processWebRequest DotGit.processStart
      simp [h, hm, hen]
    · rw [DotGit.processRest_processingUrls]
      exact DotGit.contains_setDelete _ _
    · intro tab rest options hq ho hp
      unfold DotGit.processRest
      simp only [ho, hq]
      rw [DotGit.contactTab_sent io _ tab origin _ hp]
  · intro w
    rcases s with ⟨en, pu, wg, inj, snt⟩
    unfold DotGit.processWebRequest DotGit.processStart
    by_cases hm : origin ∈ pu
    · cases en <;> simp [h, hm, Except.map]
    · cases en
      · simp [Except.map]
      · simpa [h, hm, Except.map] using DotGit.processRest_stored io
          ⟨true, GitEnvDetector.setAdd pu origin, wg, inj, snt⟩ url origin w

theorem in_progress_ledger_witness :
    DotGit.sampleBrowser.origin "https://example.test/".toList =
      some "https://example.test".toList ∧
    ∃ s1, DotGit.processStart DotGit.sampleBrowser DotGit.storedSession
        "https://example.test/".toList = .ok (s1, some "https://example.test".toList) ∧
      s1.processingUrls.contains "https://example.test".toList = true :=
  ⟨rfl,
    let ⟨s1, h1, h2, _⟩ := (in_progress_ledger DotGit.sampleBrowser DotGit.storedSession
      "https://example.test/".toList "https://example.test".toList rfl).2.1 rfl rfl
    ⟨s1, h1, h2⟩⟩

/-! ## Parameters with one key and two values -/

/-- C29: with the parameters `a=1` and `a=2`, `addParamsToUrl` turns
`https://example.test/` into `https://example.test/?a=2`, that into
`https://example.test/?a=1`, and that into `https://example.test/?a=2` again, and
`handleUrlUpdate` calls `chrome.tabs.update` for each of the two rewritten
addresses with the other one. -/
theorem param_injection_cycle :
    AutoParamAdder.addParamsToUrl AutoParamAdder.plainLib "https://example.test/".toList
        ["a=1".toList, "a=2".toList] = "https://example.test/?a=2".toList ∧
    AutoParamAdder.addParamsToUrl AutoParamAdder.plainLib "https://example.test/?a=2".toList
        ["a=1".toList, "a=2".toList] = "https://example.test/?a=1".toList ∧
    AutoParamAdder.addParamsToUrl AutoParamAdder.plainLib "https://example.test/?a=1".toList
        ["a=1".toList, "a=2".toList] = "https://example.test/?a=2".toList ∧
    AutoParamAdder.addParamsToUrl AutoParamAdder.plainLib
        (AutoParamAdder.addParamsToUrl AutoParamAdder.plainLib "https://example.test/".toList
          ["a=1".toList, "a=2".toList]) ["a=1".toList, "a=2".toList] ≠
      AutoParamAdder.addParamsToUrl AutoParamAdder.plainLib "https://example.test/".toList
        ["a=1".toList, "a=2".toList] ∧
    AutoParamAdder.handleUrlUpdate AutoParamAdder.plainLib true ["a=1".toList, "a=2".toList]
        (AutoParamAdder.navigation "https://example.test/?a=2".toList) =
      some (1, "https://example.test/?a=1".toList) ∧
    AutoParamAdder.handleUrlUpdate AutoParamAdder.plainLib true ["a=1".toList, "a=2".toList]
        (AutoParamAdder.navigation "https://example.test/?a=1".toList) =
      some (1, "https://example.test/?a=2".toList) := by
  refine ⟨?_, ?_, ?_, ?_, ?_, ?_⟩ <;> decide

/-! ## The iteration over an array in a query -/

namespace JsonBeautifier

theorem foldl_plain (parseInt : Str → JsNumber) (k : Str)
    (hk : ∀ c ∈ k, c ≠ '.' ∧ c ≠ '[' ∧ c ≠ ']') (parts : List Part) (current : Str)
    (b : Bool) :
    k.foldl (parseStep parseInt) ⟨parts, current, b⟩ = ⟨parts, current ++ k, b⟩ := by
  induction k generalizing current with
  | nil => simp
  | cons c t ih =>
    obtain ⟨h1, h2, h3⟩ := hk c (List.mem_cons_self c t)
    rw [List.foldl_cons]
    have hstep : parseStep parseInt ⟨parts, current, b⟩ c = ⟨parts, current ++ [c], b⟩ := by
      unfold parseStep
      simp [h1, h2, h3]
    rw [hstep, ih (fun d hd => hk d (List.mem_cons_of_mem c hd))]
    simp

theorem parseQuery_iteration (parseInt : Str → JsNumber) (k : Str) (hk : PlainKey k) :
    parseQuery parseInt (".[].".toList ++ k) = [.str "[]".toList, .str k] := by
  obtain ⟨hne, hplain⟩ := hk
  have hq : ".[].".toList ++ k = '.' :: '[' :: ']' :: '.' :: k := rfl
  rw [hq]
  unfold parseQuery
  have h1 : ¬ (('.' :: '[' :: ']' :: '.' :: k) = [] ∨
      ('.' :: '[' :: ']' :: '.' :: k) = ['.']) := by simp
  rw [if_neg h1]
  simp only [List.foldl_cons]
  have s1 : parseStep parseInt ⟨[], [], false⟩ '[' = ⟨[], [], true⟩ := rfl
  have s2 : parseStep parseInt ⟨[], [], true⟩ ']' = ⟨[.str "[]".toList], [], false⟩ := rfl
  have s3 : parseStep parseInt ⟨[.str "[]".toList], [], false⟩ '.' =
      ⟨[.str "[]".toList], [], false⟩ := rfl
  rw [s1, s2, s3, foldl_plain parseInt k hplain]
  simp [hne]

theorem key_ne_all (k : Str) (hk : PlainKey k) : Part.str k ≠ Part.str "[]".toList := by
  intro h
  injection h with h
  have := (hk.2 '[' (by rw [h]; decide)).2.1
  exact this rfl

theorem collect_values (proto : Str → Option Json) (k : Str) (hk : PlainKey k)
    (items values : List Json) (hv : HasValues k items values) :
    collect proto (.str k) items = .ok values := by
  unfold HasValues at hv
  induction hv with
  | nil => rfl
  | @cons a b l1 l2 hhead _ ih =>
    obtain ⟨fields, rfl, hl⟩ := hhead
    unfold collect
    have hs : stepPart proto (.str k) (.obj fields) = .ok [b] := by
      unfold stepPart
      simp only [if_neg (key_ne_all k hk), hl]
    rw [hs, ih]
    rfl

theorem collect_all (proto : Str → Option Json) (items : List Json) :
    collect proto (.str "[]".toList) [.arr items] = .ok items := by
  simp [collect, stepPart]

theorem executeQuery_iteration (parseInt : Str → JsNumber) (proto : Str → Option Json)
    (k : Str) (hk : PlainKey k) (items values : List Json) (hv : HasValues k items values) :
    executeQuery parseInt proto (.arr items) (".[].".toList ++ k) =
      .success (resultOf values) := by
  unfold executeQuery
  simp only [parseQuery_iteration parseInt k hk]
  simp only [evalParts, collect_all, collect_values proto k hk items values hv]
  rw [if_neg (by simp)]
  rfl

end JsonBeautifier

/-- C30 (counterexample): for the array of the one object with the name `x`, the
query `.[].name` gives the string `x` and not the array that holds it. -/
theorem array_iteration_counterexample :
    JsonBeautifier.PlainKey "name".toList ∧
    JsonBeautifier.HasValues "name".toList [JsonBeautifier.person "x".toList]
      [.str "x".toList] ∧
    JsonBeautifier.executeQuery JsonBeautifier.notANumber JsonBeautifier.ownOnly
      (.arr [JsonBeautifier.person "x".toList]) ".[].name".toList =
        .success (.str "x".toList) ∧
    JsonBeautifier.executeQuery JsonBeautifier.notANumber JsonBeautifier.ownOnly
      (.arr [JsonBeautifier.person "x".toList]) ".[].name".toList ≠
        .success (.arr [.str "x".toList]) := by
  have h : JsonBeautifier.executeQuery JsonBeautifier.notANumber JsonBeautifier.ownOnly
      (.arr [JsonBeautifier.person "x".toList]) ".[].name".toList =
        .success (.str "x".toList) := rfl
  refine ⟨⟨by decide, by decide⟩, ?_, h, ?_⟩
  · exact List.Forall₂.cons ⟨_, rfl, rfl⟩ List.Forall₂.nil
  · rw [h]
    intro hc
    injection hc with hc
    exact JsonBeautifier.Json.noConfusion hc

/-- C30: for an array whose elements are objects with the own property `k`, a
key that is not empty and has no `.`, `[` or `]`, the query `.[].k` succeeds; the
result is the array of the values of `k`, in order and as long as the array,
unless the array has one element, and then the result is the value of `k` in
that element. -/
theorem array_iteration_result (parseInt : Str → JsonBeautifier.JsNumber)
    (proto : Str → Option JsonBeautifier.Json) (k : Str) (items values : List JsonBeautifier.Json)
    (hk : JsonBeautifier.PlainKey k) (hv : JsonBeautifier.HasValues k items values) :
    values.length = items.length ∧
    (items.length ≠ 1 →
      JsonBeautifier.executeQuery parseInt proto (.arr items) (".[].".toList ++ k) =
        .success (.arr values)) ∧
    (∀ v, values = [v] →
      JsonBeautifier.executeQuery parseInt proto (.arr items) (".[].".toList ++ k) =
        .success v) := by
  have hlen : values.length = items.length := (List.Forall₂.length_eq hv).symm
  refine ⟨hlen, ?_, ?_⟩
  · intro hne
    rw [JsonBeautifier.executeQuery_iteration parseInt proto k hk items values hv]
    match values, hlen with
    | [], _ => rfl
    | [v], h => exact absurd h.symm hne
    | _ :: _ :: _, _ => rfl
  · intro v hvv
    rw [JsonBeautifier.executeQuery_iteration parseInt proto k hk items values hv, hvv]
    rfl

theorem array_iteration_result_witness :
    JsonBeautifier.PlainKey "name".toList ∧
    JsonBeautifier.executeQuery JsonBeautifier.notANumber JsonBeautifier.ownOnly
      (.arr [JsonBeautifier.person "x".toList, JsonBeautifier.person "y".toList])
      (".[].".toList ++ "name".toList) =
        .success (.arr [.str "x".toList, .str "y".toList]) :=
  ⟨⟨by decide, by decide⟩,
    (array_iteration_result JsonBeautifier.notANumber JsonBeautifier.ownOnly "name".toList
      [JsonBeautifier.person "x".toList, JsonBeautifier.person "y".toList]
      [.str "x".toList, .str "y".toList] ⟨by decide, by decide⟩
      (List.Forall₂.cons ⟨_, rfl, rfl⟩ (List.Forall₂.cons ⟨_, rfl, rfl⟩ List.Forall₂.nil))).2.1
      (by decide)⟩
